import Mathlib

/-!
# Go board game back end: rules engine and evaluator

A shallow embedding of `go_backend.go`.  Go `int` values are `Int`; a board
(`[]int`) is a `List Int` read with `boardAt` and written with `boardSet`.
Every index handed to them by the embedded functions comes from `toIndex` on
coordinates accepted by `isValid`, hence lies in `[0, 81)`.  Go maps used as
sets (`map[int]bool` holding only `true`) are lists of their keys in
insertion order.  Counters that only ever count up from zero are `Nat`.
-/

namespace GoBackend

/-! ## Constants -/

def EMPTY : Int := 0
def BLACK : Int := 1
def WHITE : Int := 2
def BOARD_SIZE : Int := 9

/-- Number of cells of the board, `BOARD_SIZE * BOARD_SIZE`. -/
def CELLS : Nat := 81

/-! ## Board model -/

/-- Read `board[idx]`. -/
def boardAt (board : List Int) (idx : Int) : Int :=
  board.getD idx.toNat 0

/-- Write `board[idx] = v`. -/
def boardSet (board : List Int) (idx : Int) (v : Int) : List Int :=
  board.set idx.toNat v

/-- The read `board[idx]` with the bounds check of the Go run time: `none` is
the panic "index out of range", `some v` the value read. -/
def boardRead (board : List Int) (idx : Int) : Option Int :=
  if 0 ≤ idx ∧ idx < board.length then some (boardAt board idx) else none

/-- Source `toIndex`. -/
def toIndex (r c : Int) : Int :=
  r * BOARD_SIZE + c

/-- Source `toCoords`; Go integer division and remainder truncate. -/
def toCoords (idx : Int) : Int × Int :=
  (Int.tdiv idx BOARD_SIZE, Int.tmod idx BOARD_SIZE)

/-- Source `isValid`. -/
def isValid (r c : Int) : Bool :=
  decide (r ≥ 0) && decide (r < BOARD_SIZE) && decide (c ≥ 0) && decide (c < BOARD_SIZE)

/-- Source `getOpponent`. -/
def getOpponent (player : Int) : Int :=
  if player = BLACK then WHITE else BLACK

/-- The literal `{{cr - 1, cc}, {cr + 1, cc}, {cr, cc - 1}, {cr, cc + 1}}`. -/
def neighbors (cr cc : Int) : List (Int × Int) :=
  [(cr - 1, cc), (cr + 1, cc), (cr, cc - 1), (cr, cc + 1)]

/-! ## Group analyzer -/

/-- Local variables of the flood fill in `getGroup`. -/
structure GroupState where
  group : List Int
  libertiesSet : List Int
  liberties : Nat
  queue : List Int
deriving DecidableEq, Repr

/-- Body of `for _, n := range neighbors` in `getGroup`. -/
def groupVisit (board : List Int) (player : Int) (s : GroupState) (n : Int × Int) :
    GroupState :=
  if !isValid n.1 n.2 then s
  else
    let nIdx := toIndex n.1 n.2
    if boardAt board nIdx = player ∧ nIdx ∉ s.group then
      { s with group := s.group ++ [nIdx], queue := s.queue ++ [nIdx] }
    else if boardAt board nIdx = EMPTY ∧ nIdx ∉ s.libertiesSet then
      { s with libertiesSet := s.libertiesSet ++ [nIdx], liberties := s.liberties + 1 }
    else s

/-- The loop `for len(queue) > 0` of `getGroup`, run for at most `fuel`
iterations.  The state that comes back still carries the queue, so a run that
stopped because the queue emptied is told apart from one that ran out of
fuel. -/
def groupLoop (board : List Int) (player : Int) : Nat → GroupState → GroupState
  | 0, s => s
  | fuel + 1, s =>
    match s.queue with
    | [] => s
    | currentIdx :: rest =>
      let cr := (toCoords currentIdx).1
      let cc := (toCoords currentIdx).2
      groupLoop board player fuel
        ((neighbors cr cc).foldl (groupVisit board player) { s with queue := rest })

/-- State of `getGroup` when its loop is left (for a seed holding a stone).
Every iteration takes a different cell off the queue, so 81 iterations are
enough for the queue to empty (`groupRun_inv`). -/
def groupRun (board : List Int) (r c : Int) : GroupState :=
  groupLoop board (boardAt board (toIndex r c)) CELLS
    { group := [toIndex r c], libertiesSet := [], liberties := 0, queue := [toIndex r c] }

/-- Source `getGroup`: the membership set and the liberty count. -/
def getGroup (board : List Int) (r c : Int) : List Int × Nat :=
  if boardAt board (toIndex r c) = EMPTY then ([], 0)
  else ((groupRun board r c).group, (groupRun board r c).liberties)

/-! ## Reference notions the operations are checked against -/

/-- Every index of the board, in row-major order. -/
def allIdx : List Int :=
  (List.range CELLS).map Int.ofNat

/-- Cells `a` and `b`, given by index, are orthogonal neighbours on the grid:
same row and columns one apart, or same column and rows one apart. -/
def Adjacent (a b : Int) : Prop :=
  0 ≤ a ∧ a < 81 ∧ 0 ≤ b ∧ b < 81 ∧
    ((a / 9 = b / 9 ∧ (a % 9 + 1 = b % 9 ∨ b % 9 + 1 = a % 9)) ∨
      (a % 9 = b % 9 ∧ (a / 9 + 1 = b / 9 ∨ b / 9 + 1 = a / 9)))

instance (a b : Int) : Decidable (Adjacent a b) := by
  unfold Adjacent
  infer_instance

/-- There is a path of orthogonally adjacent cells from `a` to `b`, every cell
of which (both ends included) holds `colour`. -/
inductive Connected (board : List Int) (colour : Int) (a : Int) : Int → Prop
  | refl : 0 ≤ a → a < 81 → boardAt board a = colour → Connected board colour a a
  | step {b c : Int} : Connected board colour a b → Adjacent b c →
      boardAt board c = colour → Connected board colour a c

/-- The distinct empty cells adjacent to at least one cell of `group`. -/
def libertyCells (board : List Int) (group : List Int) : List Int :=
  allIdx.filter (fun y => decide (boardAt board y = EMPTY ∧ ∃ x ∈ group, Adjacent x y))

/-! ## Invariants used in the proofs about `getGroup` -/

/-- Effect of visiting the neighbour entries `ns` in the flood fill of
`getGroup`: `s` is the state before, `s'` the state after. -/
structure GroupVisited (board : List Int) (player : Int) (ns : List (Int × Int))
    (s s' : GroupState) : Prop where
  grow : ∃ new, s'.group = s.group ++ new ∧ s'.queue = s.queue ++ new ∧
    ∀ x ∈ new, ∃ n ∈ ns, isValid n.1 n.2 = true ∧ x = toIndex n.1 n.2 ∧
      boardAt board x = player
  libs : ∃ newL, s'.libertiesSet = s.libertiesSet ++ newL ∧
    ∀ x ∈ newL, ∃ n ∈ ns, isValid n.1 n.2 = true ∧ x = toIndex n.1 n.2 ∧
      boardAt board x = EMPTY
  gnodup : s.group.Nodup → s'.group.Nodup
  lnodup : s.libertiesSet.Nodup → s'.libertiesSet.Nodup
  count : s.liberties = s.libertiesSet.length → s'.liberties = s'.libertiesSet.length
  gfull : ∀ n ∈ ns, isValid n.1 n.2 = true → boardAt board (toIndex n.1 n.2) = player →
    toIndex n.1 n.2 ∈ s'.group
  lfull : ∀ n ∈ ns, isValid n.1 n.2 = true → boardAt board (toIndex n.1 n.2) = EMPTY →
    toIndex n.1 n.2 ∈ s'.libertiesSet

/-- Loop invariant of the flood fill of `getGroup`; `done` lists the cells
already taken off the queue. -/
structure GroupInv (board : List Int) (player seed : Int) (done : List Int)
    (s : GroupState) : Prop where
  split : s.group = done ++ s.queue
  seedIn : seed ∈ s.group
  gnodup : s.group.Nodup
  sound : ∀ x ∈ s.group, Connected board player seed x
  closed : ∀ x ∈ done, ∀ y, Adjacent x y → boardAt board y = player → y ∈ s.group
  lnodup : s.libertiesSet.Nodup
  count : s.liberties = s.libertiesSet.length
  lsound : ∀ y ∈ s.libertiesSet, boardAt board y = EMPTY ∧ ∃ x ∈ done, Adjacent x y
  lfull : ∀ x ∈ done, ∀ y, Adjacent x y → boardAt board y = EMPTY → y ∈ s.libertiesSet

/-! ## Rules engine -/

/-- The coordinates visited by
`for r := 0; r < BOARD_SIZE; r++ { for c := 0; c < BOARD_SIZE; c++ { ... } }`,
in the order the nested loops visit them. -/
def scanOrder : List (Int × Int) :=
  (List.range 9).foldr
    (fun r acc => (List.range 9).map (fun c => (Int.ofNat r, Int.ofNat c)) ++ acc) []

/-- Whether the reads `board[toIndex(r, c)]` of the nested loops over the grid
are all in range.  `removeCapturedStones`, `generateMoves` and
`countTerritory` begin every iteration of these loops with that read, so each
of them panics on a board for which this is `false`. -/
def gridReadable (board : List Int) : Bool :=
  scanOrder.all (fun rc => (boardRead board (toIndex rc.1 rc.2)).isSome)

/-- The assignment `m[k] = true` on a map used as a set. -/
def setInsert (m : List Int) (k : Int) : List Int :=
  if k ∈ m then m else m ++ [k]

/-- Local variables of `removeCapturedStones`, with the board it works on. -/
structure CaptureState where
  board : List Int
  checked : List Int
  captured : Nat
deriving DecidableEq, Repr

/-- The loop `for gIdx := range group { (*board)[gIdx] = EMPTY; captured++ }`.
Go leaves the order of a map range unspecified; the keys are taken in list
order here, and `clearGroup_perm` shows that the order makes no difference. -/
def clearGroup (group : List Int) (board : List Int) (captured : Nat) : List Int × Nat :=
  group.foldl (fun acc gIdx => (boardSet acc.1 gIdx EMPTY, acc.2 + 1)) (board, captured)

/-- Body of the nested loops of `removeCapturedStones` at the cell `(r, c)`:
the group is computed on the board as it stands, its keys are marked in
`checked`, and it is emptied when it has no liberty. -/
def captureCell (opponent : Int) (s : CaptureState) (rc : Int × Int) : CaptureState :=
  let idx := toIndex rc.1 rc.2
  if boardAt s.board idx = opponent ∧ idx ∉ s.checked then
    let res := getGroup s.board rc.1 rc.2
    let checked := res.1.foldl setInsert s.checked
    if res.2 = 0 then
      let cleared := clearGroup res.1 s.board s.captured
      { board := cleared.1, checked := checked, captured := cleared.2 }
    else
      { s with checked := checked }
  else s

/-- Source `removeCapturedStones`; the board behind the pointer is returned
together with the count. -/
def removeCapturedStones (board : List Int) (player : Int) : List Int × Nat :=
  let s := scanOrder.foldl (captureCell (getOpponent player))
    { board := board, checked := [], captured := 0 }
  (s.board, s.captured)

/-- Source `isMoveLegal`.  The `||` of the second test short-circuits, so the
board is read only at coordinates `isValid` accepts.  `simBoard` is made with
the length of `board` and is never nil, so on it `reflect.DeepEqual` with
`lastBoardState` is equality of the two sequences of cells. -/
def isMoveLegal (board : List Int) (r c : Int) (player : Int) (lastBoardState : List Int) :
    Bool :=
  if r = -1 ∧ c = -1 then true
  else if !isValid r c then false
  else if boardAt board (toIndex r c) ≠ EMPTY then false
  else
    let simBoard := (removeCapturedStones (boardSet board (toIndex r c) player) player).1
    if (getGroup simBoard r c).2 = 0 then false
    else if simBoard = lastBoardState then false
    else true

/-- Source `isMoveLegal` with the run-time panic made explicit: `none` is a
panic, `some b` the return of `b`.  The guards are those of the source, in its
order, and the read `board[toIndex(r, c)]` of the second guard goes through
`boardRead`.  Past the guards `simBoard`, which has the length of `board`, is
written at `toIndex r c`, an index the guard has just read, and
`removeCapturedStones` reads it at every cell of the grid.  When those reads
are in range so are all the others of the simulation, which are at `toIndex`
of coordinates `isValid` accepts, and the result is that of `isMoveLegal`. -/
def isMoveLegalChecked (board : List Int) (r c : Int) (player : Int)
    (lastBoardState : List Int) : Option Bool :=
  if r = -1 ∧ c = -1 then some true
  else if !isValid r c then some false
  else
    match boardRead board (toIndex r c) with
    | none => none
    | some v =>
      if v ≠ EMPTY then some false
      else if !gridReadable (boardSet board (toIndex r c) player) then none
      else some (isMoveLegal board r c player lastBoardState)

/-! ## Invariants used in the proofs about `removeCapturedStones` -/

/-- The cell `i` of `board` holds a stone of colour `opp` whose group has no
liberty on `board`. -/
def Doomed (board : List Int) (opp : Int) (i : Int) : Prop :=
  boardAt board i = opp ∧ (getGroup board (toCoords i).1 (toCoords i).2).2 = 0

instance (board : List Int) (opp i : Int) : Decidable (Doomed board opp i) := by
  unfold Doomed
  infer_instance

/-- Invariant of the scan of `removeCapturedStones` over the input board `B`,
once the cells `pre` have been visited. -/
structure CaptureInv (B : List Int) (opp : Int) (pre : List (Int × Int))
    (s : CaptureState) : Prop where
  len : s.board.length = 81
  cells : ∀ i, 0 ≤ i → i < 81 →
    boardAt s.board i = if Doomed B opp i ∧ i ∈ s.checked then EMPTY else boardAt B i
  chk : ∀ i ∈ s.checked, Connected B opp i i
  closed : ∀ i ∈ s.checked, ∀ j, Connected B opp i j → j ∈ s.checked
  seen : ∀ rc ∈ pre, boardAt B (toIndex rc.1 rc.2) = opp → toIndex rc.1 rc.2 ∈ s.checked
  count : ∃ dead : List Int, dead.Nodup ∧ (∀ i, i ∈ dead ↔ (Doomed B opp i ∧ i ∈ s.checked)) ∧
    s.captured = dead.length

/-! ## Sample positions -/

/-- A position in which the white group at (0,2), (1,1), (1,2) has its last
liberty at (0,3). -/
def sampleAtari : List Int :=
  [0, 1, 2, 0, 0, 0, 0, 0, 0,
   1, 2, 2, 1, 0, 0, 0, 0, 0,
   0, 1, 1, 0, 0, 0, 0, 0, 0] ++ List.replicate 54 0

/-- A position in which the corner (0,0) is empty and both its neighbours are
black. -/
def sampleCorner : List Int :=
  [0, 1, 0, 0, 0, 0, 0, 0, 0,
   1, 0, 0, 0, 0, 0, 0, 0, 0] ++ List.replicate 63 0

/-! ## Move generation -/

/-- Source `Move`. -/
structure Move where
  Row : Int
  Col : Int
deriving DecidableEq, Repr

/-- The pass move `Move{Row: -1, Col: -1}`. -/
def passMove : Move :=
  { Row := -1, Col := -1 }

/-- Local variables of the first scan of `generateMoves`. -/
structure CandidateState where
  candidateSquares : List Int
  hasStones : Bool
deriving DecidableEq, Repr

/-- Body of `for _, n := range neighbors` in `generateMoves`. -/
def candidateVisit (board : List Int) (cands : List Int) (n : Int × Int) : List Int :=
  if isValid n.1 n.2 && decide (boardAt board (toIndex n.1 n.2) = EMPTY) then
    setInsert cands (toIndex n.1 n.2)
  else cands

/-- Body of the first nested loops of `generateMoves` at the cell `(r, c)`. -/
def candidateCell (board : List Int) (s : CandidateState) (rc : Int × Int) :
    CandidateState :=
  if boardAt board (toIndex rc.1 rc.2) ≠ EMPTY then
    { candidateSquares :=
        (neighbors rc.1 rc.2).foldl (candidateVisit board) s.candidateSquares,
      hasStones := true }
  else s

/-- Body of `for idx := range candidateSquares` in `generateMoves`. -/
def legalAppend (board : List Int) (player : Int) (lastBoardState : List Int)
    (moves : List Move) (idx : Int) : List Move :=
  if isMoveLegal board (toCoords idx).1 (toCoords idx).2 player lastBoardState then
    moves ++ [{ Row := (toCoords idx).1, Col := (toCoords idx).2 }]
  else moves

/-- Source `generateMoves`.  Go leaves the order in which a `range` over a map
yields the keys unspecified: `mapOrder` is that order, a rearrangement of the
keys of `candidateSquares`. -/
def generateMoves (mapOrder : List Int → List Int) (board : List Int) (player : Int)
    (lastBoardState : List Int) : List Move :=
  let s := scanOrder.foldl (candidateCell board) { candidateSquares := [], hasStones := false }
  let moves :=
    if !s.hasStones then
      scanOrder.foldl (fun moves rc => moves ++ [{ Row := rc.1, Col := rc.2 }]) []
    else
      (mapOrder s.candidateSquares).foldl (legalAppend board player lastBoardState) []
  moves ++ [passMove]

/-- Invariant of the first scan of `generateMoves` once the cells `pre` have
been visited. -/
structure CandidateInv (board : List Int) (pre : List (Int × Int))
    (s : CandidateState) : Prop where
  nodup : s.candidateSquares.Nodup
  mem : ∀ x, x ∈ s.candidateSquares ↔
    (boardAt board x = EMPTY ∧
      ∃ rc ∈ pre, boardAt board (toIndex rc.1 rc.2) ≠ EMPTY ∧ Adjacent (toIndex rc.1 rc.2) x)
  stones : s.hasStones = true ↔ ∃ rc ∈ pre, boardAt board (toIndex rc.1 rc.2) ≠ EMPTY

/-! ## Evaluator -/

/-- Local variables of the flood fill of one empty region in `countTerritory`,
with the `visited` map it shares with the enclosing scan. -/
structure RegionState where
  visited : List Int
  queue : List Int
  territory : Nat
  touchesBlack : Bool
  touchesWhite : Bool
  currentTerritoryGroup : List Int
deriving DecidableEq, Repr

/-- Body of `for _, n := range neighbors` in `countTerritory`. -/
def regionVisit (board : List Int) (s : RegionState) (n : Int × Int) : RegionState :=
  if !isValid n.1 n.2 then s
  else
    let nIdx := toIndex n.1 n.2
    if boardAt board nIdx = EMPTY ∧ nIdx ∉ s.visited then
      { s with visited := s.visited ++ [nIdx], queue := s.queue ++ [nIdx] }
    else if boardAt board nIdx = BLACK then
      { s with touchesBlack := true }
    else if boardAt board nIdx = WHITE then
      { s with touchesWhite := true }
    else s

/-- The loop `for len(queue) > 0` of `countTerritory`, run for at most `fuel`
iterations; the state returned still carries the queue. -/
def regionLoop (board : List Int) : Nat → RegionState → RegionState
  | 0, s => s
  | fuel + 1, s =>
    match s.queue with
    | [] => s
    | currentIdx :: rest =>
      let cr := (toCoords currentIdx).1
      let cc := (toCoords currentIdx).2
      regionLoop board fuel
        ((neighbors cr cc).foldl (regionVisit board)
          { s with queue := rest, territory := s.territory + 1,
                   currentTerritoryGroup := s.currentTerritoryGroup ++ [currentIdx] })

/-- State of the flood fill started at the empty, unvisited cell `idx`, when
its loop is left; 81 iterations are enough for the queue to empty
(`regionRun_spec`). -/
def regionRun (board : List Int) (visited : List Int) (idx : Int) : RegionState :=
  regionLoop board CELLS
    { visited := visited ++ [idx], queue := [idx], territory := 0, touchesBlack := false,
      touchesWhite := false, currentTerritoryGroup := [] }

/-- Local variables of the scan of `countTerritory`. -/
structure TerritoryState where
  visited : List Int
  blackTerritory : Nat
  whiteTerritory : Nat
deriving DecidableEq, Repr

/-- Body of the nested loops of `countTerritory` at the cell `(r, c)`. -/
def territoryCell (board : List Int) (s : TerritoryState) (rc : Int × Int) :
    TerritoryState :=
  let idx := toIndex rc.1 rc.2
  if boardAt board idx = EMPTY ∧ idx ∉ s.visited then
    let f := regionRun board s.visited idx
    if f.touchesBlack && !f.touchesWhite then
      { visited := f.visited, blackTerritory := s.blackTerritory + f.territory,
        whiteTerritory := s.whiteTerritory }
    else if !f.touchesBlack && f.touchesWhite then
      { visited := f.visited, blackTerritory := s.blackTerritory,
        whiteTerritory := s.whiteTerritory + f.territory }
    else
      { s with visited := f.visited }
  else s

/-- Source `countTerritory`. -/
def countTerritory (board : List Int) : Nat × Nat :=
  let s := scanOrder.foldl (territoryCell board)
    { visited := [], blackTerritory := 0, whiteTerritory := 0 }
  (s.blackTerritory, s.whiteTerritory)

/-- Source `KOMI`. -/
def KOMI : ℚ := 13 / 2

/-- The lookup `captures[key]` on a `map[string]int`, given as its list of
entries; a missing key reads as 0. -/
def capturesAt (captures : List (String × Int)) (key : String) : Int :=
  (captures.lookup key).getD 0

/-- The string `strconv.Itoa` returns for the colour codes. -/
def itoaColour (colour : Int) : String :=
  if colour = BLACK then "1" else if colour = WHITE then "2" else toString colour

/-! ### `int` and `float64` arithmetic -/

/-- Two's-complement wrap-around of a Go `int` (64 bits). -/
def wrap64 (x : Int) : Int :=
  (x + 2 ^ 63) % 2 ^ 64 - 2 ^ 63

/-- The integer nearest to `m`, the even one of the two when `m` lies halfway
between two integers. -/
def roundHalfEven (m : ℚ) : Int :=
  if m - ⌊m⌋ < 1 / 2 then ⌊m⌋
  else if 1 / 2 < m - ⌊m⌋ then ⌊m⌋ + 1
  else if ⌊m⌋ % 2 = 0 then ⌊m⌋ else ⌊m⌋ + 1

/-- The `float64` nearest to the real `x` (IEEE 754 binary64, round to nearest,
ties to even): `x` is rounded to 53 significant bits, `Int.log 2 |x|` being its
binary exponent.  A `float64` is represented by the rational it denotes.
Overflow to infinity and subnormal numbers are left out: the program rounds
only integers and half-integers below `2 ^ 67` in absolute value. -/
def roundFloat64 (x : ℚ) : ℚ :=
  if x = 0 then 0
  else (roundHalfEven (x / 2 ^ (Int.log 2 |x| - 52)) : ℚ) * 2 ^ (Int.log 2 |x| - 52)

/-- The conversion `float64(n)` of a Go `int`. -/
def float64OfInt (n : Int) : ℚ :=
  roundFloat64 (n : ℚ)

/-- The sum `x + y` of two `float64`. -/
def float64Add (x y : ℚ) : ℚ :=
  roundFloat64 (x + y)

/-- The difference `x - y` of two `float64`. -/
def float64Sub (x y : ℚ) : ℚ :=
  roundFloat64 (x - y)

/-- Source `evaluate`.  Every conversion and every sum is rounded to
`float64`. -/
def evaluate (board : List Int) (captures : List (String × Int)) : ℚ :=
  let blackScore : ℚ := 0
  let whiteScore : ℚ := 0
  let t := countTerritory board
  let blackScore := float64Add blackScore (float64OfInt (t.1 : Int))
  let whiteScore := float64Add whiteScore (float64OfInt (t.2 : Int))
  let blackScore := float64Add blackScore (float64OfInt (capturesAt captures (itoaColour WHITE)))
  let whiteScore := float64Add whiteScore (float64OfInt (capturesAt captures (itoaColour BLACK)))
  let whiteScore := float64Add whiteScore KOMI
  float64Sub whiteScore blackScore

/-- Source `ScoreResponse`. -/
structure ScoreResponse where
  BlackScore : ℚ
  WhiteScore : ℚ
deriving DecidableEq

/-- The response `scoreHandler` builds from a decoded `ScoreRequest`: the sums
of `int`s wrap around, the conversions and the sum with `KOMI` are rounded to
`float64`. -/
def scoreHandler (board : List Int) (captures : List (String × Int)) : ScoreResponse :=
  let t := countTerritory board
  let blackCaptures := capturesAt captures (itoaColour WHITE)
  let whiteCaptures := capturesAt captures (itoaColour BLACK)
  { BlackScore := float64OfInt (wrap64 ((t.1 : Int) + blackCaptures)),
    WhiteScore := float64Add (float64OfInt (wrap64 ((t.2 : Int) + whiteCaptures))) KOMI }

/-- The score difference of `evaluate` in exact arithmetic: white's territory
and captures and the komi, less black's territory and captures. -/
def exactScore (board : List Int) (captures : List (String × Int)) : ℚ :=
  (((countTerritory board).2 : ℚ) + (capturesAt captures (itoaColour BLACK) : ℚ) + KOMI) -
    (((countTerritory board).1 : ℚ) + (capturesAt captures (itoaColour WHITE) : ℚ))

/-- Both counts of the captures map are at most `2 ^ 50` in absolute value; in
this range every `float64` operation of `evaluate` and `scoreHandler` is
exact. -/
def CapturesSmall (captures : List (String × Int)) : Prop :=
  |capturesAt captures (itoaColour BLACK)| ≤ 2 ^ 50 ∧
    |capturesAt captures (itoaColour WHITE)| ≤ 2 ^ 50

instance (captures : List (String × Int)) : Decidable (CapturesSmall captures) := by
  unfold CapturesSmall
  infer_instance

/-! ## Reference notions and invariants for `countTerritory` -/

/-- The maximal region of orthogonally connected empty cells that contains
the empty cell `i` has a cell adjacent to a cell holding `colour`. -/
def RegionTouches (board : List Int) (colour : Int) (i : Int) : Prop :=
  ∃ x, Connected board EMPTY i x ∧ ∃ y, Adjacent x y ∧ boardAt board y = colour

/-- The empty cell `i` lies in a region bordered by `mine` and not by `other`. -/
def Owned (board : List Int) (mine other : Int) (i : Int) : Prop :=
  RegionTouches board mine i ∧ ¬ RegionTouches board other i

/-- Effect of visiting the neighbour entries `ns` in the flood fill of
`countTerritory`: `s` is the state before, `s'` the state after. -/
structure RegionVisited (board : List Int) (ns : List (Int × Int))
    (s s' : RegionState) : Prop where
  grow : ∃ new, s'.visited = s.visited ++ new ∧ s'.queue = s.queue ++ new ∧
    ∀ x ∈ new, ∃ n ∈ ns, isValid n.1 n.2 = true ∧ x = toIndex n.1 n.2 ∧
      boardAt board x = EMPTY
  nodup : s.visited.Nodup → s'.visited.Nodup
  full : ∀ n ∈ ns, isValid n.1 n.2 = true → boardAt board (toIndex n.1 n.2) = EMPTY →
    toIndex n.1 n.2 ∈ s'.visited
  black : s'.touchesBlack = true ↔
    (s.touchesBlack = true ∨
      ∃ n ∈ ns, isValid n.1 n.2 = true ∧ boardAt board (toIndex n.1 n.2) = BLACK)
  white : s'.touchesWhite = true ↔
    (s.touchesWhite = true ∨
      ∃ n ∈ ns, isValid n.1 n.2 = true ∧ boardAt board (toIndex n.1 n.2) = WHITE)
  terr : s'.territory = s.territory
  grp : s'.currentTerritoryGroup = s.currentTerritoryGroup

/-- Loop invariant of the flood fill of `countTerritory` started at `seed`
with `V0` already visited; `done` lists the cells taken off the queue. -/
structure RegionInv (board : List Int) (V0 : List Int) (seed : Int) (done : List Int)
    (s : RegionState) : Prop where
  split : s.visited = V0 ++ (done ++ s.queue)
  nodup : s.visited.Nodup
  sound : ∀ x ∈ done ++ s.queue, Connected board EMPTY seed x
  seedIn : seed ∈ done ++ s.queue
  closed : ∀ x ∈ done, ∀ y, Adjacent x y → boardAt board y = EMPTY → y ∈ s.visited
  terr : s.territory = done.length
  grp : s.currentTerritoryGroup = done
  black : s.touchesBlack = true ↔ ∃ x ∈ done, ∃ y, Adjacent x y ∧ boardAt board y = BLACK
  white : s.touchesWhite = true ↔ ∃ x ∈ done, ∃ y, Adjacent x y ∧ boardAt board y = WHITE

/-- Invariant of the scan of `countTerritory` once the cells `pre` have been
visited. -/
structure TerritoryInv (board : List Int) (pre : List (Int × Int))
    (s : TerritoryState) : Prop where
  nodup : s.visited.Nodup
  chk : ∀ i ∈ s.visited, Connected board EMPTY i i
  closed : ∀ i ∈ s.visited, ∀ j, Connected board EMPTY i j → j ∈ s.visited
  seen : ∀ rc ∈ pre, boardAt board (toIndex rc.1 rc.2) = EMPTY →
    toIndex rc.1 rc.2 ∈ s.visited
  black : ∃ cells : List Int, cells.Nodup ∧
    (∀ i, i ∈ cells ↔ (i ∈ s.visited ∧ Owned board BLACK WHITE i)) ∧
    s.blackTerritory = cells.length
  white : ∃ cells : List Int, cells.Nodup ∧
    (∀ i, i ∈ cells ↔ (i ∈ s.visited ∧ Owned board WHITE BLACK i)) ∧
    s.whiteTerritory = cells.length

/-! ## Search engine -/

/-- Source `MAX_DEPTH`. -/
def MAX_DEPTH : Nat := 2

/-- The constant `math.MaxFloat64`, `(2 - 2^(-52)) * 2^1023`. -/
def MaxFloat64 : ℚ := 2 ^ 1024 - 2 ^ 971

/-- The update `captures[key] += n` on a `map[string]int`. -/
def capturesAdd (captures : List (String × Int)) (key : String) (n : Int) :
    List (String × Int) :=
  (key, wrap64 (capturesAt captures key + n)) :: captures.filter (fun kv => kv.1 ≠ key)

/-- The simulation step shared by `alphaBeta` and `findBestMove`: copy the
board and the captures and, unless `move.Row` is `-1`, place the stone of
`player`, remove the captured stones and credit them. -/
def simulateMove (board : List Int) (captures : List (String × Int)) (player : Int)
    (move : Move) : List Int × List (String × Int) :=
  if move.Row ≠ -1 then
    let res := removeCapturedStones (boardSet board (toIndex move.Row move.Col) player) player
    (res.1, capturesAdd captures (itoaColour (getOpponent player)) (res.2 : Int))
  else (board, captures)

/-- The loop over `moves` in the maximizing branch of `alphaBeta`; `child move
alpha beta` is the recursive call made for `move`. -/
def maxLoop (child : Move → ℚ → ℚ → ℚ) (beta : ℚ) : List Move → ℚ → ℚ → ℚ
  | [], maxEval, _ => maxEval
  | move :: rest, maxEval, alpha =>
    let eval := child move alpha beta
    let maxEval := max maxEval eval
    let alpha := max alpha eval
    if beta ≤ alpha then maxEval else maxLoop child beta rest maxEval alpha

/-- The loop over `moves` in the minimizing branch of `alphaBeta`. -/
def minLoop (child : Move → ℚ → ℚ → ℚ) (alpha : ℚ) : List Move → ℚ → ℚ → ℚ
  | [], minEval, _ => minEval
  | move :: rest, minEval, beta =>
    let eval := child move alpha beta
    let minEval := min minEval eval
    let beta := min beta eval
    if beta ≤ alpha then minEval else minLoop child alpha rest minEval beta

/-- Source `alphaBeta`, for a depth that is not negative.  Each call of
`generateMoves` made during the search ranges over its own map: `orders path`
is the order in which the call reached from this one through the moves `path`
yields its keys. -/
def alphaBeta : Nat → (List Move → List Int → List Int) → List Int → ℚ → ℚ → Bool →
    List (String × Int) → List Int → ℚ
  | 0, _, board, _, _, _, captures, _ => evaluate board captures
  | depth + 1, orders, board, alpha, beta, maximizingPlayer, captures, lastBoardState =>
    let player := if maximizingPlayer then WHITE else BLACK
    let moves := generateMoves (orders []) board player lastBoardState
    let child := fun (move : Move) (a b : ℚ) =>
      alphaBeta depth (fun path => orders (move :: path))
        (simulateMove board captures player move).1 a b (!maximizingPlayer)
        (simulateMove board captures player move).2 board
    if maximizingPlayer then maxLoop child beta moves (-MaxFloat64) alpha
    else minLoop child alpha moves MaxFloat64 beta

/-- The loop over `moves` in `findBestMove`; `score move bestScore` is the
call of `alphaBeta` made for `move`. -/
def bestLoop (score : Move → ℚ → ℚ) : List Move → ℚ → Move → Move
  | [], _, bestMove => bestMove
  | move :: rest, bestScore, bestMove =>
    let moveScore := score move bestScore
    if moveScore > bestScore then bestLoop score rest moveScore move
    else bestLoop score rest bestScore bestMove

/-- Source `findBestMove`. -/
def findBestMove (orders : List Move → List Int → List Int) (board : List Int)
    (captures : List (String × Int)) (lastBoardState : List Int) : Move :=
  let moves := generateMoves (orders []) board WHITE lastBoardState
  bestLoop
    (fun move bestScore =>
      alphaBeta (MAX_DEPTH - 1) (fun path => orders (move :: path))
        (simulateMove board captures WHITE move).1 bestScore MaxFloat64 false
        (simulateMove board captures WHITE move).2 board)
    moves (-MaxFloat64) passMove

/-! ## Reference minimax -/

/-- Largest element of a list of values (0 for the empty list). -/
def listMax : List ℚ → ℚ
  | [] => 0
  | v :: vs => vs.foldl max v

/-- Smallest element of a list of values (0 for the empty list). -/
def listMin : List ℚ → ℚ
  | [] => 0
  | v :: vs => vs.foldl min v

/-- Unpruned minimax of depth `depth`: white maximizes, black minimizes, the
leaves are scored by `evaluate`, the moves are those of `generateMoves` and
the board before a move is the `lastBoardState` of the next ply. -/
def minimax : Nat → List Int → Bool → List (String × Int) → List Int → ℚ
  | 0, board, _, captures, _ => evaluate board captures
  | depth + 1, board, maximizingPlayer, captures, lastBoardState =>
    let player := if maximizingPlayer then WHITE else BLACK
    let values := (generateMoves id board player lastBoardState).map (fun move =>
      minimax depth (simulateMove board captures player move).1 (!maximizingPlayer)
        (simulateMove board captures player move).2 board)
    if maximizingPlayer then listMax values else listMin values

/-- Every count of the captures map is a Go `int`. -/
def CapturesInt64 (captures : List (String × Int)) : Prop :=
  ∀ kv ∈ captures, -(2 ^ 63) ≤ kv.2 ∧ kv.2 < 2 ^ 63

/-- What a call of `alphaBeta` with the window `(alpha, beta)` owes about the
value `v` it returns, when the unpruned value is `t`: exact inside the window,
at most `alpha` when `t` is, at least `beta` when `t` is. -/
def WindowSpec (v alpha beta t : ℚ) : Prop :=
  (alpha < t → t < beta → v = t) ∧ (t ≤ alpha → v ≤ alpha) ∧ (beta ≤ t → beta ≤ v)

/-! ## Session handler -/

/-- Source `MoveRequest`, decoded. -/
structure MoveRequest where
  Board : List Int
  Player : Int
  Row : Int
  Col : Int
  Captures : List (String × Int)
  LastBoardState : List Int

/-- Source `MoveResponse`. -/
structure MoveResponse where
  Board : List Int
  Captures : List (String × Int)
  Message : String
  MoveType : String
deriving DecidableEq

/-- What `moveHandler` writes: a `MoveResponse`, or an `ErrorResponse` with
status 400. -/
inductive HandlerResult where
  | response (resp : MoveResponse)
  | error (msg : String)
deriving DecidableEq

/-- The second half of `moveHandler`: the search for white's reply on `board`
and the response built from it. -/
def aiReply (orders : List Move → List Int → List Int) (board : List Int)
    (captures : List (String × Int)) : MoveResponse :=
  let aiMove := findBestMove orders board captures board
  if aiMove.Row = -1 ∧ aiMove.Col = -1 then
    { Board := board, Captures := captures, Message := "AI passes. Your turn.",
      MoveType := "PASS" }
  else if !isMoveLegal board aiMove.Row aiMove.Col WHITE board then
    { Board := board, Captures := captures, Message := "AI tried illegal move and passes.",
      MoveType := "PASS" }
  else
    let res := removeCapturedStones (boardSet board (toIndex aiMove.Row aiMove.Col) WHITE) WHITE
    { Board := res.1,
      Captures := capturesAdd captures (itoaColour BLACK) (res.2 : Int),
      Message := "AI played at (" ++ toString aiMove.Row ++ ", " ++ toString aiMove.Col ++ ").",
      MoveType := "PLAY" }

/-- Source `moveHandler`, from the decoded request on (the CORS headers, the
decoding and the artificial delay are left out), for a request that carries a
captures map and on which no read of the board is out of range;
`moveHandlerChecked` below is the handler with the nil map and the run-time
panics, and the two agree when the map is present and the board has at least 81
cells. -/
def moveHandler (orders : List Move → List Int → List Int) (req : MoveRequest) :
    HandlerResult :=
  if req.Player = BLACK then
    if req.Row = -1 ∧ req.Col = -1 then
      HandlerResult.response
        { Board := req.Board, Captures := req.Captures, Message := "You passed. AI's turn.",
          MoveType := "PASS" }
    else if !isMoveLegal req.Board req.Row req.Col req.Player req.LastBoardState then
      HandlerResult.error "Illegal move. (Suicide or Ko)"
    else
      let res := removeCapturedStones (boardSet req.Board (toIndex req.Row req.Col) req.Player)
        req.Player
      HandlerResult.response
        (aiReply orders res.1 (capturesAdd req.Captures (itoaColour WHITE) (res.2 : Int)))
  else
    HandlerResult.response (aiReply orders req.Board req.Captures)

/-- Source `MoveRequest` as `json.Decode` leaves it: `Captures` is `none` for
the nil map of a request without the field `captures`.  A nil `Board` or
`LastBoardState` is the empty list, which has the same length and the same
reads. -/
structure RawMoveRequest where
  Board : List Int
  Player : Int
  Row : Int
  Col : Int
  Captures : Option (List (String × Int))
  LastBoardState : List Int

/-- Source `MoveResponse`, whose map `Captures` may be nil. -/
structure RawMoveResponse where
  Board : List Int
  Captures : Option (List (String × Int))
  Message : String
  MoveType : String
deriving DecidableEq

/-- What becomes of a decoded request in `moveHandler`: a `MoveResponse` is
written, or an `ErrorResponse` with status 400, or the handler panics and
nothing is written. -/
inductive HandlerOutcome where
  | response (resp : RawMoveResponse)
  | error (msg : String)
  | panic
deriving DecidableEq

/-- The response `resp` with its captures map present. -/
def rawResponse (resp : MoveResponse) : RawMoveResponse :=
  { Board := resp.Board, Captures := some resp.Captures, Message := resp.Message,
    MoveType := resp.MoveType }

/-- The second half of `moveHandler` with the run-time panics made explicit.
`findBestMove` calls `generateMoves` first, whose first loop reads the board at
every cell of the grid; `copyCaptures` ranges over the map, which a nil map
allows and which gives the empty map; the update
`req.Captures[strconv.Itoa(BLACK)] += captured` panics on a nil map.  The write
`req.Board[toIndex(aiMove.Row, aiMove.Col)]` is at an index `isMoveLegal` has
read. -/
def aiReplyChecked (orders : List Move → List Int → List Int) (board : List Int)
    (captures : Option (List (String × Int))) : HandlerOutcome :=
  if !gridReadable board then HandlerOutcome.panic
  else
    let aiMove := findBestMove orders board (captures.getD []) board
    if aiMove.Row = -1 ∧ aiMove.Col = -1 then
      HandlerOutcome.response
        { Board := board, Captures := captures, Message := "AI passes. Your turn.",
          MoveType := "PASS" }
    else
      match isMoveLegalChecked board aiMove.Row aiMove.Col WHITE board with
      | none => HandlerOutcome.panic
      | some false =>
        HandlerOutcome.response
          { Board := board, Captures := captures,
            Message := "AI tried illegal move and passes.", MoveType := "PASS" }
      | some true =>
        let res :=
          removeCapturedStones (boardSet board (toIndex aiMove.Row aiMove.Col) WHITE) WHITE
        match captures with
        | none => HandlerOutcome.panic
        | some m =>
          HandlerOutcome.response
            { Board := res.1,
              Captures := some (capturesAdd m (itoaColour BLACK) (res.2 : Int)),
              Message :=
                "AI played at (" ++ toString aiMove.Row ++ ", " ++ toString aiMove.Col ++ ").",
              MoveType := "PLAY" }

/-- Source `moveHandler`, from the decoded request on, with the run-time panics
made explicit (the CORS headers, the decoding and the artificial delay are left
out).  The update `req.Captures[strconv.Itoa(WHITE)] += captured` panics on a
nil map; it comes after `removeCapturedStones` and before the search. -/
def moveHandlerChecked (orders : List Move → List Int → List Int) (req : RawMoveRequest) :
    HandlerOutcome :=
  if req.Player = BLACK then
    if req.Row = -1 ∧ req.Col = -1 then
      HandlerOutcome.response
        { Board := req.Board, Captures := req.Captures, Message := "You passed. AI's turn.",
          MoveType := "PASS" }
    else
      match isMoveLegalChecked req.Board req.Row req.Col req.Player req.LastBoardState with
      | none => HandlerOutcome.panic
      | some false => HandlerOutcome.error "Illegal move. (Suicide or Ko)"
      | some true =>
        let res := removeCapturedStones (boardSet req.Board (toIndex req.Row req.Col) req.Player)
          req.Player
        match req.Captures with
        | none => HandlerOutcome.panic
        | some m =>
          aiReplyChecked orders res.1 (some (capturesAdd m (itoaColour WHITE) (res.2 : Int)))
  else
    aiReplyChecked orders req.Board req.Captures

/-! ## Reference notion of a liberty -/

/-- The group of the stone at `i` has a liberty: some cell connected to `i`
through cells of the colour of `i` is adjacent to an empty cell. -/
def HasLiberty (board : List Int) (i : Int) : Prop :=
  ∃ x, Connected board (boardAt board i) i x ∧ ∃ y, Adjacent x y ∧ boardAt board y = EMPTY

/-- The board of 81 empty cells. -/
def emptyBoard : List Int :=
  List.replicate 81 EMPTY

/-- The value `findBestMove` is to rank a move of white by: the unpruned minimax
value, black to move, depth `MAX_DEPTH - 1`, of the position after the move. -/
def moveValue (board : List Int) (captures : List (String × Int)) (move : Move) : ℚ :=
  minimax (MAX_DEPTH - 1) (simulateMove board captures WHITE move).1 false
    (simulateMove board captures WHITE move).2 board

/-! ## A ko position -/

/-- A ko on a full board: the white stone at (0,1) has its last liberty at
(0,2), and a black stone played there has its only liberty at (0,1) once the
white stone is taken.  Black has one group with the eyes (2,0) and (4,0); the
large white group has the liberties (0,2) and (8,8). -/
def koBefore : List Int :=
  [1, 2, 0, 2, 2, 2, 2, 2, 2,
   1, 1, 2, 2, 2, 2, 2, 2, 2,
   0, 1, 2, 2, 2, 2, 2, 2, 2,
   1, 1, 2, 2, 2, 2, 2, 2, 2,
   0, 1, 2, 2, 2, 2, 2, 2, 2,
   1, 1, 2, 2, 2, 2, 2, 2, 2,
   1, 1, 2, 2, 2, 2, 2, 2, 2,
   1, 1, 2, 2, 2, 2, 2, 2, 2,
   1, 1, 2, 2, 2, 2, 2, 2, 0]

/-- The position `koBefore` after black has played (0,2) and taken the white
stone at (0,1). -/
def koAfter : List Int :=
  [1, 0, 1, 2, 2, 2, 2, 2, 2,
   1, 1, 2, 2, 2, 2, 2, 2, 2,
   0, 1, 2, 2, 2, 2, 2, 2, 2,
   1, 1, 2, 2, 2, 2, 2, 2, 2,
   0, 1, 2, 2, 2, 2, 2, 2, 2,
   1, 1, 2, 2, 2, 2, 2, 2, 2,
   1, 1, 2, 2, 2, 2, 2, 2, 2,
   1, 1, 2, 2, 2, 2, 2, 2, 2,
   1, 1, 2, 2, 2, 2, 2, 2, 0]

/-- The position `koBefore` before white played (0,8). -/
def koPrevious : List Int :=
  [1, 2, 0, 2, 2, 2, 2, 2, 0,
   1, 1, 2, 2, 2, 2, 2, 2, 2,
   0, 1, 2, 2, 2, 2, 2, 2, 2,
   1, 1, 2, 2, 2, 2, 2, 2, 2,
   0, 1, 2, 2, 2, 2, 2, 2, 2,
   1, 1, 2, 2, 2, 2, 2, 2, 2,
   1, 1, 2, 2, 2, 2, 2, 2, 2,
   1, 1, 2, 2, 2, 2, 2, 2, 2,
   1, 1, 2, 2, 2, 2, 2, 2, 0]

/-- The move of white at (0,1), which retakes the ko in `koAfter`. -/
def koRetake : Move :=
  { Row := 0, Col := 1 }

/-- The request in which black takes the ko in `koBefore`. -/
def koRequest : MoveRequest :=
  { Board := koBefore, Player := BLACK, Row := 0, Col := 2, Captures := [],
    LastBoardState := koPrevious }

end GoBackend

namespace GoBackend

/-! ## Basic facts about indices and the board -/

theorem mem_allIdx (x : Int) : x ∈ allIdx ↔ 0 ≤ x ∧ x < 81 := by
  unfold allIdx CELLS
  simp only [List.mem_map, List.mem_range]
  constructor
  · rintro ⟨n, hn, rfl⟩
    simp only [Int.ofNat_eq_coe]
    omega
  · rintro ⟨h0, h1⟩
    refine ⟨x.toNat, by omega, ?_⟩
    simp only [Int.ofNat_eq_coe]
    omega

theorem allIdx_nodup : allIdx.Nodup := by
  unfold allIdx
  refine List.Nodup.map ?_ (List.nodup_range _)
  intro a b h
  simpa using h

theorem allIdx_length : allIdx.length = 81 := by
  simp [allIdx, CELLS]

theorem isValid_iff (r c : Int) : isValid r c = true ↔ 0 ≤ r ∧ r < 9 ∧ 0 ≤ c ∧ c < 9 := by
  simp [isValid, BOARD_SIZE, and_assoc]

theorem toIndex_range {r c : Int} (h : isValid r c = true) :
    0 ≤ toIndex r c ∧ toIndex r c < 81 := by
  rw [isValid_iff] at h
  unfold toIndex BOARD_SIZE
  omega

theorem toCoords_eq {idx : Int} (h0 : 0 ≤ idx) : toCoords idx = (idx / 9, idx % 9) := by
  unfold toCoords BOARD_SIZE
  rw [Int.tdiv_eq_ediv h0 (by decide), Int.tmod_eq_emod h0 (by decide)]

theorem toCoords_toIndex {r c : Int} (h : isValid r c = true) :
    toCoords (toIndex r c) = (r, c) := by
  rw [toCoords_eq (toIndex_range h).1]
  rw [isValid_iff] at h
  unfold toIndex BOARD_SIZE
  ext <;> simp only <;> omega

theorem toIndex_toCoords {idx : Int} (h0 : 0 ≤ idx) (h1 : idx < 81) :
    toIndex (toCoords idx).1 (toCoords idx).2 = idx ∧
      isValid (toCoords idx).1 (toCoords idx).2 = true := by
  rw [toCoords_eq h0, isValid_iff]
  unfold toIndex BOARD_SIZE
  simp only
  omega

/-- The valid entries of the neighbour literal are exactly the adjacent cells. -/
theorem adjacent_iff_neighbors {a : Int} (h0 : 0 ≤ a) (h1 : a < 81) (b : Int) :
    Adjacent a b ↔
      ∃ n ∈ neighbors (toCoords a).1 (toCoords a).2,
        isValid n.1 n.2 = true ∧ b = toIndex n.1 n.2 := by
  rw [toCoords_eq h0]
  unfold Adjacent neighbors toIndex BOARD_SIZE
  simp only [List.mem_cons, List.mem_singleton, List.not_mem_nil, or_false, isValid_iff]
  constructor
  · rintro ⟨_, _, hb0, hb1, h⟩
    rcases h with ⟨hr, hc | hc⟩ | ⟨hc, hr | hr⟩
    · exact ⟨(a / 9, a % 9 + 1), by simp, by simp only; omega⟩
    · exact ⟨(a / 9, a % 9 - 1), by simp, by simp only; omega⟩
    · exact ⟨(a / 9 + 1, a % 9), by simp, by simp only; omega⟩
    · exact ⟨(a / 9 - 1, a % 9), by simp, by simp only; omega⟩
  · rintro ⟨n, hn, hv, rfl⟩
    rcases hn with rfl | rfl | rfl | rfl <;> simp only at hv ⊢ <;> omega

theorem Adjacent.flip {a b : Int} (h : Adjacent a b) : Adjacent b a := by
  unfold Adjacent at *
  omega

theorem Adjacent.left_range {a b : Int} (h : Adjacent a b) : 0 ≤ a ∧ a < 81 :=
  ⟨h.1, h.2.1⟩

theorem Adjacent.right_range {a b : Int} (h : Adjacent a b) : 0 ≤ b ∧ b < 81 :=
  ⟨h.2.2.1, h.2.2.2.1⟩

/-! ## The flood fill of `getGroup` -/

theorem Connected.range {board : List Int} {colour a b : Int}
    (h : Connected board colour a b) : 0 ≤ b ∧ b < 81 := by
  cases h with
  | refl h0 h1 _ => exact ⟨h0, h1⟩
  | step _ hadj _ => exact hadj.right_range

theorem Connected.colour_right {board : List Int} {colour a b : Int}
    (h : Connected board colour a b) : boardAt board b = colour := by
  cases h with
  | refl _ _ hc => exact hc
  | step _ _ hc => exact hc

theorem Connected.colour_left {board : List Int} {colour a b : Int}
    (h : Connected board colour a b) : boardAt board a = colour := by
  induction h with
  | refl _ _ hc => exact hc
  | step _ _ _ ih => exact ih

theorem Connected.range_left {board : List Int} {colour a b : Int}
    (h : Connected board colour a b) : 0 ≤ a ∧ a < 81 := by
  induction h with
  | refl h0 h1 _ => exact ⟨h0, h1⟩
  | step _ _ _ ih => exact ih

theorem Connected.trans {board : List Int} {colour a b c : Int}
    (h1 : Connected board colour a b) (h2 : Connected board colour b c) :
    Connected board colour a c := by
  induction h2 with
  | refl _ _ _ => exact h1
  | step _ hadj hc ih => exact Connected.step ih hadj hc

theorem Connected.symm {board : List Int} {colour a b : Int}
    (h : Connected board colour a b) : Connected board colour b a := by
  induction h with
  | refl h0 h1 hc => exact Connected.refl h0 h1 hc
  | @step b c hab hadj hc ih =>
    have hb := hab.colour_right
    have hcr := hadj.right_range
    have h1 : Connected board colour c b :=
      Connected.step (Connected.refl hcr.1 hcr.2 hc) hadj.flip hb
    exact h1.trans ih

/-- A duplicate-free list of board indices has at most 81 entries. -/
theorem length_le_of_nodup_range {l : List Int} (hn : l.Nodup)
    (hr : ∀ x ∈ l, 0 ≤ x ∧ x < 81) : l.length ≤ 81 := by
  have hsub : l ⊆ allIdx := fun x hx => (mem_allIdx x).2 (hr x hx)
  have := (List.subperm_of_subset hn hsub).length_le
  rwa [allIdx_length] at this

theorem groupVisited_nil (board : List Int) (player : Int) (s : GroupState) :
    GroupVisited board player [] s s where
  grow := ⟨[], by simp⟩
  libs := ⟨[], by simp⟩
  gnodup := id
  lnodup := id
  count := id
  gfull := by simp
  lfull := by simp

theorem groupVisited_one (board : List Int) {player : Int} (hp : player ≠ EMPTY)
    (s : GroupState) (n : Int × Int) :
    GroupVisited board player [n] s (groupVisit board player s n) := by
  unfold groupVisit
  by_cases hv : isValid n.1 n.2 = true
  · simp only [hv, Bool.not_true, Bool.false_eq_true, if_false]
    by_cases h1 : boardAt board (toIndex n.1 n.2) = player ∧ toIndex n.1 n.2 ∉ s.group
    · rw [if_pos h1]
      refine ⟨⟨[toIndex n.1 n.2], rfl, rfl, ?_⟩, ⟨[], by simp⟩, ?_, id, id, ?_, ?_⟩
      · intro x hx
        rw [List.mem_singleton] at hx
        subst hx
        exact ⟨n, by simp, hv, rfl, h1.1⟩
      · intro hn
        simp only
        rw [List.nodup_append]
        refine ⟨hn, List.nodup_singleton _, ?_⟩
        intro x hx hx'
        rw [List.mem_singleton] at hx'
        subst hx'
        exact h1.2 hx
      · intro m hm _ _
        rw [List.mem_singleton] at hm
        subst hm
        simp
      · intro m hm _ he
        rw [List.mem_singleton] at hm
        subst hm
        exact absurd (h1.1.symm.trans he) hp
    · rw [if_neg h1]
      by_cases h2 : boardAt board (toIndex n.1 n.2) = EMPTY ∧
          toIndex n.1 n.2 ∉ s.libertiesSet
      · rw [if_pos h2]
        refine ⟨⟨[], by simp⟩, ⟨[toIndex n.1 n.2], rfl, ?_⟩, id, ?_, ?_, ?_, ?_⟩
        · intro x hx
          rw [List.mem_singleton] at hx
          subst hx
          exact ⟨n, by simp, hv, rfl, h2.1⟩
        · intro hn
          simp only
          rw [List.nodup_append]
          refine ⟨hn, List.nodup_singleton _, ?_⟩
          intro x hx hx'
          rw [List.mem_singleton] at hx'
          subst hx'
          exact h2.2 hx
        · intro hc
          simp [hc]
        · intro m hm _ hpl
          rw [List.mem_singleton] at hm
          subst hm
          by_contra hnot
          exact h1 ⟨hpl, hnot⟩
        · intro m hm _ _
          rw [List.mem_singleton] at hm
          subst hm
          simp
      · rw [if_neg h2]
        refine ⟨⟨[], by simp⟩, ⟨[], by simp⟩, id, id, id, ?_, ?_⟩
        · intro m hm _ hpl
          rw [List.mem_singleton] at hm
          subst hm
          by_contra hnot
          exact h1 ⟨hpl, hnot⟩
        · intro m hm _ he
          rw [List.mem_singleton] at hm
          subst hm
          by_contra hnot
          exact h2 ⟨he, hnot⟩
  · simp only [hv, Bool.not_false, if_true]
    refine ⟨⟨[], by simp⟩, ⟨[], by simp⟩, id, id, id, ?_, ?_⟩
    · intro m hm hvm
      rw [List.mem_singleton] at hm
      subst hm
      exact absurd hvm hv
    · intro m hm hvm
      rw [List.mem_singleton] at hm
      subst hm
      exact absurd hvm hv

theorem GroupVisited.andThen {board : List Int} {player : Int} {ns₁ ns₂ : List (Int × Int)}
    {s s' s'' : GroupState} (h₁ : GroupVisited board player ns₁ s s')
    (h₂ : GroupVisited board player ns₂ s' s'') :
    GroupVisited board player (ns₁ ++ ns₂) s s'' := by
  obtain ⟨new₁, hg₁, hq₁, hn₁⟩ := h₁.grow
  obtain ⟨new₂, hg₂, hq₂, hn₂⟩ := h₂.grow
  obtain ⟨nl₁, hl₁, hm₁⟩ := h₁.libs
  obtain ⟨nl₂, hl₂, hm₂⟩ := h₂.libs
  refine ⟨⟨new₁ ++ new₂, ?_, ?_, ?_⟩, ⟨nl₁ ++ nl₂, ?_, ?_⟩, fun h => h₂.gnodup (h₁.gnodup h),
    fun h => h₂.lnodup (h₁.lnodup h), fun h => h₂.count (h₁.count h), ?_, ?_⟩
  · rw [hg₂, hg₁, List.append_assoc]
  · rw [hq₂, hq₁, List.append_assoc]
  · intro x hx
    rcases List.mem_append.1 hx with hx | hx
    · obtain ⟨n, hn, h⟩ := hn₁ x hx
      exact ⟨n, List.mem_append_left _ hn, h⟩
    · obtain ⟨n, hn, h⟩ := hn₂ x hx
      exact ⟨n, List.mem_append_right _ hn, h⟩
  · rw [hl₂, hl₁, List.append_assoc]
  · intro x hx
    rcases List.mem_append.1 hx with hx | hx
    · obtain ⟨n, hn, h⟩ := hm₁ x hx
      exact ⟨n, List.mem_append_left _ hn, h⟩
    · obtain ⟨n, hn, h⟩ := hm₂ x hx
      exact ⟨n, List.mem_append_right _ hn, h⟩
  · intro n hn hv hpl
    rcases List.mem_append.1 hn with hn | hn
    · rw [hg₂]
      exact List.mem_append_left _ (h₁.gfull n hn hv hpl)
    · exact h₂.gfull n hn hv hpl
  · intro n hn hv he
    rcases List.mem_append.1 hn with hn | hn
    · rw [hl₂]
      exact List.mem_append_left _ (h₁.lfull n hn hv he)
    · exact h₂.lfull n hn hv he

theorem groupVisited_foldl (board : List Int) {player : Int} (hp : player ≠ EMPTY)
    (ns : List (Int × Int)) (s : GroupState) :
    GroupVisited board player ns s (ns.foldl (groupVisit board player) s) := by
  induction ns generalizing s with
  | nil => exact groupVisited_nil board player s
  | cons n rest ih =>
    rw [List.foldl_cons]
    exact (groupVisited_one board hp s n).andThen (ih _)

theorem groupInv_init {board : List Int} {r c : Int} (hv : isValid r c = true) :
    GroupInv board (boardAt board (toIndex r c)) (toIndex r c) []
      { group := [toIndex r c], libertiesSet := [], liberties := 0,
        queue := [toIndex r c] } where
  split := rfl
  seedIn := by simp
  gnodup := List.nodup_singleton _
  sound := by
    intro x hx
    rw [List.mem_singleton] at hx
    subst hx
    exact Connected.refl (toIndex_range hv).1 (toIndex_range hv).2 rfl
  closed := by simp
  lnodup := List.nodup_nil
  count := rfl
  lsound := by simp
  lfull := by simp

theorem groupInv_step {board : List Int} {player seed : Int} (hp : player ≠ EMPTY)
    {done : List Int} {s : GroupState} {cur : Int} {rest : List Int}
    (hinv : GroupInv board player seed done s) (hq : s.queue = cur :: rest) :
    GroupInv board player seed (done ++ [cur])
      ((neighbors (toCoords cur).1 (toCoords cur).2).foldl (groupVisit board player)
        { s with queue := rest }) := by
  have hV := groupVisited_foldl board hp (neighbors (toCoords cur).1 (toCoords cur).2)
    { s with queue := rest }
  generalize (neighbors (toCoords cur).1 (toCoords cur).2).foldl (groupVisit board player)
    { s with queue := rest } = s' at hV
  obtain ⟨new, hg, hq', hnew⟩ := hV.grow
  obtain ⟨newL, hl, hnewL⟩ := hV.libs
  simp only at hg hq' hl
  have hcurMem : cur ∈ s.group := by
    rw [hinv.split, hq]
    simp
  have hcurConn := hinv.sound cur hcurMem
  have hcurR := hcurConn.range
  have hadj : ∀ n ∈ neighbors (toCoords cur).1 (toCoords cur).2,
      isValid n.1 n.2 = true → Adjacent cur (toIndex n.1 n.2) := by
    intro n hn hv
    exact (adjacent_iff_neighbors hcurR.1 hcurR.2 _).2 ⟨n, hn, hv, rfl⟩
  refine ⟨?_, ?_, hV.gnodup hinv.gnodup, ?_, ?_, hV.lnodup hinv.lnodup, hV.count hinv.count,
    ?_, ?_⟩
  · rw [hg, hq', hinv.split, hq]
    simp
  · rw [hg]
    exact List.mem_append_left _ hinv.seedIn
  · intro x hx
    rw [hg] at hx
    rcases List.mem_append.1 hx with hx | hx
    · exact hinv.sound x hx
    · obtain ⟨n, hn, hv, rfl, hc⟩ := hnew x hx
      exact Connected.step hcurConn (hadj n hn hv) hc
  · intro x hx y hxy hy
    rcases List.mem_append.1 hx with hx | hx
    · rw [hg]
      exact List.mem_append_left _ (hinv.closed x hx y hxy hy)
    · rw [List.mem_singleton] at hx
      subst hx
      obtain ⟨n, hn, hv, rfl⟩ := (adjacent_iff_neighbors hcurR.1 hcurR.2 y).1 hxy
      exact hV.gfull n hn hv hy
  · intro y hy
    rw [hl] at hy
    rcases List.mem_append.1 hy with hy | hy
    · obtain ⟨he, x, hx, hxy⟩ := hinv.lsound y hy
      exact ⟨he, x, List.mem_append_left _ hx, hxy⟩
    · obtain ⟨n, hn, hv, rfl, he⟩ := hnewL y hy
      exact ⟨he, cur, by simp, hadj n hn hv⟩
  · intro x hx y hxy hy
    rcases List.mem_append.1 hx with hx | hx
    · rw [hl]
      exact List.mem_append_left _ (hinv.lfull x hx y hxy hy)
    · rw [List.mem_singleton] at hx
      subst hx
      obtain ⟨n, hn, hv, rfl⟩ := (adjacent_iff_neighbors hcurR.1 hcurR.2 y).1 hxy
      exact hV.lfull n hn hv hy

/-- With enough fuel the flood fill leaves its loop because the queue is
empty, and the invariant holds of the state it leaves with. -/
theorem groupLoop_inv {board : List Int} {player seed : Int} (hp : player ≠ EMPTY) :
    ∀ (fuel : Nat) (done : List Int) (s : GroupState),
      GroupInv board player seed done s → 81 ≤ fuel + done.length →
      ∃ done', GroupInv board player seed done' (groupLoop board player fuel s) ∧
        (groupLoop board player fuel s).queue = [] := by
  intro fuel
  induction fuel with
  | zero =>
    intro done s hinv hfuel
    refine ⟨done, hinv, ?_⟩
    have hlen := length_le_of_nodup_range hinv.gnodup (fun x hx => (hinv.sound x hx).range)
    rw [hinv.split, List.length_append] at hlen
    have : s.queue.length = 0 := by omega
    simpa [groupLoop] using List.length_eq_zero.1 this
  | succ fuel ih =>
    intro done s hinv hfuel
    cases hq : s.queue with
    | nil =>
      refine ⟨done, ?_, ?_⟩
      · simpa [groupLoop, hq] using hinv
      · simp [groupLoop, hq]
    | cons cur rest =>
      have hstep := groupInv_step hp hinv hq
      obtain ⟨done', h1, h2⟩ := ih (done ++ [cur]) _ hstep (by
        rw [List.length_append, List.length_singleton]; omega)
      refine ⟨done', ?_, ?_⟩
      · simpa [groupLoop, hq] using h1
      · simpa [groupLoop, hq] using h2

/-- What `getGroup` leaves its loop with, for an in-bounds seed holding a stone. -/
theorem groupRun_inv {board : List Int} {r c : Int} (hv : isValid r c = true)
    (hs : boardAt board (toIndex r c) ≠ EMPTY) :
    GroupInv board (boardAt board (toIndex r c)) (toIndex r c) (groupRun board r c).group
        (groupRun board r c) ∧ (groupRun board r c).queue = [] := by
  obtain ⟨done, hinv, hq⟩ := groupLoop_inv hs CELLS [] _ (groupInv_init hv) (by simp [CELLS])
  have hd : (groupRun board r c).group = done := by
    have := hinv.split
    rw [hq, List.append_nil] at this
    exact this
  unfold groupRun
  unfold groupRun at hd
  rw [hd]
  exact ⟨hinv, hq⟩

/-- Membership in the set `getGroup` returns. -/
theorem mem_getGroup {board : List Int} {r c : Int} (hv : isValid r c = true)
    (hs : boardAt board (toIndex r c) ≠ EMPTY) (x : Int) :
    x ∈ (getGroup board r c).1 ↔
      Connected board (boardAt board (toIndex r c)) (toIndex r c) x := by
  obtain ⟨hinv, _⟩ := groupRun_inv hv hs
  unfold getGroup
  rw [if_neg hs]
  simp only
  constructor
  · exact hinv.sound x
  · intro h
    induction h with
    | refl _ _ _ => exact hinv.seedIn
    | step _ hadj hc ih => exact hinv.closed _ ih _ hadj hc

theorem getGroup_nodup (board : List Int) {r c : Int} (hv : isValid r c = true) :
    (getGroup board r c).1.Nodup := by
  unfold getGroup
  split
  · exact List.nodup_nil
  · next hs => exact (groupRun_inv hv hs).1.gnodup

/-- The liberty count `getGroup` returns, against the reference count. -/
theorem getGroup_liberties {board : List Int} {r c : Int} (hv : isValid r c = true)
    (hs : boardAt board (toIndex r c) ≠ EMPTY) :
    (getGroup board r c).2 = (libertyCells board (getGroup board r c).1).length := by
  obtain ⟨hinv, _⟩ := groupRun_inv hv hs
  unfold getGroup
  rw [if_neg hs]
  simp only
  rw [hinv.count]
  apply List.Perm.length_eq
  unfold libertyCells
  rw [List.perm_ext_iff_of_nodup hinv.lnodup (allIdx_nodup.filter _)]
  intro y
  rw [List.mem_filter, mem_allIdx, decide_eq_true_eq]
  constructor
  · intro hy
    obtain ⟨he, x, hx, hxy⟩ := hinv.lsound y hy
    exact ⟨hxy.right_range, he, x, hx, hxy⟩
  · rintro ⟨_, he, x, hx, hxy⟩
    exact hinv.lfull x hx y hxy he

/-! ## Board reads and writes -/

theorem boardAt_boardSet (b : List Int) {i j : Int} (v : Int) (hj : 0 ≤ j)
    (hlen : j < b.length) (hi : 0 ≤ i) :
    boardAt (boardSet b j v) i = if i = j then v else boardAt b i := by
  unfold boardAt boardSet
  rw [List.getD_eq_getElem?_getD, List.getD_eq_getElem?_getD]
  split
  · next h =>
    subst h
    rw [List.getElem?_set_self (by omega)]
    rfl
  · next h =>
    rw [List.getElem?_set_ne (by omega)]

theorem length_boardSet (b : List Int) (j v : Int) : (boardSet b j v).length = b.length := by
  unfold boardSet
  exact List.length_set _ _ _

/-- Two boards of 81 cells that agree at every index are the same board. -/
theorem board_ext {b b' : List Int} (h : b.length = 81) (h' : b'.length = 81)
    (hc : ∀ i : Int, 0 ≤ i → i < 81 → boardAt b i = boardAt b' i) : b = b' := by
  apply List.ext_getElem (h.trans h'.symm)
  intro n h1 h2
  have := hc (n : Int) (by omega) (by omega)
  unfold boardAt at this
  rw [Int.toNat_ofNat, List.getD_eq_getElem _ _ h1, List.getD_eq_getElem _ _ h2] at this
  exact this

theorem mem_foldl_setInsert (g : List Int) (m : List Int) (x : Int) :
    x ∈ g.foldl setInsert m ↔ x ∈ m ∨ x ∈ g := by
  induction g generalizing m with
  | nil => simp
  | cons a rest ih =>
    rw [List.foldl_cons, ih]
    unfold setInsert
    split
    · next h =>
      constructor
      · rintro (h1 | h1)
        · exact Or.inl h1
        · exact Or.inr (List.mem_cons_of_mem _ h1)
      · rintro (h1 | h1)
        · exact Or.inl h1
        · rcases List.mem_cons.1 h1 with rfl | h1
          · exact Or.inl h
          · exact Or.inr h1
    · simp only [List.mem_append, List.mem_singleton, List.mem_cons]
      tauto

theorem clearGroup_snd (g : List Int) (b : List Int) (n : Nat) :
    (clearGroup g b n).2 = n + g.length := by
  unfold clearGroup
  induction g generalizing b n with
  | nil => simp
  | cons a rest ih =>
    rw [List.foldl_cons, ih, List.length_cons]
    omega

theorem clearGroup_length (g : List Int) (b : List Int) (n : Nat) :
    (clearGroup g b n).1.length = b.length := by
  unfold clearGroup
  induction g generalizing b n with
  | nil => simp
  | cons a rest ih =>
    rw [List.foldl_cons, ih, length_boardSet]

theorem clearGroup_at (g : List Int) (b : List Int) (n : Nat)
    (hg : ∀ x ∈ g, 0 ≤ x ∧ x < b.length) {i : Int} (hi : 0 ≤ i) :
    boardAt (clearGroup g b n).1 i = if i ∈ g then EMPTY else boardAt b i := by
  unfold clearGroup
  induction g generalizing b n with
  | nil => simp
  | cons a rest ih =>
    rw [List.foldl_cons, ih]
    · have ha := hg a (List.mem_cons_self _ _)
      rw [boardAt_boardSet b EMPTY ha.1 ha.2 hi]
      by_cases h1 : i ∈ rest
      · simp [h1]
      · by_cases h2 : i = a
        · simp [h2]
        · simp [h1, h2]
    · intro x hx
      rw [length_boardSet]
      exact hg x (List.mem_cons_of_mem _ hx)

/-! ## The scan order -/

theorem mem_scanOrder (rc : Int × Int) : rc ∈ scanOrder ↔ isValid rc.1 rc.2 = true := by
  rw [isValid_iff]
  constructor
  · intro h
    have hall : ∀ p ∈ scanOrder, 0 ≤ p.1 ∧ p.1 < 9 ∧ 0 ≤ p.2 ∧ p.2 < 9 := by decide
    exact hall rc h
  · rintro ⟨h1, h2, h3, h4⟩
    obtain ⟨r, c⟩ := rc
    simp only at h1 h2 h3 h4
    have hall : ∀ a ∈ List.range 9, ∀ b ∈ List.range 9,
        (Int.ofNat a, Int.ofNat b) ∈ scanOrder := by decide
    have := hall r.toNat (by rw [List.mem_range]; omega) c.toNat (by rw [List.mem_range]; omega)
    simp only [Int.ofNat_eq_coe] at this
    rwa [Int.toNat_of_nonneg h1, Int.toNat_of_nonneg h3] at this

/-! ## `getGroup` by index, and how it depends on the board -/

theorem mem_getGroup_idx {board : List Int} {i : Int} (h0 : 0 ≤ i) (h1 : i < 81)
    (hs : boardAt board i ≠ EMPTY) (x : Int) :
    x ∈ (getGroup board (toCoords i).1 (toCoords i).2).1 ↔
      Connected board (boardAt board i) i x := by
  obtain ⟨hidx, hv⟩ := toIndex_toCoords h0 h1
  have := @mem_getGroup board _ _ hv (by rw [hidx]; exact hs) x
  rwa [hidx] at this

theorem getGroup_liberties_idx {board : List Int} {i : Int} (h0 : 0 ≤ i) (h1 : i < 81)
    (hs : boardAt board i ≠ EMPTY) :
    (getGroup board (toCoords i).1 (toCoords i).2).2 =
      (libertyCells board (getGroup board (toCoords i).1 (toCoords i).2).1).length := by
  obtain ⟨hidx, hv⟩ := toIndex_toCoords h0 h1
  exact getGroup_liberties hv (by rw [hidx]; exact hs)

theorem libertyCells_congr {board board' : List Int} {g g' : List Int}
    (h : ∀ y, 0 ≤ y → y < 81 →
      ((boardAt board y = EMPTY ∧ ∃ x ∈ g, Adjacent x y) ↔
        (boardAt board' y = EMPTY ∧ ∃ x ∈ g', Adjacent x y))) :
    libertyCells board g = libertyCells board' g' := by
  unfold libertyCells
  apply List.filter_congr
  intro y hy
  rw [mem_allIdx] at hy
  exact decide_eq_decide.2 (h y hy.1 hy.2)

/-- Cells of one group have the same liberty count. -/
theorem getGroup_liberties_of_connected {board : List Int} {colour i j : Int}
    (hc : colour ≠ EMPTY) (h : Connected board colour i j) :
    (getGroup board (toCoords j).1 (toCoords j).2).2 =
      (getGroup board (toCoords i).1 (toCoords i).2).2 := by
  have hi := h.range_left
  have hj := h.range
  have hci := h.colour_left
  have hcj := h.colour_right
  rw [getGroup_liberties_idx hj.1 hj.2 (by rw [hcj]; exact hc),
    getGroup_liberties_idx hi.1 hi.2 (by rw [hci]; exact hc)]
  congr 1
  apply libertyCells_congr
  intro y _ _
  have hmem : ∀ x, x ∈ (getGroup board (toCoords j).1 (toCoords j).2).1 ↔
      x ∈ (getGroup board (toCoords i).1 (toCoords i).2).1 := by
    intro x
    rw [mem_getGroup_idx hj.1 hj.2 (by rw [hcj]; exact hc),
      mem_getGroup_idx hi.1 hi.2 (by rw [hci]; exact hc), hci, hcj]
    exact ⟨fun hx => h.trans hx, fun hx => h.symm.trans hx⟩
  constructor
  · rintro ⟨he, x, hx, hxy⟩
    exact ⟨he, x, (hmem x).1 hx, hxy⟩
  · rintro ⟨he, x, hx, hxy⟩
    exact ⟨he, x, (hmem x).2 hx, hxy⟩

/-- If two boards hold the same colour on the group of `i` and are empty at
the same cells next to it, `getGroup` finds the same members and the same
liberty count on both. -/
theorem getGroup_agree {b b' : List Int} {colour i : Int} (hc : colour ≠ EMPTY)
    (hi : Connected b colour i i)
    (hcol : ∀ x, Connected b colour i x → boardAt b' x = colour)
    (hback : ∀ x, 0 ≤ x → x < 81 → boardAt b' x = colour → boardAt b x = colour)
    (hemp : ∀ x y, Connected b colour i x → Adjacent x y →
      (boardAt b y = EMPTY ↔ boardAt b' y = EMPTY)) :
    (∀ x, x ∈ (getGroup b' (toCoords i).1 (toCoords i).2).1 ↔ Connected b colour i x) ∧
      (getGroup b' (toCoords i).1 (toCoords i).2).2 =
        (getGroup b (toCoords i).1 (toCoords i).2).2 := by
  have hr := hi.range
  have hbi := hi.colour_right
  have hb'i := hcol i hi
  have hconn : ∀ x, Connected b' colour i x ↔ Connected b colour i x := by
    intro x
    constructor
    · intro h
      induction h with
      | refl _ _ _ => exact hi
      | step _ hadj hcx ih =>
        exact Connected.step ih hadj (hback _ hadj.right_range.1 hadj.right_range.2 hcx)
    · intro h
      induction h with
      | refl _ _ _ => exact Connected.refl hr.1 hr.2 hb'i
      | step hprev hadj hcx ih =>
        exact Connected.step ih hadj (hcol _ (Connected.step hprev hadj hcx))
  have hmem' : ∀ x, x ∈ (getGroup b' (toCoords i).1 (toCoords i).2).1 ↔
      Connected b colour i x := by
    intro x
    rw [mem_getGroup_idx hr.1 hr.2 (by rw [hb'i]; exact hc), hb'i]
    exact hconn x
  have hmem : ∀ x, x ∈ (getGroup b (toCoords i).1 (toCoords i).2).1 ↔
      Connected b colour i x := by
    intro x
    rw [mem_getGroup_idx hr.1 hr.2 (by rw [hbi]; exact hc), hbi]
  refine ⟨hmem', ?_⟩
  rw [getGroup_liberties_idx hr.1 hr.2 (by rw [hb'i]; exact hc),
    getGroup_liberties_idx hr.1 hr.2 (by rw [hbi]; exact hc)]
  congr 1
  apply libertyCells_congr
  intro y _ _
  constructor
  · rintro ⟨he, x, hx, hxy⟩
    have hx' := (hmem' x).1 hx
    exact ⟨(hemp x y hx' hxy).2 he, x, (hmem x).2 hx', hxy⟩
  · rintro ⟨he, x, hx, hxy⟩
    have hx' := (hmem x).1 hx
    exact ⟨(hemp x y hx' hxy).1 he, x, (hmem' x).2 hx', hxy⟩

/-! ## The scan of `removeCapturedStones` -/

theorem captureInv_init {B : List Int} (opp : Int) (hB : B.length = 81) :
    CaptureInv B opp [] { board := B, checked := [], captured := 0 } where
  len := hB
  cells := by simp
  chk := by simp
  closed := by simp
  seen := by simp
  count := ⟨[], List.nodup_nil, by simp, rfl⟩

theorem captureInv_step {B : List Int} {opp : Int} (hopp : opp ≠ EMPTY)
    {pre : List (Int × Int)} {s : CaptureState} {rc : Int × Int}
    (hv : isValid rc.1 rc.2 = true) (hinv : CaptureInv B opp pre s) :
    CaptureInv B opp (pre ++ [rc]) (captureCell opp s rc) := by
  have hr := toIndex_range hv
  have hrc := toCoords_toIndex hv
  have hback : ∀ x, 0 ≤ x → x < 81 → boardAt s.board x = opp → boardAt B x = opp := by
    intro x h0 h1 hx
    have := hinv.cells x h0 h1
    split at this
    · exact absurd (hx.symm.trans this) hopp
    · exact this.symm.trans hx
  unfold captureCell
  simp only
  by_cases htest : boardAt s.board (toIndex rc.1 rc.2) = opp ∧ toIndex rc.1 rc.2 ∉ s.checked
  · rw [if_pos htest]
    have hBi : boardAt B (toIndex rc.1 rc.2) = opp := hback _ hr.1 hr.2 htest.1
    have hi : Connected B opp (toIndex rc.1 rc.2) (toIndex rc.1 rc.2) :=
      Connected.refl hr.1 hr.2 hBi
    have hfresh : ∀ x, Connected B opp (toIndex rc.1 rc.2) x → x ∉ s.checked := by
      intro x hx hmem
      exact htest.2 (hinv.closed x hmem _ hx.symm)
    have hcol : ∀ x, Connected B opp (toIndex rc.1 rc.2) x → boardAt s.board x = opp := by
      intro x hx
      have := hinv.cells x hx.range.1 hx.range.2
      rw [if_neg (fun h => hfresh x hx h.2)] at this
      exact this.trans hx.colour_right
    have hemp : ∀ x y, Connected B opp (toIndex rc.1 rc.2) x → Adjacent x y →
        (boardAt B y = EMPTY ↔ boardAt s.board y = EMPTY) := by
      intro x y hx hxy
      have hy := hinv.cells y hxy.right_range.1 hxy.right_range.2
      constructor
      · intro he
        rw [hy]
        split
        · rfl
        · exact he
      · intro he
        by_cases hd : Doomed B opp y ∧ y ∈ s.checked
        · exact absurd hd.2 (hfresh y (Connected.step hx hxy hd.1.1))
        · rw [if_neg hd] at hy
          exact hy.symm.trans he
    obtain ⟨hmem, hlib⟩ := getGroup_agree hopp hi hcol hback hemp
    rw [hrc] at hmem hlib
    simp only at hmem hlib
    have hdoom : ∀ x, Connected B opp (toIndex rc.1 rc.2) x →
        (Doomed B opp x ↔ (getGroup s.board rc.1 rc.2).2 = 0) := by
      intro x hx
      unfold Doomed
      rw [getGroup_liberties_of_connected hopp hx, hrc, hlib]
      simp only
      exact ⟨fun h => h.2, fun h => ⟨hx.colour_right, h⟩⟩
    have hnodup : (getGroup s.board rc.1 rc.2).1.Nodup := getGroup_nodup _ hv
    have hchk : ∀ i ∈ List.foldl setInsert s.checked (getGroup s.board rc.1 rc.2).1,
        Connected B opp i i := by
      intro i hi'
      rcases (mem_foldl_setInsert _ _ _).1 hi' with h | h
      · exact hinv.chk i h
      · have := (hmem i).1 h
        exact Connected.refl this.range.1 this.range.2 this.colour_right
    have hclosed : ∀ i ∈ List.foldl setInsert s.checked (getGroup s.board rc.1 rc.2).1,
        ∀ j, Connected B opp i j →
          j ∈ List.foldl setInsert s.checked (getGroup s.board rc.1 rc.2).1 := by
      intro i hi' j hij
      rw [mem_foldl_setInsert] at hi' ⊢
      rcases hi' with h | h
      · exact Or.inl (hinv.closed i h j hij)
      · exact Or.inr ((hmem j).2 (((hmem i).1 h).trans hij))
    have hseen : ∀ p ∈ pre ++ [rc], boardAt B (toIndex p.1 p.2) = opp →
        toIndex p.1 p.2 ∈ List.foldl setInsert s.checked (getGroup s.board rc.1 rc.2).1 := by
      intro p hp hpc
      rw [mem_foldl_setInsert]
      rcases List.mem_append.1 hp with h | h
      · exact Or.inl (hinv.seen p h hpc)
      · rw [List.mem_singleton] at h
        subst h
        exact Or.inr ((hmem _).2 hi)
    obtain ⟨dead, hdn, hdm, hdl⟩ := hinv.count
    by_cases hz : (getGroup s.board rc.1 rc.2).2 = 0
    · rw [if_pos hz]
      refine ⟨?_, ?_, hchk, hclosed, hseen, ?_⟩
      · simp only
        rw [clearGroup_length]
        exact hinv.len
      · intro i h0 h1
        simp only
        rw [clearGroup_at _ _ _ ?_ h0]
        · by_cases hig : i ∈ (getGroup s.board rc.1 rc.2).1
          · rw [if_pos hig, if_pos]
            exact ⟨(hdoom i ((hmem i).1 hig)).2 hz,
              (mem_foldl_setInsert _ _ _).2 (Or.inr hig)⟩
          · rw [if_neg hig, hinv.cells i h0 h1]
            have : i ∈ List.foldl setInsert s.checked (getGroup s.board rc.1 rc.2).1 ↔
                i ∈ s.checked := by
              rw [mem_foldl_setInsert]
              exact ⟨fun h => h.resolve_right hig, Or.inl⟩
            simp only [this]
        · intro x hx
          have := ((hmem x).1 hx).range
          rw [hinv.len]
          exact ⟨this.1, by exact_mod_cast this.2⟩
      · refine ⟨dead ++ (getGroup s.board rc.1 rc.2).1, ?_, ?_, ?_⟩
        · rw [List.nodup_append]
          refine ⟨hdn, hnodup, ?_⟩
          intro x hx hx'
          exact hfresh x ((hmem x).1 hx') ((hdm x).1 hx).2
        · intro i
          rw [List.mem_append, hdm, mem_foldl_setInsert]
          constructor
          · rintro (h | h)
            · exact ⟨h.1, Or.inl h.2⟩
            · exact ⟨(hdoom i ((hmem i).1 h)).2 hz, Or.inr h⟩
          · rintro ⟨h1, h2 | h2⟩
            · exact Or.inl ⟨h1, h2⟩
            · exact Or.inr h2
        · simp only
          rw [clearGroup_snd, List.length_append, hdl]
    · rw [if_neg hz]
      refine ⟨hinv.len, ?_, hchk, hclosed, hseen, ?_⟩
      · intro i h0 h1
        simp only
        rw [hinv.cells i h0 h1]
        by_cases hig : i ∈ (getGroup s.board rc.1 rc.2).1
        · have hnd : ¬ Doomed B opp i := fun h => hz ((hdoom i ((hmem i).1 hig)).1 h)
          rw [if_neg (fun h => hnd h.1), if_neg (fun h => hnd h.1)]
        · have : i ∈ List.foldl setInsert s.checked (getGroup s.board rc.1 rc.2).1 ↔
              i ∈ s.checked := by
            rw [mem_foldl_setInsert]
            exact ⟨fun h => h.resolve_right hig, Or.inl⟩
          simp only [this]
      · refine ⟨dead, hdn, ?_, hdl⟩
        intro i
        rw [hdm, mem_foldl_setInsert]
        constructor
        · rintro ⟨h1, h2⟩
          exact ⟨h1, Or.inl h2⟩
        · rintro ⟨h1, h2 | h2⟩
          · exact ⟨h1, h2⟩
          · exact absurd ((hdoom i ((hmem i).1 h2)).1 h1) hz
  · rw [if_neg htest]
    refine ⟨hinv.len, hinv.cells, hinv.chk, hinv.closed, ?_, hinv.count⟩
    intro p hp hpc
    rcases List.mem_append.1 hp with h | h
    · exact hinv.seen p h hpc
    · rw [List.mem_singleton] at h
      subst h
      by_contra hn
      have := hinv.cells _ hr.1 hr.2
      rw [if_neg (fun h => hn h.2)] at this
      exact htest ⟨this.trans hpc, hn⟩

theorem captureInv_foldl {B : List Int} {opp : Int} (hopp : opp ≠ EMPTY) :
    ∀ (l : List (Int × Int)) (pre : List (Int × Int)) (s : CaptureState),
      (∀ rc ∈ l, isValid rc.1 rc.2 = true) → CaptureInv B opp pre s →
      CaptureInv B opp (pre ++ l) (l.foldl (captureCell opp) s) := by
  intro l
  induction l with
  | nil =>
    intro pre s _ h
    simpa using h
  | cons rc rest ih =>
    intro pre s hv h
    rw [List.foldl_cons]
    have := ih (pre ++ [rc]) _ (fun p hp => hv p (List.mem_cons_of_mem _ hp))
      (captureInv_step hopp (hv rc (List.mem_cons_self _ _)) h)
    simpa using this

theorem getOpponent_ne_empty (player : Int) : getOpponent player ≠ EMPTY := by
  unfold getOpponent
  split <;> decide

/-- What the scan of `removeCapturedStones` ends with, cell by cell, on a board
of 81 cells, for any order `order` that visits every cell of the board. -/
theorem captureScan_spec {B : List Int} {opp : Int} (hopp : opp ≠ EMPTY)
    (hB : B.length = 81) (order : List (Int × Int))
    (hcover : ∀ rc, rc ∈ order ↔ isValid rc.1 rc.2 = true) :
    (order.foldl (captureCell opp) { board := B, checked := [], captured := 0 }).board.length
        = 81 ∧
      (∀ i, 0 ≤ i → i < 81 →
        boardAt (order.foldl (captureCell opp)
            { board := B, checked := [], captured := 0 }).board i =
          if Doomed B opp i then EMPTY else boardAt B i) ∧
      ∃ dead : List Int, dead.Nodup ∧
        (∀ i, i ∈ dead ↔ (0 ≤ i ∧ i < 81 ∧ Doomed B opp i)) ∧
        (order.foldl (captureCell opp) { board := B, checked := [], captured := 0 }).captured
          = dead.length := by
  have hinv : CaptureInv B opp order
      (order.foldl (captureCell opp) { board := B, checked := [], captured := 0 }) := by
    have := captureInv_foldl hopp order [] _ (fun rc h => (hcover rc).1 h)
      (captureInv_init opp hB)
    simpa using this
  generalize order.foldl (captureCell opp)
    { board := B, checked := [], captured := 0 } = s at hinv
  have hall : ∀ i, 0 ≤ i → i < 81 → Doomed B opp i → i ∈ s.checked := by
    intro i h0 h1 hd
    obtain ⟨hidx, hv⟩ := toIndex_toCoords h0 h1
    have := hinv.seen (toCoords i) ((hcover _).2 hv) (by rw [hidx]; exact hd.1)
    rwa [hidx] at this
  refine ⟨hinv.len, ?_, ?_⟩
  · intro i h0 h1
    rw [hinv.cells i h0 h1]
    by_cases hd : Doomed B opp i
    · rw [if_pos ⟨hd, hall i h0 h1 hd⟩, if_pos hd]
    · rw [if_neg (fun h => hd h.1), if_neg hd]
  · obtain ⟨dead, hn, hm, hl⟩ := hinv.count
    refine ⟨dead, hn, ?_, hl⟩
    intro i
    rw [hm]
    constructor
    · rintro ⟨hd, hc⟩
      have := (hinv.chk i hc).range
      exact ⟨this.1, this.2, hd⟩
    · rintro ⟨h0, h1, hd⟩
      exact ⟨hd, hall i h0 h1 hd⟩

/-- What `removeCapturedStones` returns, cell by cell, on a board of 81 cells. -/
theorem removeCapturedStones_spec {B : List Int} (player : Int) (hB : B.length = 81) :
    (removeCapturedStones B player).1.length = 81 ∧
      (∀ i, 0 ≤ i → i < 81 →
        boardAt (removeCapturedStones B player).1 i =
          if Doomed B (getOpponent player) i then EMPTY else boardAt B i) ∧
      ∃ dead : List Int, dead.Nodup ∧
        (∀ i, i ∈ dead ↔ (0 ≤ i ∧ i < 81 ∧ Doomed B (getOpponent player) i)) ∧
        (removeCapturedStones B player).2 = dead.length := by
  have h := captureScan_spec (getOpponent_ne_empty player) hB scanOrder mem_scanOrder
  unfold removeCapturedStones
  simp only
  exact h

/-- Scanning the cells in another order that visits each of them leaves the
same board and the same count as the row-major scan. -/
theorem captureScan_order {B : List Int} (player : Int) (hB : B.length = 81)
    (order : List (Int × Int)) (hcover : ∀ rc, rc ∈ order ↔ isValid rc.1 rc.2 = true) :
    (order.foldl (captureCell (getOpponent player))
        { board := B, checked := [], captured := 0 }).board = (removeCapturedStones B player).1 ∧
      (order.foldl (captureCell (getOpponent player))
        { board := B, checked := [], captured := 0 }).captured
          = (removeCapturedStones B player).2 := by
  obtain ⟨hl, hc, dead, hn, hm, hcount⟩ :=
    captureScan_spec (getOpponent_ne_empty player) hB order hcover
  obtain ⟨hl', hc', dead', hn', hm', hcount'⟩ := removeCapturedStones_spec player hB
  constructor
  · apply board_ext hl hl'
    intro i h0 h1
    rw [hc i h0 h1, hc' i h0 h1]
  · rw [hcount, hcount']
    apply List.Perm.length_eq
    rw [List.perm_ext_iff_of_nodup hn hn']
    intro i
    rw [hm, hm']

/-- The loop that empties a group gives the same board and count whatever the
order in which the keys of the group are taken. -/
theorem clearGroup_perm {g g' : List Int} (h : g.Perm g') (b : List Int) (n : Nat) :
    clearGroup g b n = clearGroup g' b n := by
  unfold clearGroup
  induction h generalizing b n with
  | nil => rfl
  | cons x _ ih =>
    rw [List.foldl_cons, List.foldl_cons]
    exact ih _ _
  | swap x y l =>
    simp only [List.foldl_cons]
    unfold boardSet
    by_cases hxy : x.toNat = y.toNat
    · rw [hxy]
    · rw [List.set_comm EMPTY EMPTY b hxy]
  | trans _ _ ih₁ ih₂ => exact (ih₁ b n).trans (ih₂ b n)

/-- When no stone of the opponent sits in a group without liberties,
`removeCapturedStones` returns the board as it was and counts nothing. -/
theorem removeCapturedStones_none {B : List Int} (player : Int) (hB : B.length = 81)
    (h : ∀ i ∈ allIdx, ¬ Doomed B (getOpponent player) i) :
    removeCapturedStones B player = (B, 0) := by
  obtain ⟨hlen, hcells, dead, _, hm, hl⟩ := removeCapturedStones_spec player hB
  have h1 : (removeCapturedStones B player).1 = B := by
    apply board_ext hlen hB
    intro i h0 h1
    rw [hcells i h0 h1, if_neg (h i ((mem_allIdx i).2 ⟨h0, h1⟩))]
  have h2 : (removeCapturedStones B player).2 = 0 := by
    rw [hl, List.length_eq_zero, List.eq_nil_iff_forall_not_mem]
    intro i hi
    obtain ⟨h0, h1, hd⟩ := (hm i).1 hi
    exact h i ((mem_allIdx i).2 ⟨h0, h1⟩) hd
  exact Prod.ext h1 h2

/-! ## Claims C1 to C3 -/

/-- C1. On a board of 81 cells `removeCapturedStones board p` empties a cell
exactly when it held a stone of the opponent of `p` whose group had no liberty
on the input board; every other cell keeps its content; the board keeps its 81
cells; the number returned is the number of cells emptied; and a scan that
visits the cells in any other order ends with the same board and number. -/
theorem removeCapturedStones_correct (board : List Int) (p : Int)
    (hlen : board.length = 81) :
    (∀ order : List (Int × Int), (∀ rc, rc ∈ order ↔ isValid rc.1 rc.2 = true) →
      (order.foldl (captureCell (getOpponent p))
          { board := board, checked := [], captured := 0 }).board
        = (removeCapturedStones board p).1 ∧
      (order.foldl (captureCell (getOpponent p))
          { board := board, checked := [], captured := 0 }).captured
        = (removeCapturedStones board p).2) ∧
    (∀ r c, isValid r c = true →
      ((boardAt board (toIndex r c) ≠ EMPTY ∧
          boardAt (removeCapturedStones board p).1 (toIndex r c) = EMPTY) ↔
        (boardAt board (toIndex r c) = getOpponent p ∧ (getGroup board r c).2 = 0))) ∧
    (∀ r c, isValid r c = true →
      ¬ (boardAt board (toIndex r c) = getOpponent p ∧ (getGroup board r c).2 = 0) →
      boardAt (removeCapturedStones board p).1 (toIndex r c) = boardAt board (toIndex r c)) ∧
    (removeCapturedStones board p).1.length = 81 ∧
    (removeCapturedStones board p).2 =
      (allIdx.filter (fun i => decide (boardAt board i ≠ EMPTY ∧
        boardAt (removeCapturedStones board p).1 i = EMPTY))).length := by
  obtain ⟨hl, hcells, dead, hn, hm, hcount⟩ := removeCapturedStones_spec p hlen
  have hdoom : ∀ r c, isValid r c = true →
      (Doomed board (getOpponent p) (toIndex r c) ↔
        (boardAt board (toIndex r c) = getOpponent p ∧ (getGroup board r c).2 = 0)) := by
    intro r c hv
    unfold Doomed
    rw [toCoords_toIndex hv]
  have hemptied : ∀ i, 0 ≤ i → i < 81 →
      ((boardAt board i ≠ EMPTY ∧ boardAt (removeCapturedStones board p).1 i = EMPTY) ↔
        Doomed board (getOpponent p) i) := by
    intro i h0 h1
    rw [hcells i h0 h1]
    constructor
    · rintro ⟨hne, he⟩
      by_contra hd
      rw [if_neg hd] at he
      exact hne he
    · intro hd
      rw [if_pos hd]
      refine ⟨?_, rfl⟩
      rw [hd.1]
      exact getOpponent_ne_empty p
  refine ⟨fun order hcover => captureScan_order p hlen order hcover, ?_, ?_, hl, ?_⟩
  · intro r c hv
    have hr := toIndex_range hv
    rw [hemptied _ hr.1 hr.2, hdoom r c hv]
  · intro r c hv hnd
    have hr := toIndex_range hv
    rw [hcells _ hr.1 hr.2, if_neg (fun h => hnd ((hdoom r c hv).1 h))]
  · rw [hcount]
    apply List.Perm.length_eq
    rw [List.perm_ext_iff_of_nodup hn (allIdx_nodup.filter _)]
    intro i
    rw [hm, List.mem_filter, mem_allIdx, decide_eq_true_eq]
    constructor
    · rintro ⟨h0, h1, hd⟩
      exact ⟨⟨h0, h1⟩, (hemptied i h0 h1).2 hd⟩
    · rintro ⟨⟨h0, h1⟩, he⟩
      exact ⟨h0, h1, (hemptied i h0 h1).1 he⟩

/-- C2. For an in-bounds seed holding a stone on a board of 81 cells, the
liberty count of `getGroup` is the length of `libertyCells`, a duplicate-free
list holding exactly the empty cells adjacent to at least one member of the
returned group. -/
theorem getGroup_liberties_correct (board : List Int) (r c : Int)
    (hlen : board.length = 81) (hv : isValid r c = true)
    (hs : boardAt board (toIndex r c) ≠ EMPTY) :
    (getGroup board r c).2 = (libertyCells board (getGroup board r c).1).length ∧
    (libertyCells board (getGroup board r c).1).Nodup ∧
    (∀ y, y ∈ libertyCells board (getGroup board r c).1 ↔
      (0 ≤ y ∧ y < 81 ∧ boardAt board y = EMPTY ∧
        ∃ x ∈ (getGroup board r c).1, Adjacent x y)) := by
  have _ := hlen
  refine ⟨getGroup_liberties hv hs, allIdx_nodup.filter _, ?_⟩
  intro y
  unfold libertyCells
  rw [List.mem_filter, mem_allIdx, decide_eq_true_eq, and_assoc]

/-- C3. For an in-bounds seed holding a stone on a board of 81 cells, the
flood fill of `getGroup` ends with its queue empty, and the set it returns is
the set of cells connected to the seed through cells of the seed's colour:
every member has that colour, the seed is a member, and every cell of that
colour adjacent to a member is a member. -/
theorem getGroup_members_correct (board : List Int) (r c : Int)
    (hlen : board.length = 81) (hv : isValid r c = true)
    (hs : boardAt board (toIndex r c) ≠ EMPTY) :
    (groupRun board r c).queue = [] ∧
    (∀ x, x ∈ (getGroup board r c).1 ↔
      Connected board (boardAt board (toIndex r c)) (toIndex r c) x) ∧
    (∀ x ∈ (getGroup board r c).1, boardAt board x = boardAt board (toIndex r c)) ∧
    toIndex r c ∈ (getGroup board r c).1 ∧
    (∀ x ∈ (getGroup board r c).1, ∀ y, Adjacent x y →
      boardAt board y = boardAt board (toIndex r c) → y ∈ (getGroup board r c).1) := by
  have _ := hlen
  have hr := toIndex_range hv
  refine ⟨(groupRun_inv hv hs).2, mem_getGroup hv hs, ?_, ?_, ?_⟩
  · intro x hx
    exact ((mem_getGroup hv hs x).1 hx).colour_right
  · exact (mem_getGroup hv hs _).2 (Connected.refl hr.1 hr.2 rfl)
  · intro x hx y hxy hy
    exact (mem_getGroup hv hs y).2 (Connected.step ((mem_getGroup hv hs x).1 hx) hxy hy)

set_option maxRecDepth 100000 in
theorem removeCapturedStones_correct_witness :
    sampleAtari.length = 81 ∧
      (removeCapturedStones (boardSet sampleAtari 3 BLACK) BLACK).2 =
        (allIdx.filter (fun i => decide (boardAt (boardSet sampleAtari 3 BLACK) i ≠ EMPTY ∧
          boardAt (removeCapturedStones (boardSet sampleAtari 3 BLACK) BLACK).1 i
            = EMPTY))).length :=
  ⟨by decide,
    (removeCapturedStones_correct (boardSet sampleAtari 3 BLACK) BLACK (by decide)).2.2.2.2⟩

set_option maxRecDepth 100000 in
theorem getGroup_liberties_correct_witness :
    sampleAtari.length = 81 ∧ isValid 1 1 = true ∧
      boardAt sampleAtari (toIndex 1 1) ≠ EMPTY ∧
      (getGroup sampleAtari 1 1).2 =
        (libertyCells sampleAtari (getGroup sampleAtari 1 1).1).length :=
  ⟨by decide, by decide, by decide,
    (getGroup_liberties_correct sampleAtari 1 1 (by decide) (by decide) (by decide)).1⟩

set_option maxRecDepth 100000 in
theorem getGroup_members_correct_witness :
    sampleAtari.length = 81 ∧ isValid 1 1 = true ∧
      boardAt sampleAtari (toIndex 1 1) ≠ EMPTY ∧
      (groupRun sampleAtari 1 1).queue = [] ∧
      toIndex 1 1 ∈ (getGroup sampleAtari 1 1).1 :=
  ⟨by decide, by decide, by decide,
    (getGroup_members_correct sampleAtari 1 1 (by decide) (by decide) (by decide)).1,
    (getGroup_members_correct sampleAtari 1 1 (by decide) (by decide) (by decide)).2.2.2.1⟩

/-! ## Claims C4 to C6: `isMoveLegal` -/

/-- The board `isMoveLegal` reaches once it is past the bounds and occupancy
tests. -/
theorem isMoveLegal_eq (board : List Int) (r c player : Int) (lastBoardState : List Int)
    (hv : isValid r c = true) (he : boardAt board (toIndex r c) = EMPTY) :
    isMoveLegal board r c player lastBoardState =
      (decide ((getGroup (removeCapturedStones (boardSet board (toIndex r c) player)
          player).1 r c).2 ≠ 0) &&
        decide ((removeCapturedStones (boardSet board (toIndex r c) player) player).1
          ≠ lastBoardState)) := by
  have hne : ¬ (r = -1 ∧ c = -1) := by
    rw [isValid_iff] at hv
    omega
  unfold isMoveLegal
  rw [if_neg hne]
  simp only [hv, he, Bool.not_true, Bool.false_eq_true, if_false, ne_eq, not_true_eq_false]
  by_cases h1 : (getGroup (removeCapturedStones (boardSet board (toIndex r c) player)
      player).1 r c).2 = 0
  · simp [h1]
  · by_cases h2 : (removeCapturedStones (boardSet board (toIndex r c) player) player).1
        = lastBoardState
    · simp [h1, h2]
    · simp [h1, h2]

/-- C4, the suicide rule. On a board of 81 cells, if after placing a stone of
`p` on the empty in-bounds cell `(r, c)` no stone of the opponent is in a group
without liberties, and the group of the placed stone has none, `isMoveLegal`
returns false whatever `lastBoardState` is. -/
theorem isMoveLegal_suicide (board : List Int) (r c p : Int) (lastBoardState : List Int)
    (hlen : board.length = 81) (hv : isValid r c = true)
    (he : boardAt board (toIndex r c) = EMPTY)
    (hcap : ∀ rc ∈ scanOrder,
      boardAt (boardSet board (toIndex r c) p) (toIndex rc.1 rc.2) = getOpponent p →
        (getGroup (boardSet board (toIndex r c) p) rc.1 rc.2).2 ≠ 0)
    (hz : (getGroup (boardSet board (toIndex r c) p) r c).2 = 0) :
    isMoveLegal board r c p lastBoardState = false := by
  have hlen' : (boardSet board (toIndex r c) p).length = 81 := by
    rw [length_boardSet, hlen]
  have hnone : removeCapturedStones (boardSet board (toIndex r c) p) p =
      (boardSet board (toIndex r c) p, 0) := by
    apply removeCapturedStones_none p hlen'
    intro i hi hd
    rw [mem_allIdx] at hi
    obtain ⟨hidx, hvi⟩ := toIndex_toCoords hi.1 hi.2
    have := hcap (toCoords i) ((mem_scanOrder _).2 hvi) (by rw [hidx]; exact hd.1)
    exact this hd.2
  rw [isMoveLegal_eq board r c p lastBoardState hv he, hnone]
  simp [hz]

set_option maxRecDepth 100000 in
theorem isMoveLegal_suicide_witness :
    sampleCorner.length = 81 ∧ isValid 0 0 = true ∧
      boardAt sampleCorner (toIndex 0 0) = EMPTY ∧
      (getGroup (boardSet sampleCorner (toIndex 0 0) WHITE) 0 0).2 = 0 ∧
      isMoveLegal sampleCorner 0 0 WHITE [] = false :=
  ⟨by decide, by decide, by decide, by decide,
    isMoveLegal_suicide sampleCorner 0 0 WHITE [] (by decide) (by decide) (by decide)
      (by decide) (by decide)⟩

/-- C5, the ko rule. On a board of 81 cells with `(r, c)` in bounds and empty,
let `B'` be the board after placing the stone of `p` and removing the captured
stones. With `lastBoardState = B'` the move is illegal; and when the placed
group has a liberty on `B'`, the move is legal for every `lastBoardState`
other than `B'`. -/
theorem isMoveLegal_ko (board : List Int) (r c p : Int)
    (hlen : board.length = 81) (hv : isValid r c = true)
    (he : boardAt board (toIndex r c) = EMPTY) :
    isMoveLegal board r c p
        (removeCapturedStones (boardSet board (toIndex r c) p) p).1 = false ∧
      ((getGroup (removeCapturedStones (boardSet board (toIndex r c) p) p).1 r c).2 ≠ 0 →
        ∀ lastBoardState : List Int,
          lastBoardState ≠ (removeCapturedStones (boardSet board (toIndex r c) p) p).1 →
          isMoveLegal board r c p lastBoardState = true) := by
  have _ := hlen
  constructor
  · rw [isMoveLegal_eq board r c p _ hv he]
    simp
  · intro hl lastBoardState hne
    rw [isMoveLegal_eq board r c p _ hv he]
    simp [hl, Ne.symm hne]

set_option maxRecDepth 100000 in
theorem isMoveLegal_ko_witness :
    sampleAtari.length = 81 ∧ isValid 0 3 = true ∧
      boardAt sampleAtari (toIndex 0 3) = EMPTY ∧
      isMoveLegal sampleAtari 0 3 BLACK
        (removeCapturedStones (boardSet sampleAtari (toIndex 0 3) BLACK) BLACK).1 = false :=
  ⟨by decide, by decide, by decide,
    (isMoveLegal_ko sampleAtari 0 3 BLACK (by decide) (by decide) (by decide)).1⟩

/-! ## Reads in and out of range -/

theorem boardRead_of_range {board : List Int} {idx : Int} (h0 : 0 ≤ idx)
    (h1 : idx < board.length) : boardRead board idx = some (boardAt board idx) := by
  unfold boardRead
  rw [if_pos ⟨h0, h1⟩]

theorem boardRead_eq_none {board : List Int} {idx : Int}
    (h : ¬ (0 ≤ idx ∧ idx < board.length)) : boardRead board idx = none := by
  unfold boardRead
  rw [if_neg h]

theorem boardRead_isSome {board : List Int} {idx : Int} :
    (boardRead board idx).isSome = true ↔ 0 ≤ idx ∧ idx < board.length := by
  unfold boardRead
  split <;> simp [*]

/-- The loops over the grid read the board in range exactly when it has at
least 81 cells. -/
theorem gridReadable_iff (board : List Int) : gridReadable board = true ↔ 81 ≤ board.length := by
  unfold gridReadable
  rw [List.all_eq_true]
  constructor
  · intro h
    have h88 := h (8, 8) ((mem_scanOrder (8, 8)).2 (by decide))
    rw [boardRead_isSome] at h88
    have : toIndex 8 8 = 80 := by decide
    simp only [this] at h88
    omega
  · intro h rc hrc
    rw [boardRead_isSome]
    have hr := toIndex_range ((mem_scanOrder rc).1 hrc)
    constructor
    · exact hr.1
    · omega

theorem gridReadable_boardSet (board : List Int) (idx v : Int) :
    gridReadable (boardSet board idx v) = gridReadable board := by
  rw [Bool.eq_iff_iff, gridReadable_iff, gridReadable_iff, length_boardSet]

/-- On a board of at least 81 cells `isMoveLegal` does not panic. -/
theorem isMoveLegalChecked_eq {board : List Int} (h : 81 ≤ board.length) (r c player : Int)
    (lastBoardState : List Int) :
    isMoveLegalChecked board r c player lastBoardState =
      some (isMoveLegal board r c player lastBoardState) := by
  unfold isMoveLegalChecked isMoveLegal
  by_cases hpass : r = -1 ∧ c = -1
  · rw [if_pos hpass, if_pos hpass]
  · rw [if_neg hpass, if_neg hpass]
    cases hv : isValid r c with
    | false => simp
    | true =>
      have hr := toIndex_range hv
      have hread : boardRead board (toIndex r c) = some (boardAt board (toIndex r c)) :=
        boardRead_of_range hr.1 (by omega)
      have hgrid : gridReadable (boardSet board (toIndex r c) player) = true := by
        rw [gridReadable_boardSet]
        exact (gridReadable_iff board).2 h
      simp only [Bool.not_true, Bool.false_eq_true, if_false, hread, hgrid]
      by_cases he : boardAt board (toIndex r c) ≠ EMPTY
      · rw [if_pos he, if_pos he]
      · rw [if_neg he, if_neg he]

/-- On a board of fewer than 81 cells `isMoveLegal` returns `true` for the
pass only: every other call returns `false` at a guard or panics. -/
theorem isMoveLegalChecked_true {board : List Int} {r c player : Int}
    {lastBoardState : List Int}
    (h : isMoveLegalChecked board r c player lastBoardState = some true) :
    (r = -1 ∧ c = -1) ∨ 81 ≤ board.length := by
  by_cases hpass : r = -1 ∧ c = -1
  · exact Or.inl hpass
  · right
    by_contra hlen
    have hgrid : gridReadable (boardSet board (toIndex r c) player) = false := by
      rw [gridReadable_boardSet, ← Bool.not_eq_true, gridReadable_iff]
      exact hlen
    unfold isMoveLegalChecked at h
    rw [if_neg hpass] at h
    cases hv : isValid r c with
    | false => simp [hv] at h
    | true =>
      simp only [hv, Bool.not_true, Bool.false_eq_true, if_false, hgrid] at h
      cases hread : boardRead board (toIndex r c) with
      | none => simp [hread] at h
      | some v =>
        simp only [hread] at h
        by_cases he : v ≠ EMPTY
        · simp [he] at h
        · simp [he] at h

/-- C6. `isMoveLegal` accepts the pass move `(-1, -1)`, rejects every other
`(r, c)` that `isValid` rejects, and rejects every in-bounds `(r, c)` whose cell
is not empty.  With the reads of the board checked as the Go run time checks
them (`isMoveLegalChecked`, where `none` is the panic of a read out of range),
the first two answers are given on every board, whatever its length, also on
the board of no cell at all, every read of which panics: they are given without
a read of the board.  The third is given after the one read of the cell, which
is in range on a board of 81 cells; on such a board no call panics and the
checked function returns what `isMoveLegal` returns.  A read out of range, when
it is reached, does panic: in-bounds coordinates whose index is not below the
length of the board give `none`. -/
theorem isMoveLegal_guards (board : List Int) (player : Int) (lastBoardState : List Int)
    (hlen : board.length = 81) :
    (isMoveLegal board (-1) (-1) player lastBoardState = true ∧
      (∀ r c : Int, ¬ (r = -1 ∧ c = -1) → ¬ (0 ≤ r ∧ r < 9 ∧ 0 ≤ c ∧ c < 9) →
        isMoveLegal board r c player lastBoardState = false) ∧
      (∀ r c : Int, 0 ≤ r → r < 9 → 0 ≤ c → c < 9 → boardAt board (toIndex r c) ≠ EMPTY →
        isMoveLegal board r c player lastBoardState = false)) ∧
    (∀ anyBoard : List Int,
      isMoveLegalChecked anyBoard (-1) (-1) player lastBoardState = some true ∧
      (∀ r c : Int, ¬ (r = -1 ∧ c = -1) → ¬ (0 ≤ r ∧ r < 9 ∧ 0 ≤ c ∧ c < 9) →
        isMoveLegalChecked anyBoard r c player lastBoardState = some false) ∧
      (∀ r c : Int, 0 ≤ r → r < 9 → 0 ≤ c → c < 9 →
        ¬ (toIndex r c < anyBoard.length) →
        isMoveLegalChecked anyBoard r c player lastBoardState = none)) ∧
    (∀ idx : Int, boardRead [] idx = none) ∧
    (∀ r c : Int, 0 ≤ r → r < 9 → 0 ≤ c → c < 9 → boardAt board (toIndex r c) ≠ EMPTY →
      boardRead board (toIndex r c) = some (boardAt board (toIndex r c)) ∧
        isMoveLegalChecked board r c player lastBoardState = some false) ∧
    (∀ r c : Int, isMoveLegalChecked board r c player lastBoardState =
      some (isMoveLegal board r c player lastBoardState)) := by
  have hout : ∀ r c : Int, ¬ (r = -1 ∧ c = -1) → ¬ (0 ≤ r ∧ r < 9 ∧ 0 ≤ c ∧ c < 9) →
      isMoveLegal board r c player lastBoardState = false := by
    intro r c hpass hout
    have hv : isValid r c = false := by
      rw [← Bool.not_eq_true, isValid_iff]
      exact hout
    unfold isMoveLegal
    rw [if_neg hpass]
    simp [hv]
  have hocc : ∀ r c : Int, 0 ≤ r → r < 9 → 0 ≤ c → c < 9 →
      boardAt board (toIndex r c) ≠ EMPTY →
      isMoveLegal board r c player lastBoardState = false := by
    intro r c h1 h2 h3 h4 hocc
    have hv : isValid r c = true := (isValid_iff r c).2 ⟨h1, h2, h3, h4⟩
    have hpass : ¬ (r = -1 ∧ c = -1) := by omega
    unfold isMoveLegal
    rw [if_neg hpass]
    simp [hv, hocc]
  refine ⟨⟨by simp [isMoveLegal], hout, hocc⟩, ?_, ?_, ?_, ?_⟩
  · intro anyBoard
    refine ⟨by simp [isMoveLegalChecked], ?_, ?_⟩
    · intro r c hpass hout
      have hv : isValid r c = false := by
        rw [← Bool.not_eq_true, isValid_iff]
        exact hout
      unfold isMoveLegalChecked
      rw [if_neg hpass]
      simp [hv]
    · intro r c h1 h2 h3 h4 hrange
      have hv : isValid r c = true := (isValid_iff r c).2 ⟨h1, h2, h3, h4⟩
      have hpass : ¬ (r = -1 ∧ c = -1) := by omega
      have hread : boardRead anyBoard (toIndex r c) = none :=
        boardRead_eq_none (fun h => hrange h.2)
      unfold isMoveLegalChecked
      rw [if_neg hpass]
      simp [hv, hread]
  · intro idx
    apply boardRead_eq_none
    intro h
    have h2 := h.2
    have h1 := h.1
    simp only [List.length_nil, Nat.cast_zero] at h2
    omega
  · intro r c h1 h2 h3 h4 he
    have hv : isValid r c = true := (isValid_iff r c).2 ⟨h1, h2, h3, h4⟩
    have hr := toIndex_range hv
    refine ⟨boardRead_of_range hr.1 (by omega), ?_⟩
    rw [isMoveLegalChecked_eq (by omega), hocc r c h1 h2 h3 h4 he]
  · intro r c
    exact isMoveLegalChecked_eq (by omega) r c player lastBoardState

set_option maxRecDepth 100000 in
theorem isMoveLegal_guards_witness :
    sampleAtari.length = 81 ∧
      isMoveLegal sampleAtari (-1) (-1) WHITE sampleCorner = true ∧
      isMoveLegal sampleAtari 9 0 WHITE sampleCorner = false ∧
      isMoveLegal sampleAtari 0 1 WHITE sampleCorner = false ∧
      isMoveLegalChecked [] 9 0 WHITE sampleCorner = some false ∧
      isMoveLegalChecked [] 0 0 WHITE sampleCorner = none ∧
      isMoveLegalChecked sampleAtari 0 1 WHITE sampleCorner = some false :=
  ⟨by decide,
    (isMoveLegal_guards sampleAtari WHITE sampleCorner (by decide)).1.1,
    (isMoveLegal_guards sampleAtari WHITE sampleCorner (by decide)).1.2.1 9 0
      (by decide) (by decide),
    (isMoveLegal_guards sampleAtari WHITE sampleCorner (by decide)).1.2.2 0 1
      (by decide) (by decide) (by decide) (by decide) (by decide),
    ((isMoveLegal_guards sampleAtari WHITE sampleCorner (by decide)).2.1 []).2.1 9 0
      (by decide) (by decide),
    ((isMoveLegal_guards sampleAtari WHITE sampleCorner (by decide)).2.1 []).2.2 0 0
      (by decide) (by decide) (by decide) (by decide) (by decide),
    ((isMoveLegal_guards sampleAtari WHITE sampleCorner (by decide)).2.2.2.1 0 1
      (by decide) (by decide) (by decide) (by decide) (by decide)).2⟩

/-! ## Move generation -/

theorem mem_setInsert (m : List Int) (k x : Int) : x ∈ setInsert m k ↔ x ∈ m ∨ x = k := by
  unfold setInsert
  split
  · next h =>
    constructor
    · exact Or.inl
    · rintro (h1 | rfl)
      · exact h1
      · exact h
  · simp

theorem nodup_setInsert {m : List Int} (k : Int) (h : m.Nodup) : (setInsert m k).Nodup := by
  unfold setInsert
  split
  · exact h
  · next hk =>
    rw [List.nodup_append]
    refine ⟨h, List.nodup_singleton _, ?_⟩
    intro x hx hx'
    rw [List.mem_singleton] at hx'
    subst hx'
    exact hk hx

theorem candidateVisit_foldl (board : List Int) (ns : List (Int × Int)) (cands : List Int)
    (hn : cands.Nodup) :
    (ns.foldl (candidateVisit board) cands).Nodup ∧
      ∀ x, x ∈ ns.foldl (candidateVisit board) cands ↔
        (x ∈ cands ∨ ∃ n ∈ ns, isValid n.1 n.2 = true ∧
          boardAt board (toIndex n.1 n.2) = EMPTY ∧ x = toIndex n.1 n.2) := by
  induction ns generalizing cands with
  | nil => exact ⟨hn, by simp⟩
  | cons n rest ih =>
    rw [List.foldl_cons]
    have hstep : (candidateVisit board cands n).Nodup ∧
        ∀ x, x ∈ candidateVisit board cands n ↔
          (x ∈ cands ∨ (isValid n.1 n.2 = true ∧
            boardAt board (toIndex n.1 n.2) = EMPTY ∧ x = toIndex n.1 n.2)) := by
      unfold candidateVisit
      by_cases h : isValid n.1 n.2 = true ∧ boardAt board (toIndex n.1 n.2) = EMPTY
      · have hc : (isValid n.1 n.2 && decide (boardAt board (toIndex n.1 n.2) = EMPTY))
            = true := by simp [h.1, h.2]
        rw [if_pos hc]
        refine ⟨nodup_setInsert _ hn, ?_⟩
        intro x
        rw [mem_setInsert]
        constructor
        · rintro (h1 | h1)
          · exact Or.inl h1
          · exact Or.inr ⟨h.1, h.2, h1⟩
        · rintro (h1 | ⟨_, _, h1⟩)
          · exact Or.inl h1
          · exact Or.inr h1
      · have hc : ¬ ((isValid n.1 n.2 && decide (boardAt board (toIndex n.1 n.2) = EMPTY))
            = true) := by
          intro hc
          rw [Bool.and_eq_true, decide_eq_true_eq] at hc
          exact h hc
        rw [if_neg hc]
        refine ⟨hn, ?_⟩
        intro x
        constructor
        · exact Or.inl
        · rintro (h1 | ⟨h1, h2, _⟩)
          · exact h1
          · exact absurd ⟨h1, h2⟩ h
    obtain ⟨hnd, hmem⟩ := ih _ hstep.1
    refine ⟨hnd, ?_⟩
    intro x
    rw [hmem, hstep.2]
    constructor
    · rintro ((h | h) | ⟨m, hm, h⟩)
      · exact Or.inl h
      · exact Or.inr ⟨n, List.mem_cons_self _ _, h⟩
      · exact Or.inr ⟨m, List.mem_cons_of_mem _ hm, h⟩
    · rintro (h | ⟨m, hm, h⟩)
      · exact Or.inl (Or.inl h)
      · rcases List.mem_cons.1 hm with rfl | hm
        · exact Or.inl (Or.inr h)
        · exact Or.inr ⟨m, hm, h⟩

theorem candidateInv_init (board : List Int) :
    CandidateInv board [] { candidateSquares := [], hasStones := false } where
  nodup := List.nodup_nil
  mem := by simp
  stones := by simp

theorem candidateInv_step {board : List Int} {pre : List (Int × Int)} {s : CandidateState}
    {rc : Int × Int} (hv : isValid rc.1 rc.2 = true) (hinv : CandidateInv board pre s) :
    CandidateInv board (pre ++ [rc]) (candidateCell board s rc) := by
  have hr := toIndex_range hv
  have hrc := toCoords_toIndex hv
  unfold candidateCell
  by_cases hst : boardAt board (toIndex rc.1 rc.2) ≠ EMPTY
  · rw [if_pos hst]
    obtain ⟨hnd, hmem⟩ := candidateVisit_foldl board (neighbors rc.1 rc.2)
      s.candidateSquares hinv.nodup
    refine ⟨hnd, ?_, ?_⟩
    · intro x
      simp only
      rw [hmem, hinv.mem]
      constructor
      · rintro (⟨he, p, hp, h⟩ | ⟨n, hn, hvn, he, rfl⟩)
        · exact ⟨he, p, List.mem_append_left _ hp, h⟩
        · refine ⟨he, rc, by simp, hst, ?_⟩
          rw [adjacent_iff_neighbors hr.1 hr.2, hrc]
          exact ⟨n, hn, hvn, rfl⟩
      · rintro ⟨he, p, hp, hps, hadj⟩
        rcases List.mem_append.1 hp with hp | hp
        · exact Or.inl ⟨he, p, hp, hps, hadj⟩
        · rw [List.mem_singleton] at hp
          subst hp
          rw [adjacent_iff_neighbors hr.1 hr.2, hrc] at hadj
          obtain ⟨n, hn, hvn, rfl⟩ := hadj
          exact Or.inr ⟨n, hn, hvn, he, rfl⟩
    · simp only [true_iff]
      exact ⟨rc, by simp, hst⟩
  · rw [if_neg hst]
    refine ⟨hinv.nodup, ?_, ?_⟩
    · intro x
      rw [hinv.mem]
      constructor
      · rintro ⟨he, p, hp, h⟩
        exact ⟨he, p, List.mem_append_left _ hp, h⟩
      · rintro ⟨he, p, hp, hps, hadj⟩
        rcases List.mem_append.1 hp with hp | hp
        · exact ⟨he, p, hp, hps, hadj⟩
        · rw [List.mem_singleton] at hp
          subst hp
          exact absurd hps hst
    · rw [hinv.stones]
      constructor
      · rintro ⟨p, hp, h⟩
        exact ⟨p, List.mem_append_left _ hp, h⟩
      · rintro ⟨p, hp, hps⟩
        rcases List.mem_append.1 hp with hp | hp
        · exact ⟨p, hp, hps⟩
        · rw [List.mem_singleton] at hp
          subst hp
          exact absurd hps hst

theorem candidateInv_foldl {board : List Int} :
    ∀ (l pre : List (Int × Int)) (s : CandidateState),
      (∀ rc ∈ l, isValid rc.1 rc.2 = true) → CandidateInv board pre s →
      CandidateInv board (pre ++ l) (l.foldl (candidateCell board) s) := by
  intro l
  induction l with
  | nil =>
    intro pre s _ h
    simpa using h
  | cons rc rest ih =>
    intro pre s hv h
    rw [List.foldl_cons]
    have := ih (pre ++ [rc]) _ (fun p hp => hv p (List.mem_cons_of_mem _ hp))
      (candidateInv_step (hv rc (List.mem_cons_self _ _)) h)
    simpa using this

theorem candidateInv_final (board : List Int) :
    CandidateInv board scanOrder
      (scanOrder.foldl (candidateCell board) { candidateSquares := [], hasStones := false }) := by
  have := candidateInv_foldl scanOrder [] _ (fun rc h => (mem_scanOrder rc).1 h)
    (candidateInv_init board)
  simpa using this

theorem legalAppend_foldl (board : List Int) (player : Int) (lastBoardState : List Int)
    (l : List Int) (acc : List Move) :
    l.foldl (legalAppend board player lastBoardState) acc =
      acc ++ (l.filter (fun idx =>
        isMoveLegal board (toCoords idx).1 (toCoords idx).2 player lastBoardState)).map
          (fun idx => { Row := (toCoords idx).1, Col := (toCoords idx).2 }) := by
  induction l generalizing acc with
  | nil => simp
  | cons a rest ih =>
    rw [List.foldl_cons, ih]
    unfold legalAppend
    by_cases h : isMoveLegal board (toCoords a).1 (toCoords a).2 player lastBoardState = true
    · simp [h]
    · simp [h]

theorem allMoves_foldl (l : List (Int × Int)) (acc : List Move) :
    l.foldl (fun moves rc => moves ++ [({ Row := rc.1, Col := rc.2 } : Move)]) acc =
      acc ++ l.map (fun rc => { Row := rc.1, Col := rc.2 }) := by
  induction l generalizing acc with
  | nil => simp
  | cons a rest ih =>
    rw [List.foldl_cons, ih]
    simp

/-! ## Claims C7 and C8: `generateMoves` -/

/-- C7. On a board of 81 cells holding at least one stone, whatever order the
map range yields the candidate keys in, `generateMoves` returns `ms` followed
by the pass move, where `ms` has no duplicate, does not contain the pass move,
and holds exactly the in-bounds empty cells that are adjacent to a stone and for
which `isMoveLegal` is true. -/
theorem generateMoves_correct (mapOrder : List Int → List Int) (board : List Int)
    (player : Int) (lastBoardState : List Int)
    (hperm : ∀ l, (mapOrder l).Perm l) (hlen : board.length = 81)
    (hstone : ∃ i ∈ allIdx, boardAt board i ≠ EMPTY) :
    ∃ ms : List Move,
      generateMoves mapOrder board player lastBoardState = ms ++ [passMove] ∧
      ms.Nodup ∧ passMove ∉ ms ∧
      ∀ m : Move, m ∈ ms ↔
        (isValid m.Row m.Col = true ∧ boardAt board (toIndex m.Row m.Col) = EMPTY ∧
          (∃ y, Adjacent (toIndex m.Row m.Col) y ∧ boardAt board y ≠ EMPTY) ∧
          isMoveLegal board m.Row m.Col player lastBoardState = true) := by
  have _ := hlen
  have hinv := candidateInv_final board
  have hhas : (scanOrder.foldl (candidateCell board)
      { candidateSquares := [], hasStones := false }).hasStones = true := by
    rw [hinv.stones]
    obtain ⟨i, hi, hs⟩ := hstone
    rw [mem_allIdx] at hi
    obtain ⟨hidx, hv⟩ := toIndex_toCoords hi.1 hi.2
    exact ⟨toCoords i, (mem_scanOrder _).2 hv, by rw [hidx]; exact hs⟩
  unfold generateMoves
  simp only [hhas, Bool.not_true, Bool.false_eq_true, if_false]
  generalize scanOrder.foldl (candidateCell board)
    { candidateSquares := [], hasStones := false } = s at hinv
  rw [legalAppend_foldl, List.nil_append]
  have hmemc : ∀ x, x ∈ mapOrder s.candidateSquares ↔ x ∈ s.candidateSquares :=
    fun x => (hperm _).mem_iff
  have hrange : ∀ x ∈ mapOrder s.candidateSquares, 0 ≤ x ∧ x < 81 := by
    intro x hx
    obtain ⟨_, _, _, _, hadj⟩ := (hinv.mem x).1 ((hmemc x).1 hx)
    exact hadj.right_range
  refine ⟨_, rfl, ?_, ?_, ?_⟩
  · apply List.Nodup.map_on
    · intro x hx y hy hxy
      have hx' := hrange x (List.mem_filter.1 hx).1
      have hy' := hrange y (List.mem_filter.1 hy).1
      have h1 := (toIndex_toCoords hx'.1 hx'.2).1
      have h2 := (toIndex_toCoords hy'.1 hy'.2).1
      rw [Move.mk.injEq] at hxy
      rw [← h1, ← h2, hxy.1, hxy.2]
    · exact ((hperm _).nodup_iff.2 hinv.nodup).filter _
  · intro hpass
    rw [List.mem_map] at hpass
    obtain ⟨x, hx, hxe⟩ := hpass
    have hx' := hrange x (List.mem_filter.1 hx).1
    have hv := (toIndex_toCoords hx'.1 hx'.2).2
    rw [isValid_iff] at hv
    unfold passMove at hxe
    rw [Move.mk.injEq] at hxe
    omega
  · intro m
    rw [List.mem_map]
    constructor
    · rintro ⟨x, hx, rfl⟩
      rw [List.mem_filter] at hx
      have hx' := hrange x hx.1
      obtain ⟨hidx, hv⟩ := toIndex_toCoords hx'.1 hx'.2
      obtain ⟨he, p, _, hps, hadj⟩ := (hinv.mem x).1 ((hmemc x).1 hx.1)
      simp only
      rw [hidx]
      exact ⟨hv, he, ⟨_, hadj.flip, hps⟩, hx.2⟩
    · rintro ⟨hv, he, ⟨y, hadj, hy⟩, hlegal⟩
      have hcoords := toCoords_toIndex hv
      refine ⟨toIndex m.Row m.Col, ?_, ?_⟩
      · rw [List.mem_filter, hmemc, hinv.mem, hcoords]
        refine ⟨⟨he, toCoords y, ?_, ?_, ?_⟩, hlegal⟩
        · exact (mem_scanOrder _).2 (toIndex_toCoords hadj.right_range.1 hadj.right_range.2).2
        · rw [(toIndex_toCoords hadj.right_range.1 hadj.right_range.2).1]
          exact hy
        · rw [(toIndex_toCoords hadj.right_range.1 hadj.right_range.2).1]
          exact hadj.flip
      · rw [hcoords]

set_option maxRecDepth 100000 in
theorem generateMoves_correct_witness :
    sampleAtari.length = 81 ∧ (∃ i ∈ allIdx, boardAt sampleAtari i ≠ EMPTY) ∧
      ∃ ms : List Move,
        generateMoves id sampleAtari BLACK [] = ms ++ [passMove] ∧ ms.Nodup ∧ passMove ∉ ms :=
  ⟨by decide, by decide,
    (generateMoves_correct id sampleAtari BLACK [] (fun l => List.Perm.refl l) (by decide)
      (by decide)).imp (fun _ h => ⟨h.1, h.2.1, h.2.2.1⟩)⟩

set_option maxRecDepth 100000 in
/-- C8. On the board of 81 empty cells `generateMoves` returns 82 moves: the
cells `(k / 9, k % 9)` for `k = 0, …, 80` in that order, then the pass move,
whatever the colour, `lastBoardState` and map order. -/
theorem generateMoves_empty (mapOrder : List Int → List Int) (player : Int)
    (lastBoardState : List Int) :
    generateMoves mapOrder (List.replicate 81 EMPTY) player lastBoardState =
        (List.range 81).map
          (fun k => ({ Row := Int.ofNat (k / 9), Col := Int.ofNat (k % 9) } : Move))
          ++ [passMove] ∧
      (generateMoves mapOrder (List.replicate 81 EMPTY) player lastBoardState).length = 82 := by
  have hhas : (scanOrder.foldl (candidateCell (List.replicate 81 EMPTY))
      { candidateSquares := [], hasStones := false }).hasStones = false := by decide
  have hall : scanOrder.map (fun rc => ({ Row := rc.1, Col := rc.2 } : Move)) =
      (List.range 81).map
        (fun k => ({ Row := Int.ofNat (k / 9), Col := Int.ofNat (k % 9) } : Move)) := by
    decide
  have heq : generateMoves mapOrder (List.replicate 81 EMPTY) player lastBoardState =
      (List.range 81).map
        (fun k => ({ Row := Int.ofNat (k / 9), Col := Int.ofNat (k % 9) } : Move))
        ++ [passMove] := by
    unfold generateMoves
    simp only [hhas, Bool.not_false, if_true]
    rw [allMoves_foldl, List.nil_append, hall]
  refine ⟨heq, ?_⟩
  rw [heq]
  simp

/-! ## The flood fill of `countTerritory` -/

theorem regionVisited_nil (board : List Int) (s : RegionState) :
    RegionVisited board [] s s where
  grow := ⟨[], by simp⟩
  nodup := id
  full := by simp
  black := by simp
  white := by simp
  terr := rfl
  grp := rfl

theorem regionVisited_one (board : List Int) (s : RegionState) (n : Int × Int) :
    RegionVisited board [n] s (regionVisit board s n) := by
  have hEB : EMPTY ≠ BLACK := by decide
  have hEW : EMPTY ≠ WHITE := by decide
  have hBW : BLACK ≠ WHITE := by decide
  unfold regionVisit
  by_cases hv : isValid n.1 n.2 = true
  · simp only [hv, Bool.not_true, Bool.false_eq_true, if_false]
    by_cases h1 : boardAt board (toIndex n.1 n.2) = EMPTY ∧ toIndex n.1 n.2 ∉ s.visited
    · rw [if_pos h1]
      refine ⟨⟨[toIndex n.1 n.2], rfl, rfl, ?_⟩, ?_, ?_, ?_, ?_, rfl, rfl⟩
      · intro x hx
        rw [List.mem_singleton] at hx
        subst hx
        exact ⟨n, by simp, hv, rfl, h1.1⟩
      · intro hn
        simp only
        rw [List.nodup_append]
        refine ⟨hn, List.nodup_singleton _, ?_⟩
        intro x hx hx'
        rw [List.mem_singleton] at hx'
        subst hx'
        exact h1.2 hx
      · intro m hm _ _
        rw [List.mem_singleton] at hm
        subst hm
        simp
      · simp only [List.mem_singleton, exists_eq_left, hv, true_and]
        constructor
        · exact Or.inl
        · rintro (h | h)
          · exact h
          · exact absurd (h1.1.symm.trans h) hEB
      · simp only [List.mem_singleton, exists_eq_left, hv, true_and]
        constructor
        · exact Or.inl
        · rintro (h | h)
          · exact h
          · exact absurd (h1.1.symm.trans h) hEW
    · rw [if_neg h1]
      have hfull : ∀ m ∈ [n], isValid m.1 m.2 = true →
          boardAt board (toIndex m.1 m.2) = EMPTY → toIndex m.1 m.2 ∈ s.visited := by
        intro m hm _ he
        rw [List.mem_singleton] at hm
        subst hm
        by_contra hnot
        exact h1 ⟨he, hnot⟩
      by_cases h2 : boardAt board (toIndex n.1 n.2) = BLACK
      · rw [if_pos h2]
        refine ⟨⟨[], by simp⟩, id, hfull, ?_, ?_, rfl, rfl⟩
        · simp only [List.mem_singleton, exists_eq_left, hv, true_and, true_iff]
          exact Or.inr h2
        · simp only [List.mem_singleton, exists_eq_left, hv, true_and]
          constructor
          · exact Or.inl
          · rintro (h | h)
            · exact h
            · exact absurd (h2.symm.trans h) hBW
      · rw [if_neg h2]
        by_cases h3 : boardAt board (toIndex n.1 n.2) = WHITE
        · rw [if_pos h3]
          refine ⟨⟨[], by simp⟩, id, hfull, ?_, ?_, rfl, rfl⟩
          · simp only [List.mem_singleton, exists_eq_left, hv, true_and]
            constructor
            · exact Or.inl
            · rintro (h | h)
              · exact h
              · exact absurd h h2
          · simp only [List.mem_singleton, exists_eq_left, hv, true_and, true_iff]
            exact Or.inr h3
        · rw [if_neg h3]
          refine ⟨⟨[], by simp⟩, id, hfull, ?_, ?_, rfl, rfl⟩
          · simp only [List.mem_singleton, exists_eq_left, hv, true_and]
            constructor
            · exact Or.inl
            · rintro (h | h)
              · exact h
              · exact absurd h h2
          · simp only [List.mem_singleton, exists_eq_left, hv, true_and]
            constructor
            · exact Or.inl
            · rintro (h | h)
              · exact h
              · exact absurd h h3
  · simp only [hv, Bool.not_false, if_true]
    refine ⟨⟨[], by simp⟩, id, ?_, ?_, ?_, rfl, rfl⟩
    · intro m hm hvm
      rw [List.mem_singleton] at hm
      subst hm
      exact absurd hvm hv
    · simp only [List.mem_singleton, exists_eq_left, hv, Bool.false_eq_true, false_and,
        or_false]
    · simp only [List.mem_singleton, exists_eq_left, hv, Bool.false_eq_true, false_and,
        or_false]

theorem RegionVisited.followedBy {board : List Int} {ns₁ ns₂ : List (Int × Int)}
    {s s' s'' : RegionState} (h₁ : RegionVisited board ns₁ s s')
    (h₂ : RegionVisited board ns₂ s' s'') :
    RegionVisited board (ns₁ ++ ns₂) s s'' := by
  obtain ⟨new₁, hg₁, hq₁, hn₁⟩ := h₁.grow
  obtain ⟨new₂, hg₂, hq₂, hn₂⟩ := h₂.grow
  refine ⟨⟨new₁ ++ new₂, ?_, ?_, ?_⟩, fun h => h₂.nodup (h₁.nodup h), ?_, ?_, ?_,
    h₂.terr.trans h₁.terr, h₂.grp.trans h₁.grp⟩
  · rw [hg₂, hg₁, List.append_assoc]
  · rw [hq₂, hq₁, List.append_assoc]
  · intro x hx
    rcases List.mem_append.1 hx with hx | hx
    · obtain ⟨n, hn, h⟩ := hn₁ x hx
      exact ⟨n, List.mem_append_left _ hn, h⟩
    · obtain ⟨n, hn, h⟩ := hn₂ x hx
      exact ⟨n, List.mem_append_right _ hn, h⟩
  · intro n hn hv he
    rcases List.mem_append.1 hn with hn | hn
    · rw [hg₂]
      exact List.mem_append_left _ (h₁.full n hn hv he)
    · exact h₂.full n hn hv he
  · rw [h₂.black, h₁.black]
    constructor
    · rintro ((h | ⟨n, hn, h⟩) | ⟨n, hn, h⟩)
      · exact Or.inl h
      · exact Or.inr ⟨n, List.mem_append_left _ hn, h⟩
      · exact Or.inr ⟨n, List.mem_append_right _ hn, h⟩
    · rintro (h | ⟨n, hn, h⟩)
      · exact Or.inl (Or.inl h)
      · rcases List.mem_append.1 hn with hn | hn
        · exact Or.inl (Or.inr ⟨n, hn, h⟩)
        · exact Or.inr ⟨n, hn, h⟩
  · rw [h₂.white, h₁.white]
    constructor
    · rintro ((h | ⟨n, hn, h⟩) | ⟨n, hn, h⟩)
      · exact Or.inl h
      · exact Or.inr ⟨n, List.mem_append_left _ hn, h⟩
      · exact Or.inr ⟨n, List.mem_append_right _ hn, h⟩
    · rintro (h | ⟨n, hn, h⟩)
      · exact Or.inl (Or.inl h)
      · rcases List.mem_append.1 hn with hn | hn
        · exact Or.inl (Or.inr ⟨n, hn, h⟩)
        · exact Or.inr ⟨n, hn, h⟩

theorem regionVisited_foldl (board : List Int) (ns : List (Int × Int)) (s : RegionState) :
    RegionVisited board ns s (ns.foldl (regionVisit board) s) := by
  induction ns generalizing s with
  | nil => exact regionVisited_nil board s
  | cons n rest ih =>
    rw [List.foldl_cons]
    exact (regionVisited_one board s n).followedBy (ih _)

theorem regionInv_init {board : List Int} {V0 : List Int} {seed : Int}
    (hV0 : V0.Nodup) (hfresh : seed ∉ V0) (h0 : 0 ≤ seed) (h1 : seed < 81)
    (he : boardAt board seed = EMPTY) :
    RegionInv board V0 seed []
      { visited := V0 ++ [seed], queue := [seed], territory := 0, touchesBlack := false,
        touchesWhite := false, currentTerritoryGroup := [] } where
  split := rfl
  nodup := by
    simp only
    rw [List.nodup_append]
    refine ⟨hV0, List.nodup_singleton _, ?_⟩
    intro x hx hx'
    rw [List.mem_singleton] at hx'
    subst hx'
    exact hfresh hx
  sound := by
    intro x hx
    simp only [List.nil_append, List.mem_singleton] at hx
    subst hx
    exact Connected.refl h0 h1 he
  seedIn := by simp
  closed := by simp
  terr := rfl
  grp := rfl
  black := by simp
  white := by simp

theorem regionInv_step {board : List Int} {V0 : List Int} {seed : Int}
    {done : List Int} {s : RegionState} {cur : Int} {rest : List Int}
    (hinv : RegionInv board V0 seed done s) (hq : s.queue = cur :: rest) :
    RegionInv board V0 seed (done ++ [cur])
      ((neighbors (toCoords cur).1 (toCoords cur).2).foldl (regionVisit board)
        { s with queue := rest, territory := s.territory + 1,
                 currentTerritoryGroup := s.currentTerritoryGroup ++ [cur] }) := by
  have hV := regionVisited_foldl board (neighbors (toCoords cur).1 (toCoords cur).2)
    { s with queue := rest, territory := s.territory + 1,
             currentTerritoryGroup := s.currentTerritoryGroup ++ [cur] }
  generalize (neighbors (toCoords cur).1 (toCoords cur).2).foldl (regionVisit board)
    { s with queue := rest, territory := s.territory + 1,
             currentTerritoryGroup := s.currentTerritoryGroup ++ [cur] } = s' at hV
  obtain ⟨new, hg, hq', hnew⟩ := hV.grow
  have hterr := hV.terr
  have hgrp := hV.grp
  have hblack := hV.black
  have hwhite := hV.white
  simp only at hg hq' hterr hgrp hblack hwhite
  have hcurConn : Connected board EMPTY seed cur := by
    apply hinv.sound
    rw [hq]
    simp
  have hcurR := hcurConn.range
  have hadj : ∀ n ∈ neighbors (toCoords cur).1 (toCoords cur).2,
      isValid n.1 n.2 = true → Adjacent cur (toIndex n.1 n.2) := by
    intro n hn hv
    exact (adjacent_iff_neighbors hcurR.1 hcurR.2 _).2 ⟨n, hn, hv, rfl⟩
  have htouch : ∀ colour : Int,
      (∃ n ∈ neighbors (toCoords cur).1 (toCoords cur).2,
        isValid n.1 n.2 = true ∧ boardAt board (toIndex n.1 n.2) = colour) ↔
      ∃ y, Adjacent cur y ∧ boardAt board y = colour := by
    intro colour
    constructor
    · rintro ⟨n, hn, hv, hc⟩
      exact ⟨_, hadj n hn hv, hc⟩
    · rintro ⟨y, hy, hc⟩
      obtain ⟨n, hn, hv, rfl⟩ := (adjacent_iff_neighbors hcurR.1 hcurR.2 y).1 hy
      exact ⟨n, hn, hv, hc⟩
  have hdone : ∀ colour : Int,
      (∃ x ∈ done ++ [cur], ∃ y, Adjacent x y ∧ boardAt board y = colour) ↔
      ((∃ x ∈ done, ∃ y, Adjacent x y ∧ boardAt board y = colour) ∨
        ∃ y, Adjacent cur y ∧ boardAt board y = colour) := by
    intro colour
    constructor
    · rintro ⟨x, hx, h⟩
      rcases List.mem_append.1 hx with hx | hx
      · exact Or.inl ⟨x, hx, h⟩
      · rw [List.mem_singleton] at hx
        subst hx
        exact Or.inr h
    · rintro (⟨x, hx, h⟩ | h)
      · exact ⟨x, List.mem_append_left _ hx, h⟩
      · exact ⟨cur, by simp, h⟩
  refine ⟨?_, hV.nodup hinv.nodup, ?_, ?_, ?_, ?_, ?_, ?_, ?_⟩
  · rw [hg, hq', hinv.split, hq]
    simp
  · intro x hx
    rw [hq'] at hx
    have hx' : x ∈ done ++ s.queue ∨ x ∈ new := by
      rw [hq]
      simp only [List.mem_append, List.mem_singleton, List.mem_cons] at hx ⊢
      tauto
    rcases hx' with hx' | hx'
    · exact hinv.sound x hx'
    · obtain ⟨n, hn, hv, rfl, hc⟩ := hnew x hx'
      exact Connected.step hcurConn (hadj n hn hv) hc
  · have := hinv.seedIn
    rw [hq] at this
    rw [hq']
    simp only [List.mem_append, List.mem_singleton, List.mem_cons] at this ⊢
    tauto
  · intro x hx y hxy hy
    rcases List.mem_append.1 hx with hx | hx
    · rw [hg]
      exact List.mem_append_left _ (hinv.closed x hx y hxy hy)
    · rw [List.mem_singleton] at hx
      subst hx
      obtain ⟨n, hn, hv, rfl⟩ := (adjacent_iff_neighbors hcurR.1 hcurR.2 y).1 hxy
      exact hV.full n hn hv hy
  · rw [hterr, hinv.terr, List.length_append, List.length_singleton]
  · rw [hgrp, hinv.grp]
  · rw [hblack, hinv.black, htouch, hdone]
  · rw [hwhite, hinv.white, htouch, hdone]

/-- With enough fuel the flood fill of `countTerritory` leaves its loop because
the queue is empty. -/
theorem regionLoop_inv {board : List Int} {V0 : List Int} {seed : Int} :
    ∀ (fuel : Nat) (done : List Int) (s : RegionState),
      RegionInv board V0 seed done s → 81 ≤ fuel + done.length →
      ∃ done', RegionInv board V0 seed done' (regionLoop board fuel s) ∧
        (regionLoop board fuel s).queue = [] := by
  intro fuel
  induction fuel with
  | zero =>
    intro done s hinv hfuel
    refine ⟨done, hinv, ?_⟩
    have hnd : (done ++ s.queue).Nodup := by
      have := hinv.nodup
      rw [hinv.split, List.nodup_append] at this
      exact this.2.1
    have hlen := length_le_of_nodup_range hnd (fun x hx => (hinv.sound x hx).range)
    rw [List.length_append] at hlen
    have : s.queue.length = 0 := by omega
    simpa [regionLoop] using List.length_eq_zero.1 this
  | succ fuel ih =>
    intro done s hinv hfuel
    cases hq : s.queue with
    | nil =>
      refine ⟨done, ?_, ?_⟩
      · simpa [regionLoop, hq] using hinv
      · simp [regionLoop, hq]
    | cons cur rest =>
      have hstep := regionInv_step hinv hq
      obtain ⟨done', h1, h2⟩ := ih (done ++ [cur]) _ hstep (by
        rw [List.length_append, List.length_singleton]; omega)
      refine ⟨done', ?_, ?_⟩
      · simpa [regionLoop, hq] using h1
      · simpa [regionLoop, hq] using h2

/-- What the flood fill of one region leaves behind: the region of the seed,
appended to the visited cells, its size and the colours it touches. -/
theorem regionRun_spec {board : List Int} {V0 : List Int} {seed : Int}
    (hV0 : V0.Nodup)
    (hclosed : ∀ i ∈ V0, ∀ j, Connected board EMPTY i j → j ∈ V0)
    (hfresh : seed ∉ V0) (h0 : 0 ≤ seed) (h1 : seed < 81)
    (he : boardAt board seed = EMPTY) :
    ∃ done : List Int,
      (regionRun board V0 seed).visited = V0 ++ done ∧
      (regionRun board V0 seed).queue = [] ∧
      done.Nodup ∧ (∀ x ∈ done, x ∉ V0) ∧
      (∀ x, x ∈ done ↔ Connected board EMPTY seed x) ∧
      (regionRun board V0 seed).territory = done.length ∧
      ((regionRun board V0 seed).touchesBlack = true ↔ RegionTouches board BLACK seed) ∧
      ((regionRun board V0 seed).touchesWhite = true ↔ RegionTouches board WHITE seed) := by
  obtain ⟨done, hinv, hq⟩ := regionLoop_inv CELLS [] _
    (regionInv_init hV0 hfresh h0 h1 he) (by simp [CELLS])
  have hsplit := hinv.split
  rw [hq, List.append_nil] at hsplit
  have hnd := hinv.nodup
  rw [hsplit, List.nodup_append] at hnd
  have hmem : ∀ x, x ∈ done ↔ Connected board EMPTY seed x := by
    intro x
    constructor
    · intro hx
      exact hinv.sound x (List.mem_append_left _ hx)
    · intro hx
      induction hx with
      | refl _ _ _ =>
        have := hinv.seedIn
        rwa [hq, List.append_nil] at this
      | @step b c hb hadj hc ih =>
        have := hinv.closed b ih c hadj hc
        rw [hsplit] at this
        rcases List.mem_append.1 this with h | h
        · exact absurd (hclosed c h seed (Connected.step hb hadj hc).symm) hfresh
        · exact h
  have htouch : ∀ colour : Int,
      (∃ x ∈ done, ∃ y, Adjacent x y ∧ boardAt board y = colour) ↔
        RegionTouches board colour seed := by
    intro colour
    unfold RegionTouches
    constructor
    · rintro ⟨x, hx, h⟩
      exact ⟨x, (hmem x).1 hx, h⟩
    · rintro ⟨x, hx, h⟩
      exact ⟨x, (hmem x).2 hx, h⟩
  refine ⟨done, hsplit, hq, hnd.2.1, ?_, hmem, hinv.terr, ?_, ?_⟩
  · intro x hx hx'
    exact hnd.2.2 hx' hx
  · rw [← htouch]
    exact hinv.black
  · rw [← htouch]
    exact hinv.white

theorem regionTouches_of_connected {board : List Int} {colour i j : Int}
    (h : Connected board EMPTY i j) :
    RegionTouches board colour j ↔ RegionTouches board colour i := by
  unfold RegionTouches
  constructor
  · rintro ⟨x, hx, hy⟩
    exact ⟨x, h.trans hx, hy⟩
  · rintro ⟨x, hx, hy⟩
    exact ⟨x, h.symm.trans hx, hy⟩

theorem owned_of_connected {board : List Int} {a b i j : Int}
    (h : Connected board EMPTY i j) : Owned board a b j ↔ Owned board a b i := by
  unfold Owned
  rw [regionTouches_of_connected h, regionTouches_of_connected h]

/-! ## The scan of `countTerritory` -/

/-- Adding a freshly filled region, all of whose cells are owned, to the list
of owned cells counted so far. -/
theorem owned_extend {board : List Int} {a b : Int} {V done cells : List Int}
    (hcn : cells.Nodup) (hcm : ∀ i, i ∈ cells ↔ (i ∈ V ∧ Owned board a b i))
    (hdn : done.Nodup) (hdisj : ∀ x ∈ done, x ∉ V)
    (hall : ∀ x ∈ done, Owned board a b x) :
    (cells ++ done).Nodup ∧
      ∀ i, i ∈ cells ++ done ↔ (i ∈ V ++ done ∧ Owned board a b i) := by
  constructor
  · rw [List.nodup_append]
    refine ⟨hcn, hdn, ?_⟩
    intro x hx hx'
    exact hdisj x hx' ((hcm x).1 hx).1
  · intro i
    rw [List.mem_append, List.mem_append, hcm]
    constructor
    · rintro (⟨h1, h2⟩ | h)
      · exact ⟨Or.inl h1, h2⟩
      · exact ⟨Or.inr h, hall i h⟩
    · rintro ⟨h1 | h1, h2⟩
      · exact Or.inl ⟨h1, h2⟩
      · exact Or.inr h1

/-- A freshly filled region none of whose cells is owned leaves the list of
owned cells as it is. -/
theorem owned_keep {board : List Int} {a b : Int} {V done cells : List Int}
    (hcm : ∀ i, i ∈ cells ↔ (i ∈ V ∧ Owned board a b i))
    (hnone : ∀ x ∈ done, ¬ Owned board a b x) :
    ∀ i, i ∈ cells ↔ (i ∈ V ++ done ∧ Owned board a b i) := by
  intro i
  rw [List.mem_append, hcm]
  constructor
  · rintro ⟨h1, h2⟩
    exact ⟨Or.inl h1, h2⟩
  · rintro ⟨h1 | h1, h2⟩
    · exact ⟨h1, h2⟩
    · exact absurd h2 (hnone i h1)

theorem territoryInv_init (board : List Int) :
    TerritoryInv board [] { visited := [], blackTerritory := 0, whiteTerritory := 0 } where
  nodup := List.nodup_nil
  chk := by simp
  closed := by simp
  seen := by simp
  black := ⟨[], List.nodup_nil, by simp, rfl⟩
  white := ⟨[], List.nodup_nil, by simp, rfl⟩

theorem territoryInv_step {board : List Int} {pre : List (Int × Int)} {s : TerritoryState}
    {rc : Int × Int} (hv : isValid rc.1 rc.2 = true) (hinv : TerritoryInv board pre s) :
    TerritoryInv board (pre ++ [rc]) (territoryCell board s rc) := by
  have hr := toIndex_range hv
  unfold territoryCell
  simp only
  by_cases htest : boardAt board (toIndex rc.1 rc.2) = EMPTY ∧ toIndex rc.1 rc.2 ∉ s.visited
  · rw [if_pos htest]
    obtain ⟨done, hvis, _, hdn, hdisj, hmem, hterr, hb, hw⟩ :=
      regionRun_spec hinv.nodup hinv.closed htest.2 hr.1 hr.2 htest.1
    generalize regionRun board s.visited (toIndex rc.1 rc.2) = f at hvis hterr hb hw
    have hseedIn : toIndex rc.1 rc.2 ∈ done := (hmem _).2 (Connected.refl hr.1 hr.2 htest.1)
    have hnodup : (s.visited ++ done).Nodup := by
      rw [List.nodup_append]
      refine ⟨hinv.nodup, hdn, ?_⟩
      intro x hx hx'
      exact hdisj x hx' hx
    have hchk : ∀ i ∈ s.visited ++ done, Connected board EMPTY i i := by
      intro i hi
      rcases List.mem_append.1 hi with h | h
      · exact hinv.chk i h
      · have := (hmem i).1 h
        exact Connected.refl this.range.1 this.range.2 this.colour_right
    have hclosed : ∀ i ∈ s.visited ++ done, ∀ j, Connected board EMPTY i j →
        j ∈ s.visited ++ done := by
      intro i hi j hij
      rcases List.mem_append.1 hi with h | h
      · exact List.mem_append_left _ (hinv.closed i h j hij)
      · exact List.mem_append_right _ ((hmem j).2 (((hmem i).1 h).trans hij))
    have hseen : ∀ p ∈ pre ++ [rc], boardAt board (toIndex p.1 p.2) = EMPTY →
        toIndex p.1 p.2 ∈ s.visited ++ done := by
      intro p hp hpe
      rcases List.mem_append.1 hp with h | h
      · exact List.mem_append_left _ (hinv.seen p h hpe)
      · rw [List.mem_singleton] at h
        subst h
        exact List.mem_append_right _ hseedIn
    have hownB : ∀ x ∈ done, (Owned board BLACK WHITE x ↔
        (f.touchesBlack = true ∧ ¬ f.touchesWhite = true)) := by
      intro x hx
      rw [owned_of_connected ((hmem x).1 hx)]
      unfold Owned
      rw [hb, hw]
    have hownW : ∀ x ∈ done, (Owned board WHITE BLACK x ↔
        (f.touchesWhite = true ∧ ¬ f.touchesBlack = true)) := by
      intro x hx
      rw [owned_of_connected ((hmem x).1 hx)]
      unfold Owned
      rw [hb, hw]
    obtain ⟨bc, hbn, hbm, hbl⟩ := hinv.black
    obtain ⟨wc, hwn, hwm, hwl⟩ := hinv.white
    cases htb : f.touchesBlack <;> cases htw : f.touchesWhite
    · simp only [Bool.false_and, Bool.not_false, Bool.and_false, Bool.false_eq_true, if_false]
      rw [htb, htw] at hownB hownW
      refine ⟨?_, ?_, ?_, ?_, ⟨bc, hbn, ?_, hbl⟩, ⟨wc, hwn, ?_, hwl⟩⟩
      · rw [hvis]; exact hnodup
      · rw [hvis]; exact hchk
      · rw [hvis]; exact hclosed
      · rw [hvis]; exact hseen
      · rw [hvis]
        exact owned_keep hbm (fun x hx h => by simpa using (hownB x hx).1 h)
      · rw [hvis]
        exact owned_keep hwm (fun x hx h => by simpa using (hownW x hx).1 h)
    · simp only [Bool.false_and, Bool.not_false, Bool.not_true, Bool.and_true,
        Bool.false_eq_true, if_false, if_true]
      rw [htb, htw] at hownB hownW
      have hext := owned_extend hwn hwm hdn hdisj
        (fun x hx => (hownW x hx).2 ⟨rfl, by simp⟩)
      refine ⟨?_, ?_, ?_, ?_, ⟨bc, hbn, ?_, hbl⟩, ⟨wc ++ done, hext.1, ?_, ?_⟩⟩
      · rw [hvis]; exact hnodup
      · rw [hvis]; exact hchk
      · rw [hvis]; exact hclosed
      · rw [hvis]; exact hseen
      · rw [hvis]
        exact owned_keep hbm (fun x hx h => by simpa using (hownB x hx).1 h)
      · rw [hvis]
        exact hext.2
      · simp only
        rw [hterr, hwl, List.length_append]
    · simp only [Bool.true_and, Bool.not_false, Bool.not_true, Bool.and_false,
        Bool.false_eq_true, if_false, if_true]
      rw [htb, htw] at hownB hownW
      have hext := owned_extend hbn hbm hdn hdisj
        (fun x hx => (hownB x hx).2 ⟨rfl, by simp⟩)
      refine ⟨?_, ?_, ?_, ?_, ⟨bc ++ done, hext.1, ?_, ?_⟩, ⟨wc, hwn, ?_, hwl⟩⟩
      · rw [hvis]; exact hnodup
      · rw [hvis]; exact hchk
      · rw [hvis]; exact hclosed
      · rw [hvis]; exact hseen
      · rw [hvis]
        exact hext.2
      · simp only
        rw [hterr, hbl, List.length_append]
      · rw [hvis]
        exact owned_keep hwm (fun x hx h => by simpa using (hownW x hx).1 h)
    · simp only [Bool.true_and, Bool.not_true, Bool.and_false, Bool.false_and,
        Bool.false_eq_true, if_false]
      rw [htb, htw] at hownB hownW
      refine ⟨?_, ?_, ?_, ?_, ⟨bc, hbn, ?_, hbl⟩, ⟨wc, hwn, ?_, hwl⟩⟩
      · rw [hvis]; exact hnodup
      · rw [hvis]; exact hchk
      · rw [hvis]; exact hclosed
      · rw [hvis]; exact hseen
      · rw [hvis]
        exact owned_keep hbm (fun x hx h => by simpa using (hownB x hx).1 h)
      · rw [hvis]
        exact owned_keep hwm (fun x hx h => by simpa using (hownW x hx).1 h)
  · rw [if_neg htest]
    refine ⟨hinv.nodup, hinv.chk, hinv.closed, ?_, hinv.black, hinv.white⟩
    intro p hp hpe
    rcases List.mem_append.1 hp with h | h
    · exact hinv.seen p h hpe
    · rw [List.mem_singleton] at h
      subst h
      by_contra hn
      exact htest ⟨hpe, hn⟩

theorem territoryInv_foldl {board : List Int} :
    ∀ (l pre : List (Int × Int)) (s : TerritoryState),
      (∀ rc ∈ l, isValid rc.1 rc.2 = true) → TerritoryInv board pre s →
      TerritoryInv board (pre ++ l) (l.foldl (territoryCell board) s) := by
  intro l
  induction l with
  | nil =>
    intro pre s _ h
    simpa using h
  | cons rc rest ih =>
    intro pre s hv h
    rw [List.foldl_cons]
    have := ih (pre ++ [rc]) _ (fun p hp => hv p (List.mem_cons_of_mem _ hp))
      (territoryInv_step (hv rc (List.mem_cons_self _ _)) h)
    simpa using this

theorem territoryInv_final (board : List Int) :
    TerritoryInv board scanOrder
      (scanOrder.foldl (territoryCell board)
        { visited := [], blackTerritory := 0, whiteTerritory := 0 }) := by
  have := territoryInv_foldl scanOrder [] _ (fun rc h => (mem_scanOrder rc).1 h)
    (territoryInv_init board)
  simpa using this

/-! ## Claims C9 and C10: the evaluator -/

/-- C9. On a board of 81 cells `countTerritory` returns the number of empty
cells whose maximal region of connected empty cells is adjacent to a black
stone and to no white stone, and the number of those whose region is adjacent
to a white stone and to no black stone; each number is the length of a
duplicate-free list of exactly those cells, so a region adjacent to both
colours, or to none, is counted for neither. -/
theorem countTerritory_correct (board : List Int) (hlen : board.length = 81) :
    ∃ blackCells whiteCells : List Int,
      blackCells.Nodup ∧ whiteCells.Nodup ∧
      (∀ i, i ∈ blackCells ↔
        (0 ≤ i ∧ i < 81 ∧ boardAt board i = EMPTY ∧
          RegionTouches board BLACK i ∧ ¬ RegionTouches board WHITE i)) ∧
      (∀ i, i ∈ whiteCells ↔
        (0 ≤ i ∧ i < 81 ∧ boardAt board i = EMPTY ∧
          RegionTouches board WHITE i ∧ ¬ RegionTouches board BLACK i)) ∧
      (countTerritory board).1 = blackCells.length ∧
      (countTerritory board).2 = whiteCells.length := by
  have _ := hlen
  have hinv := territoryInv_final board
  unfold countTerritory
  simp only
  generalize scanOrder.foldl (territoryCell board)
    { visited := [], blackTerritory := 0, whiteTerritory := 0 } = s at hinv
  obtain ⟨bc, hbn, hbm, hbl⟩ := hinv.black
  obtain ⟨wc, hwn, hwm, hwl⟩ := hinv.white
  have hall : ∀ i, 0 ≤ i → i < 81 → boardAt board i = EMPTY → i ∈ s.visited := by
    intro i h0 h1 he
    obtain ⟨hidx, hv⟩ := toIndex_toCoords h0 h1
    have := hinv.seen (toCoords i) ((mem_scanOrder _).2 hv) (by rw [hidx]; exact he)
    rwa [hidx] at this
  refine ⟨bc, wc, hbn, hwn, ?_, ?_, hbl, hwl⟩
  · intro i
    rw [hbm]
    unfold Owned
    constructor
    · rintro ⟨hi, h⟩
      have := hinv.chk i hi
      exact ⟨this.range.1, this.range.2, this.colour_right, h⟩
    · rintro ⟨h0, h1, he, h⟩
      exact ⟨hall i h0 h1 he, h⟩
  · intro i
    rw [hwm]
    unfold Owned
    constructor
    · rintro ⟨hi, h⟩
      have := hinv.chk i hi
      exact ⟨this.range.1, this.range.2, this.colour_right, h⟩
    · rintro ⟨h0, h1, he, h⟩
      exact ⟨hall i h0 h1 he, h⟩

set_option maxRecDepth 100000 in
theorem countTerritory_correct_witness :
    sampleCorner.length = 81 ∧
      ∃ blackCells whiteCells : List Int,
        (countTerritory sampleCorner).1 = blackCells.length ∧
        (countTerritory sampleCorner).2 = whiteCells.length :=
  ⟨by decide,
    (countTerritory_correct sampleCorner (by decide)).imp
      (fun _ h => h.imp (fun _ h' => ⟨h'.2.2.2.2.1, h'.2.2.2.2.2⟩))⟩

theorem countTerritory_le (board : List Int) :
    (countTerritory board).1 ≤ 81 ∧ (countTerritory board).2 ≤ 81 := by
  have hinv := territoryInv_final board
  unfold countTerritory
  simp only
  generalize scanOrder.foldl (territoryCell board)
    { visited := [], blackTerritory := 0, whiteTerritory := 0 } = s at hinv
  obtain ⟨bc, hbn, hbm, hbl⟩ := hinv.black
  obtain ⟨wc, hwn, hwm, hwl⟩ := hinv.white
  constructor
  · rw [hbl]
    exact length_le_of_nodup_range hbn (fun x hx => (hinv.chk x ((hbm x).1 hx).1).range)
  · rw [hwl]
    exact length_le_of_nodup_range hwn (fun x hx => (hinv.chk x ((hwm x).1 hx).1).range)

/-! ## `float64` rounding -/

theorem roundHalfEven_intCast (z : ℤ) : roundHalfEven (z : ℚ) = z := by
  unfold roundHalfEven
  rw [Int.floor_intCast, sub_self, if_pos (by norm_num)]

theorem roundHalfEven_le {m : ℚ} {N : ℤ} (h : m ≤ N) : roundHalfEven m ≤ N := by
  have hf : ⌊m⌋ ≤ N := by
    have := Int.floor_le m
    exact_mod_cast le_trans this h
  unfold roundHalfEven
  by_cases h1 : m - ⌊m⌋ < 1 / 2
  · rw [if_pos h1]
    exact hf
  · rw [if_neg h1]
    have hlt : ⌊m⌋ < N := by
      have h2 : (⌊m⌋ : ℚ) < m := by
        rw [not_lt] at h1
        linarith
      exact_mod_cast lt_of_lt_of_le h2 h
    split
    · omega
    · split
      · exact hf
      · omega

theorem le_roundHalfEven {m : ℚ} {N : ℤ} (h : (N : ℚ) ≤ m) : N ≤ roundHalfEven m := by
  have hf : N ≤ ⌊m⌋ := Int.le_floor.2 h
  unfold roundHalfEven
  split
  · exact hf
  · split
    · omega
    · split
      · exact hf
      · omega

theorem roundHalfEven_of_near {m : ℚ} (z : ℤ) (h1 : (z : ℚ) - 1 / 2 < m)
    (h2 : m < z + 1 / 2) : roundHalfEven m = z := by
  unfold roundHalfEven
  by_cases hz : (z : ℚ) ≤ m
  · have hf : ⌊m⌋ = z := by
      rw [Int.floor_eq_iff]
      exact ⟨hz, by linarith⟩
    rw [hf, if_pos (by linarith)]
  · rw [not_le] at hz
    have hf : ⌊m⌋ = z - 1 := by
      rw [Int.floor_eq_iff]
      push_cast
      exact ⟨by linarith, by linarith⟩
    rw [hf]
    push_cast
    rw [if_neg (by linarith), if_pos (by linarith)]
    ring

theorem roundHalfEven_tie (z : ℤ) :
    roundHalfEven ((z : ℚ) + 1 / 2) = if z % 2 = 0 then z else z + 1 := by
  unfold roundHalfEven
  have hf : ⌊(z : ℚ) + 1 / 2⌋ = z := by
    rw [Int.floor_eq_iff]
    exact ⟨by linarith, by linarith⟩
  rw [hf, if_neg (by norm_num), if_neg (by norm_num)]

theorem log_eq_of_bounds {x : ℚ} {e : ℤ} (h1 : 2 ^ e ≤ |x|) (h2 : |x| < 2 ^ (e + 1)) :
    Int.log 2 |x| = e := by
  have hpos : 0 < |x| := lt_of_lt_of_le (by positivity) h1
  have a1 : e ≤ Int.log 2 |x| := (Int.zpow_le_iff_le_log (by norm_num) hpos).1 (by exact_mod_cast h1)
  have a2 : Int.log 2 |x| < e + 1 :=
    (Int.lt_zpow_iff_log_lt (by norm_num) hpos).1 (by exact_mod_cast h2)
  omega

/-- The rounding of `x` when its binary exponent is known. -/
theorem roundFloat64_eq_of {x : ℚ} {e : ℤ} (h1 : 2 ^ e ≤ |x|) (h2 : |x| < 2 ^ (e + 1)) :
    roundFloat64 x = (roundHalfEven (x / 2 ^ (e - 52)) : ℚ) * 2 ^ (e - 52) := by
  have hpos : 0 < |x| := lt_of_lt_of_le (by positivity) h1
  unfold roundFloat64
  rw [if_neg (abs_pos.1 hpos), log_eq_of_bounds h1 h2]

theorem log_bounds {x : ℚ} (hx : x ≠ 0) :
    (2 : ℚ) ^ Int.log 2 |x| ≤ |x| ∧ |x| < 2 ^ (Int.log 2 |x| + 1) := by
  have hpos : 0 < |x| := abs_pos.2 hx
  constructor
  · exact_mod_cast Int.zpow_log_le_self (by norm_num) hpos
  · exact_mod_cast Int.lt_zpow_succ_log_self (by norm_num) |x|

/-- Rounding does not cross a power of two. -/
theorem roundFloat64_abs_le {x : ℚ} {k : ℤ} (h : |x| < 2 ^ k) : |roundFloat64 x| ≤ 2 ^ k := by
  by_cases hx : x = 0
  · rw [hx]
    unfold roundFloat64
    rw [if_pos rfl, abs_zero]
    positivity
  · obtain ⟨b1, b2⟩ := log_bounds hx
    have hek : Int.log 2 |x| + 1 ≤ k := by
      have : (2 : ℚ) ^ Int.log 2 |x| < 2 ^ k := lt_of_le_of_lt b1 h
      have := (zpow_lt_zpow_iff_right₀ (by norm_num : (1 : ℚ) < 2)).1 this
      omega
    have hq : (0 : ℚ) < 2 ^ (Int.log 2 |x| - 52) := by positivity
    have hsplit : (2 : ℚ) ^ (Int.log 2 |x| + 1) = 2 ^ (53 : ℤ) * 2 ^ (Int.log 2 |x| - 52) := by
      rw [← zpow_add₀ (by norm_num : (2 : ℚ) ≠ 0)]
      congr 1
      ring
    have hm : |x / 2 ^ (Int.log 2 |x| - 52)| < 2 ^ (53 : ℤ) := by
      rw [abs_div, abs_of_pos hq, div_lt_iff₀ hq, ← hsplit]
      exact b2
    have hm' := abs_lt.1 hm
    have u1 : roundHalfEven (x / 2 ^ (Int.log 2 |x| - 52)) ≤ (2 ^ 53 : ℤ) :=
      roundHalfEven_le (by push_cast; norm_num at hm' ⊢; linarith [hm'.2])
    have u2 : (-(2 ^ 53) : ℤ) ≤ roundHalfEven (x / 2 ^ (Int.log 2 |x| - 52)) :=
      le_roundHalfEven (by push_cast; norm_num at hm' ⊢; linarith [hm'.1])
    have u : |(roundHalfEven (x / 2 ^ (Int.log 2 |x| - 52)) : ℚ)| ≤ 2 ^ (53 : ℤ) := by
      rw [abs_le]
      constructor
      · have : ((-(2 ^ 53) : ℤ) : ℚ) ≤ roundHalfEven (x / 2 ^ (Int.log 2 |x| - 52)) := by
          exact_mod_cast u2
        norm_num at this ⊢
        linarith
      · have : ((roundHalfEven (x / 2 ^ (Int.log 2 |x| - 52)) : ℤ) : ℚ) ≤ ((2 ^ 53 : ℤ) : ℚ) := by
          exact_mod_cast u1
        norm_num at this ⊢
        linarith
    unfold roundFloat64
    rw [if_neg hx, abs_mul, abs_of_pos hq]
    calc |(roundHalfEven (x / 2 ^ (Int.log 2 |x| - 52)) : ℚ)| * 2 ^ (Int.log 2 |x| - 52)
        ≤ 2 ^ (53 : ℤ) * 2 ^ (Int.log 2 |x| - 52) := mul_le_mul_of_nonneg_right u (le_of_lt hq)
      _ = 2 ^ (Int.log 2 |x| + 1) := hsplit.symm
      _ ≤ 2 ^ k := zpow_le_zpow_right₀ (by norm_num) hek

/-- A number whose significand is an integer is not changed by rounding. -/
theorem roundFloat64_exact {x : ℚ} (z : ℤ) (h : x / 2 ^ (Int.log 2 |x| - 52) = z) :
    roundFloat64 x = x := by
  by_cases hx : x = 0
  · rw [hx]
    unfold roundFloat64
    rw [if_pos rfl]
  · have hq : (0 : ℚ) < 2 ^ (Int.log 2 |x| - 52) := by positivity
    unfold roundFloat64
    rw [if_neg hx, h, roundHalfEven_intCast, ← h]
    field_simp

/-- A half-integer below `2 ^ 52` in absolute value is a `float64`. -/
theorem roundFloat64_halfInt (n : ℤ) (h : |n| < 2 ^ 53) :
    roundFloat64 ((n : ℚ) / 2) = (n : ℚ) / 2 := by
  by_cases hn : n = 0
  · rw [hn]
    unfold roundFloat64
    simp
  · have hx : (n : ℚ) / 2 ≠ 0 := by
      have : (n : ℚ) ≠ 0 := by exact_mod_cast hn
      positivity
    obtain ⟨b1, _⟩ := log_bounds hx
    have habs : |(n : ℚ) / 2| < 2 ^ (52 : ℤ) := by
      rw [abs_div, abs_of_pos (by norm_num : (0 : ℚ) < 2)]
      have : ((|n| : ℤ) : ℚ) < ((2 ^ 53 : ℤ) : ℚ) := by exact_mod_cast h
      push_cast at this
      norm_num at this ⊢
      linarith
    have he : Int.log 2 |(n : ℚ) / 2| < 52 := by
      have := lt_of_le_of_lt b1 habs
      exact (zpow_lt_zpow_iff_right₀ (by norm_num : (1 : ℚ) < 2)).1 this
    obtain ⟨j, hj⟩ : ∃ j : ℕ, (51 : ℤ) - Int.log 2 |(n : ℚ) / 2| = j :=
      ⟨(51 - Int.log 2 |(n : ℚ) / 2|).toNat, by omega⟩
    apply roundFloat64_exact (n * 2 ^ j)
    have he' : Int.log 2 |(n : ℚ) / 2| - 52 = -((j : ℤ) + 1) := by omega
    rw [he', zpow_neg, zpow_add₀ (by norm_num : (2 : ℚ) ≠ 0), zpow_natCast]
    push_cast
    field_simp
    ring

theorem roundFloat64_int (n : ℤ) (h : |n| < 2 ^ 52) : roundFloat64 (n : ℚ) = n := by
  have h2 : |2 * n| < 2 ^ 53 := by
    rw [abs_mul]
    norm_num
    linarith
  have := roundFloat64_halfInt (2 * n) h2
  push_cast at this
  rw [mul_div_cancel_left₀ _ (by norm_num : (2 : ℚ) ≠ 0)] at this
  exact this

theorem roundFloat64_int_add_komi (n : ℤ) (h : |n| < 2 ^ 52 - 7) :
    roundFloat64 ((n : ℚ) + KOMI) = (n : ℚ) + KOMI := by
  have h2 : |2 * n + 13| < 2 ^ 53 := by
    rw [abs_lt] at h ⊢
    constructor <;> omega
  have := roundFloat64_halfInt (2 * n + 13) h2
  push_cast at this
  have e : ((2 : ℚ) * n + 13) / 2 = (n : ℚ) + KOMI := by
    unfold KOMI
    ring
  rw [e] at this
  exact this

theorem wrap64_of_range {x : Int} (h1 : -(2 ^ 63) ≤ x) (h2 : x < 2 ^ 63) : wrap64 x = x := by
  unfold wrap64
  omega

/-- In the range `CapturesSmall` no operation of `evaluate` rounds: it returns
the exact score difference. -/
theorem evaluate_exact {captures : List (String × Int)} (h : CapturesSmall captures)
    (board : List Int) : evaluate board captures = exactScore board captures := by
  obtain ⟨hb, hw⟩ := countTerritory_le board
  obtain ⟨h1, h2⟩ := h
  rw [abs_le] at h1 h2
  unfold evaluate exactScore float64Add float64Sub float64OfInt
  simp only
  generalize capturesAt captures (itoaColour BLACK) = cB at h1
  generalize capturesAt captures (itoaColour WHITE) = cW at h2
  generalize (countTerritory board).1 = bt at hb
  generalize (countTerritory board).2 = wt at hw
  have a1 : roundFloat64 (((bt : ℤ) : ℚ)) = ((bt : ℤ) : ℚ) :=
    roundFloat64_int _ (by rw [abs_lt]; constructor <;> omega)
  have a2 : roundFloat64 (((wt : ℤ) : ℚ)) = ((wt : ℤ) : ℚ) :=
    roundFloat64_int _ (by rw [abs_lt]; constructor <;> omega)
  have a3 : roundFloat64 (cW : ℚ) = cW :=
    roundFloat64_int _ (by rw [abs_lt]; constructor <;> omega)
  have a4 : roundFloat64 (cB : ℚ) = cB :=
    roundFloat64_int _ (by rw [abs_lt]; constructor <;> omega)
  have a5 : roundFloat64 ((((bt : ℤ) + cW : ℤ) : ℚ)) = (((bt : ℤ) + cW : ℤ) : ℚ) :=
    roundFloat64_int _ (by rw [abs_lt]; constructor <;> omega)
  have a6 : roundFloat64 ((((wt : ℤ) + cB : ℤ) : ℚ)) = (((wt : ℤ) + cB : ℤ) : ℚ) :=
    roundFloat64_int _ (by rw [abs_lt]; constructor <;> omega)
  have a7 : roundFloat64 ((((wt : ℤ) + cB : ℤ) : ℚ) + KOMI) = (((wt : ℤ) + cB : ℤ) : ℚ) + KOMI :=
    roundFloat64_int_add_komi _ (by rw [abs_lt]; constructor <;> omega)
  have a8 : roundFloat64 ((((wt : ℤ) + cB - ((bt : ℤ) + cW) : ℤ) : ℚ) + KOMI) =
      (((wt : ℤ) + cB - ((bt : ℤ) + cW) : ℤ) : ℚ) + KOMI :=
    roundFloat64_int_add_komi _ (by rw [abs_lt]; constructor <;> omega)
  simp only [zero_add, a1, a2, a3, a4]
  rw [show (((bt : ℤ) : ℚ)) + (cW : ℚ) = (((bt : ℤ) + cW : ℤ) : ℚ) by push_cast; ring, a5]
  rw [show (((wt : ℤ) : ℚ)) + (cB : ℚ) = (((wt : ℤ) + cB : ℤ) : ℚ) by push_cast; ring, a6, a7]
  rw [show (((wt : ℤ) + cB : ℤ) : ℚ) + KOMI - (((bt : ℤ) + cW : ℤ) : ℚ) =
    (((wt : ℤ) + cB - ((bt : ℤ) + cW) : ℤ) : ℚ) + KOMI by push_cast; ring, a8]
  push_cast
  ring

/-- In the range `CapturesSmall` the two scores `scoreHandler` reports are the
exact sums. -/
theorem scoreHandler_exact {captures : List (String × Int)} (h : CapturesSmall captures)
    (board : List Int) :
    (scoreHandler board captures).BlackScore =
        ((countTerritory board).1 : ℚ) + (capturesAt captures (itoaColour WHITE) : ℚ) ∧
      (scoreHandler board captures).WhiteScore =
        ((countTerritory board).2 : ℚ) + (capturesAt captures (itoaColour BLACK) : ℚ) + KOMI := by
  obtain ⟨hb, hw⟩ := countTerritory_le board
  obtain ⟨h1, h2⟩ := h
  rw [abs_le] at h1 h2
  unfold scoreHandler float64Add float64OfInt
  simp only
  generalize capturesAt captures (itoaColour BLACK) = cB at h1
  generalize capturesAt captures (itoaColour WHITE) = cW at h2
  generalize (countTerritory board).1 = bt at hb
  generalize (countTerritory board).2 = wt at hw
  rw [wrap64_of_range (by omega) (by omega), wrap64_of_range (by omega) (by omega)]
  rw [roundFloat64_int _ (by rw [abs_lt]; constructor <;> omega),
    roundFloat64_int _ (by rw [abs_lt]; constructor <;> omega),
    roundFloat64_int_add_komi _ (by rw [abs_lt]; constructor <;> omega)]
  push_cast
  exact ⟨rfl, rfl⟩

/-! ## Claim C10: `evaluate` and the scores of `scoreHandler` -/

/-- The rounding of a number between `2 ^ 53` and `2 ^ 54`: to an even
integer. -/
theorem roundFloat64_53 {x : ℚ} (z : ℤ) (h1 : 2 ^ 53 ≤ x) (h2 : x < 2 ^ 54)
    (hz : roundHalfEven (x / 2) = z) : roundFloat64 x = (z : ℚ) * 2 := by
  have hpos : 0 < x := lt_of_lt_of_le (by norm_num) h1
  have e1 : (2 : ℚ) ^ (53 : ℤ) ≤ |x| := by
    rw [abs_of_pos hpos]
    norm_num
    linarith
  have e2 : |x| < (2 : ℚ) ^ ((53 : ℤ) + 1) := by
    rw [abs_of_pos hpos]
    norm_num
    linarith
  rw [roundFloat64_eq_of e1 e2]
  norm_num
  rw [hz]

set_option maxRecDepth 100000 in
theorem countTerritory_koBefore : countTerritory koBefore = (2, 2) := by
  decide!

/-- C10, counterexample. On the board `koBefore`, of 81 cells, with the
captures `{"1": 2^53 + 1}` the `float64` operations round: `evaluate` returns
`2^53 + 6 = 9007199254740998`, whereas `WhiteScore - BlackScore` of the response
of `scoreHandler` is `9007199254741002 - 2 = 9007199254741000`. -/
theorem evaluate_ne_score :
    koBefore.length = 81 ∧
    evaluate koBefore [("1", 2 ^ 53 + 1)] = 9007199254740998 ∧
    (scoreHandler koBefore [("1", 2 ^ 53 + 1)]).WhiteScore = 9007199254741002 ∧
    (scoreHandler koBefore [("1", 2 ^ 53 + 1)]).BlackScore = 2 ∧
    evaluate koBefore [("1", 2 ^ 53 + 1)] ≠
      (scoreHandler koBefore [("1", 2 ^ 53 + 1)]).WhiteScore -
        (scoreHandler koBefore [("1", 2 ^ 53 + 1)]).BlackScore := by
  have hB : capturesAt [("1", 2 ^ 53 + 1)] (itoaColour BLACK) = 9007199254740993 := by decide
  have hW : capturesAt [("1", 2 ^ 53 + 1)] (itoaColour WHITE) = 0 := by decide
  have r0 : roundFloat64 0 = 0 := by
    unfold roundFloat64
    rw [if_pos rfl]
  have r2 : roundFloat64 2 = 2 := by
    have := roundFloat64_int 2 (by norm_num)
    exact_mod_cast this
  have c1 : roundFloat64 9007199254740993 = 9007199254740992 := by
    rw [roundFloat64_53 (2 ^ 52) (by norm_num) (by norm_num)]
    · norm_num
    · have e : (9007199254740993 : ℚ) / 2 = ((2 ^ 52 : ℤ) : ℚ) + 1 / 2 := by norm_num
      rw [e, roundHalfEven_tie, if_pos (by decide)]
  have c2 : roundFloat64 9007199254740994 = 9007199254740994 := by
    rw [roundFloat64_53 (2 ^ 52 + 1) (by norm_num) (by norm_num)]
    · norm_num
    · have e : (9007199254740994 : ℚ) / 2 = ((2 ^ 52 + 1 : ℤ) : ℚ) := by norm_num
      rw [e, roundHalfEven_intCast]
  have c3 : roundFloat64 (18014398509482001 / 2) = 9007199254741000 := by
    rw [roundFloat64_53 (2 ^ 52 + 4) (by norm_num) (by norm_num)]
    · norm_num
    · exact roundHalfEven_of_near _ (by norm_num) (by norm_num)
  have c4 : roundFloat64 9007199254740998 = 9007199254740998 := by
    rw [roundFloat64_53 (2 ^ 52 + 3) (by norm_num) (by norm_num)]
    · norm_num
    · have e : (9007199254740998 : ℚ) / 2 = ((2 ^ 52 + 3 : ℤ) : ℚ) := by norm_num
      rw [e, roundHalfEven_intCast]
  have c5 : roundFloat64 9007199254740995 = 9007199254740996 := by
    rw [roundFloat64_53 (2 ^ 52 + 2) (by norm_num) (by norm_num)]
    · norm_num
    · have e : (9007199254740995 : ℚ) / 2 = ((2 ^ 52 + 1 : ℤ) : ℚ) + 1 / 2 := by norm_num
      rw [e, roundHalfEven_tie, if_neg (by decide)]
      norm_num
  have c6 : roundFloat64 (18014398509482005 / 2) = 9007199254741002 := by
    rw [roundFloat64_53 (2 ^ 52 + 5) (by norm_num) (by norm_num)]
    · norm_num
    · exact roundHalfEven_of_near _ (by norm_num) (by norm_num)
  have hw64 : wrap64 9007199254740995 = 9007199254740995 := by decide
  have hw64' : wrap64 2 = 2 := by decide
  have hev : evaluate koBefore [("1", 2 ^ 53 + 1)] = 9007199254740998 := by
    unfold evaluate float64Add float64Sub float64OfInt KOMI
    simp only [countTerritory_koBefore, hB, hW, zero_add]
    norm_num [r0, r2, c1, c2, c3, c4]
  have hws : (scoreHandler koBefore [("1", 2 ^ 53 + 1)]).WhiteScore = 9007199254741002 := by
    unfold scoreHandler float64Add float64OfInt KOMI
    simp only [countTerritory_koBefore, hB, hW]
    norm_num [hw64, c5, c6]
  have hbs : (scoreHandler koBefore [("1", 2 ^ 53 + 1)]).BlackScore = 2 := by
    unfold scoreHandler float64Add float64OfInt
    simp only [countTerritory_koBefore, hB, hW]
    norm_num [hw64', r2]
  refine ⟨by decide, hev, hws, hbs, ?_⟩
  rw [hev, hws, hbs]
  norm_num

/-- C10, amended. For every board and every captures map whose counts for
"1" and "2" are at most `2 ^ 50` in absolute value (`CapturesSmall`), no
operation rounds or wraps around, and `evaluate` returns
`WhiteScore - BlackScore` of the response `scoreHandler` builds from the same
board and captures, where `BlackScore` is the black territory plus
`captures["2"]` and `WhiteScore` is the white territory plus `captures["1"]`
plus 6.5, a missing key counting as 0. -/
theorem evaluate_eq_score (board : List Int) (captures : List (String × Int))
    (hlen : board.length = 81) (hsmall : CapturesSmall captures) :
    evaluate board captures =
        (scoreHandler board captures).WhiteScore - (scoreHandler board captures).BlackScore ∧
      (scoreHandler board captures).BlackScore =
        ((countTerritory board).1 : ℚ) + ((captures.lookup "2").getD 0 : ℚ) ∧
      (scoreHandler board captures).WhiteScore =
        ((countTerritory board).2 : ℚ) + ((captures.lookup "1").getD 0 : ℚ) + 13 / 2 := by
  have _ := hlen
  have hW : itoaColour WHITE = "2" := by decide
  have hB : itoaColour BLACK = "1" := by decide
  obtain ⟨s1, s2⟩ := scoreHandler_exact hsmall board
  refine ⟨?_, ?_, ?_⟩
  · rw [evaluate_exact hsmall, s1, s2]
    rfl
  · rw [s1, hW]
    rfl
  · rw [s2, hB]
    rfl

set_option maxRecDepth 100000 in
theorem evaluate_eq_score_witness :
    koBefore.length = 81 ∧ CapturesSmall [("1", 3), ("2", 1)] ∧
      evaluate koBefore [("1", 3), ("2", 1)] =
        (scoreHandler koBefore [("1", 3), ("2", 1)]).WhiteScore -
          (scoreHandler koBefore [("1", 3), ("2", 1)]).BlackScore :=
  ⟨by decide, by decide,
    (evaluate_eq_score koBefore [("1", 3), ("2", 1)] (by decide) (by decide)).1⟩

/-! ## Liberties of a group, and claims C13 and C19 -/

/-- The liberty count of `getGroup` is not zero exactly when the group has a
liberty. -/
theorem getGroup_liberties_ne_zero_iff {board : List Int} {i : Int} (h0 : 0 ≤ i)
    (h1 : i < 81) (hs : boardAt board i ≠ EMPTY) :
    (getGroup board (toCoords i).1 (toCoords i).2).2 ≠ 0 ↔ HasLiberty board i := by
  rw [getGroup_liberties_idx h0 h1 hs, Ne, List.length_eq_zero,
    List.eq_nil_iff_forall_not_mem]
  unfold HasLiberty libertyCells
  constructor
  · intro h
    by_contra hno
    apply h
    intro y hy
    rw [List.mem_filter, decide_eq_true_eq] at hy
    obtain ⟨_, he, x, hx, hxy⟩ := hy
    exact hno ⟨x, (mem_getGroup_idx h0 h1 hs x).1 hx, y, hxy, he⟩
  · rintro ⟨x, hx, y, hxy, he⟩ h
    apply h y
    rw [List.mem_filter, decide_eq_true_eq, mem_allIdx]
    exact ⟨hxy.right_range, he, x, (mem_getGroup_idx h0 h1 hs x).2 hx, hxy⟩

theorem getGroup_liberties_ne_zero_iff_coords {board : List Int} {r c : Int}
    (hv : isValid r c = true) (hs : boardAt board (toIndex r c) ≠ EMPTY) :
    (getGroup board r c).2 ≠ 0 ↔ HasLiberty board (toIndex r c) := by
  have hr := toIndex_range hv
  have := getGroup_liberties_ne_zero_iff hr.1 hr.2 hs
  rwa [toCoords_toIndex hv] at this

/-- A path stays a path on a board that holds the same colour wherever the
first board does. -/
theorem Connected.mono {b b' : List Int} {colour i j : Int}
    (h : ∀ z, 0 ≤ z → z < 81 → boardAt b z = colour → boardAt b' z = colour)
    (hc : Connected b colour i j) : Connected b' colour i j := by
  induction hc with
  | refl h0 h1 hcol => exact Connected.refl h0 h1 (h _ h0 h1 hcol)
  | step _ hadj hcol ih =>
    exact Connected.step ih hadj (h _ hadj.right_range.1 hadj.right_range.2 hcol)

/-- C13. On a board of 81 cells, `getGroup` at an in-bounds empty cell
returns the empty membership set and the liberty count 0. -/
theorem getGroup_empty_cell (board : List Int) (r c : Int) (hlen : board.length = 81)
    (hv : isValid r c = true) (he : boardAt board (toIndex r c) = EMPTY) :
    getGroup board r c = ([], 0) := by
  have _ := hlen
  have _ := hv
  unfold getGroup
  rw [if_pos he]

theorem getGroup_empty_cell_witness :
    sampleCorner.length = 81 ∧ isValid 0 0 = true ∧
      boardAt sampleCorner (toIndex 0 0) = EMPTY ∧ getGroup sampleCorner 0 0 = ([], 0) :=
  ⟨by decide, by decide, by decide,
    getGroup_empty_cell sampleCorner 0 0 (by decide) (by decide) (by decide)⟩

theorem getOpponent_ne_self (p : Int) : getOpponent p ≠ p := by
  unfold getOpponent
  split
  · next h =>
    rw [h]
    decide
  · next h => exact fun h' => h h'.symm

/-- The board after a stone of `p` is placed on the empty cell `idx` and the
captured stones are removed: the placed stone stays, the stones of the
opponent without liberties go, everything else is as on the board with the
stone placed. -/
theorem placed_board_spec {board : List Int} {idx p : Int} (hlen : board.length = 81)
    (h0 : 0 ≤ idx) (h1 : idx < 81) :
    (removeCapturedStones (boardSet board idx p) p).1.length = 81 ∧
      boardAt (removeCapturedStones (boardSet board idx p) p).1 idx = p ∧
      (∀ i, 0 ≤ i → i < 81 → i ≠ idx →
        boardAt (boardSet board idx p) i = boardAt board i) ∧
      (∀ i, 0 ≤ i → i < 81 →
        boardAt (removeCapturedStones (boardSet board idx p) p).1 i =
          if Doomed (boardSet board idx p) (getOpponent p) i then EMPTY
          else boardAt (boardSet board idx p) i) := by
  have hlen1 : (boardSet board idx p).length = 81 := by rw [length_boardSet, hlen]
  obtain ⟨hl, hcells, _⟩ := removeCapturedStones_spec p hlen1
  have hset : ∀ i, 0 ≤ i → boardAt (boardSet board idx p) i =
      if i = idx then p else boardAt board i := by
    intro i hi
    exact boardAt_boardSet board p h0 (by rw [hlen]; exact_mod_cast h1) hi
  refine ⟨hl, ?_, ?_, hcells⟩
  · rw [hcells idx h0 h1, if_neg, hset idx h0, if_pos rfl]
    intro hd
    have := hd.1
    rw [hset idx h0, if_pos rfl] at this
    exact getOpponent_ne_self p this.symm
  · intro i hi0 _ hne
    rw [hset i hi0, if_neg hne]

/-- C19. On a board of 81 cells on which every stone's group has a liberty,
if placing a stone of `p` (black or white) on the in-bounds empty cell `(r, c)`
makes `removeCapturedStones` remove at least one stone, the group of the placed
stone has a liberty afterwards; so `isMoveLegal` returns false for that move
exactly when the resulting board equals `lastBoardState`. -/
theorem capture_not_suicide (board : List Int) (r c p : Int) (lastBoardState : List Int)
    (hlen : board.length = 81) (hp : p = BLACK ∨ p = WHITE) (hv : isValid r c = true)
    (he : boardAt board (toIndex r c) = EMPTY)
    (hlib : ∀ rc ∈ scanOrder, boardAt board (toIndex rc.1 rc.2) ≠ EMPTY →
      (getGroup board rc.1 rc.2).2 ≠ 0)
    (hcap : 1 ≤ (removeCapturedStones (boardSet board (toIndex r c) p) p).2) :
    (getGroup (removeCapturedStones (boardSet board (toIndex r c) p) p).1 r c).2 ≠ 0 ∧
      (isMoveLegal board r c p lastBoardState = false ↔
        (removeCapturedStones (boardSet board (toIndex r c) p) p).1 = lastBoardState) := by
  have hpne : p ≠ EMPTY := by
    rcases hp with rfl | rfl <;> decide
  have hr := toIndex_range hv
  have hlen1 : (boardSet board (toIndex r c) p).length = 81 := by rw [length_boardSet, hlen]
  obtain ⟨_, hplaced, hsame, hcells⟩ := placed_board_spec (p := p) hlen hr.1 hr.2
  obtain ⟨_, _, dead, _, hm, hcount⟩ := removeCapturedStones_spec p hlen1
  have hoppne := getOpponent_ne_empty p
  -- a captured stone
  have hex : ∃ i, i ∈ dead := by
    cases hd : dead with
    | nil =>
      rw [hcount, hd] at hcap
      simp at hcap
    | cons a _ => exact ⟨a, by simp⟩
  obtain ⟨i, hi⟩ := hex
  obtain ⟨hi0, hi1, hdoom⟩ := (hm i).1 hi
  have hine : i ≠ toIndex r c := by
    intro h
    have := hdoom.1
    rw [h] at this
    have hset := boardAt_boardSet board p hr.1 (by rw [hlen]; exact_mod_cast hr.2) hr.1
    rw [if_pos rfl] at hset
    rw [hset] at this
    exact getOpponent_ne_self p this.symm
  have hBi : boardAt board i = getOpponent p := by
    rw [← hsame i hi0 hi1 hine]
    exact hdoom.1
  -- its group had a liberty before the move
  have hlibi : HasLiberty board i := by
    obtain ⟨hidx, hvi⟩ := toIndex_toCoords hi0 hi1
    have := hlib (toCoords i) ((mem_scanOrder _).2 hvi) (by rw [hidx, hBi]; exact hoppne)
    rw [getGroup_liberties_ne_zero_iff_coords hvi (by rw [hidx, hBi]; exact hoppne), hidx]
      at this
    exact this
  obtain ⟨x, hx, y, hxy, hy⟩ := hlibi
  rw [hBi] at hx
  have hx1 : Connected (boardSet board (toIndex r c) p) (getOpponent p) i x := by
    apply Connected.mono _ hx
    intro z hz0 hz1 hzc
    have hzne : z ≠ toIndex r c := by
      intro h
      rw [h, he] at hzc
      exact hoppne hzc.symm
    rw [hsame z hz0 hz1 hzne]
    exact hzc
  -- the only liberty was the cell played
  have hnolib : ¬ HasLiberty (boardSet board (toIndex r c) p) i := by
    intro h
    have := (getGroup_liberties_ne_zero_iff hi0 hi1 (by rw [hdoom.1]; exact hoppne)).2 h
    exact this hdoom.2
  have hyidx : y = toIndex r c := by
    by_contra hne
    apply hnolib
    refine ⟨x, by rw [hdoom.1]; exact hx1, y, hxy, ?_⟩
    rw [hsame y hxy.right_range.1 hxy.right_range.2 hne]
    exact hy
  subst hyidx
  -- the neighbour `x` of the placed stone is emptied
  have hxdoom : Doomed (boardSet board (toIndex r c) p) (getOpponent p) x := by
    refine ⟨hx1.colour_right, ?_⟩
    rw [getGroup_liberties_of_connected hoppne hx1]
    exact hdoom.2
  have hxempty : boardAt (removeCapturedStones (boardSet board (toIndex r c) p) p).1 x
      = EMPTY := by
    rw [hcells x hx1.range.1 hx1.range.2, if_pos hxdoom]
  have hlibnew : (getGroup (removeCapturedStones (boardSet board (toIndex r c) p) p).1
      r c).2 ≠ 0 := by
    rw [getGroup_liberties_ne_zero_iff_coords hv (by rw [hplaced]; exact hpne)]
    refine ⟨toIndex r c, Connected.refl hr.1 hr.2 rfl, x, hxy.flip, hxempty⟩
  refine ⟨hlibnew, ?_⟩
  rw [isMoveLegal_eq board r c p lastBoardState hv he]
  simp [hlibnew]

set_option maxRecDepth 100000 in
theorem capture_not_suicide_witness :
    sampleAtari.length = 81 ∧ isValid 0 3 = true ∧
      boardAt sampleAtari (toIndex 0 3) = EMPTY ∧
      1 ≤ (removeCapturedStones (boardSet sampleAtari (toIndex 0 3) BLACK) BLACK).2 ∧
      (getGroup (removeCapturedStones (boardSet sampleAtari (toIndex 0 3) BLACK) BLACK).1
        0 3).2 ≠ 0 :=
  ⟨by decide, by decide, by decide, by decide,
    (capture_not_suicide sampleAtari 0 3 BLACK [] (by decide) (Or.inl rfl) (by decide)
      (by decide) (by decide) (by decide)).1⟩

/-! ## Claim C18: the liberty invariant -/

/-- What a legal move that is not the pass has passed in `isMoveLegal`. -/
theorem isMoveLegal_true {board : List Int} {r c p : Int} {lastBoardState : List Int}
    (hnp : ¬ (r = -1 ∧ c = -1)) (h : isMoveLegal board r c p lastBoardState = true) :
    isValid r c = true ∧ boardAt board (toIndex r c) = EMPTY ∧
      (getGroup (removeCapturedStones (boardSet board (toIndex r c) p) p).1 r c).2 ≠ 0 ∧
      (removeCapturedStones (boardSet board (toIndex r c) p) p).1 ≠ lastBoardState := by
  have hv : isValid r c = true := by
    by_contra hv
    unfold isMoveLegal at h
    rw [if_neg hnp] at h
    simp [hv] at h
  have he : boardAt board (toIndex r c) = EMPTY := by
    by_contra he
    unfold isMoveLegal at h
    rw [if_neg hnp] at h
    simp [hv, he] at h
  rw [isMoveLegal_eq board r c p lastBoardState hv he] at h
  simp only [Bool.and_eq_true, decide_eq_true_eq] at h
  exact ⟨hv, he, h.1, h.2⟩

theorem boardAt_mem_values {board : List Int} (hlen : board.length = 81)
    (hcells : ∀ x ∈ board, x = EMPTY ∨ x = BLACK ∨ x = WHITE) {i : Int} (h0 : 0 ≤ i)
    (h1 : i < 81) : boardAt board i = EMPTY ∨ boardAt board i = BLACK ∨ boardAt board i = WHITE := by
  apply hcells
  unfold boardAt
  have hlt : i.toNat < board.length := by omega
  rw [List.getD_eq_getElem _ _ hlt]
  exact List.getElem_mem _

/-- C18. On a board of 81 cells over empty, black and white on which every
stone's group has a liberty, after a legal move of `p` (black or white) that is
not the pass, every stone's group on the board with the stone placed and the
captured stones removed has a liberty. -/
theorem liberty_invariant (board : List Int) (r c p : Int) (lastBoardState : List Int)
    (hlen : board.length = 81)
    (hcells : ∀ x ∈ board, x = EMPTY ∨ x = BLACK ∨ x = WHITE)
    (hp : p = BLACK ∨ p = WHITE)
    (hlib : ∀ rc ∈ scanOrder, boardAt board (toIndex rc.1 rc.2) ≠ EMPTY →
      (getGroup board rc.1 rc.2).2 ≠ 0)
    (hnp : ¬ (r = -1 ∧ c = -1))
    (hlegal : isMoveLegal board r c p lastBoardState = true) :
    ∀ rc ∈ scanOrder,
      boardAt (removeCapturedStones (boardSet board (toIndex r c) p) p).1
          (toIndex rc.1 rc.2) ≠ EMPTY →
        (getGroup (removeCapturedStones (boardSet board (toIndex r c) p) p).1
          rc.1 rc.2).2 ≠ 0 := by
  obtain ⟨hv, he, hnewlib, _⟩ := isMoveLegal_true hnp hlegal
  have hpne : p ≠ EMPTY := by
    rcases hp with rfl | rfl <;> decide
  have hoppne := getOpponent_ne_empty p
  have hr := toIndex_range hv
  obtain ⟨_, hplaced, hsame, hcells'⟩ := placed_board_spec (p := p) hlen hr.1 hr.2
  have hset : boardAt (boardSet board (toIndex r c) p) (toIndex r c) = p := by
    rw [boardAt_boardSet board p hr.1 (by rw [hlen]; exact_mod_cast hr.2) hr.1, if_pos rfl]
  -- the stones of `p` are the same before and after the removal
  have hpcell : ∀ z, 0 ≤ z → z < 81 →
      (boardAt (boardSet board (toIndex r c) p) z = p ↔
        boardAt (removeCapturedStones (boardSet board (toIndex r c) p) p).1 z = p) := by
    intro z hz0 hz1
    rw [hcells' z hz0 hz1]
    constructor
    · intro h
      rw [if_neg, h]
      intro hd
      exact getOpponent_ne_self p (hd.1.symm.trans h)
    · intro h
      split at h
      · exact absurd h.symm hpne
      · exact h
  have hempty : ∀ z, 0 ≤ z → z < 81 → boardAt (boardSet board (toIndex r c) p) z = EMPTY →
      boardAt (removeCapturedStones (boardSet board (toIndex r c) p) p).1 z = EMPTY := by
    intro z hz0 hz1 h
    rw [hcells' z hz0 hz1]
    split
    · rfl
    · exact h
  have hnewLib : HasLiberty (removeCapturedStones (boardSet board (toIndex r c) p) p).1
      (toIndex r c) :=
    (getGroup_liberties_ne_zero_iff_coords hv (by rw [hplaced]; exact hpne)).1 hnewlib
  intro rc hrc hstone
  have hvi := (mem_scanOrder rc).1 hrc
  have hi := toIndex_range hvi
  rw [getGroup_liberties_ne_zero_iff_coords hvi hstone]
  generalize toIndex rc.1 rc.2 = i at hstone hi ⊢
  have hnd : ¬ Doomed (boardSet board (toIndex r c) p) (getOpponent p) i := by
    intro hd
    apply hstone
    rw [hcells' i hi.1 hi.2, if_pos hd]
  have hBi1 : boardAt (removeCapturedStones (boardSet board (toIndex r c) p) p).1 i =
      boardAt (boardSet board (toIndex r c) p) i := by
    rw [hcells' i hi.1 hi.2, if_neg hnd]
  have hvals : boardAt (boardSet board (toIndex r c) p) i = EMPTY ∨
      boardAt (boardSet board (toIndex r c) p) i = p ∨
      boardAt (boardSet board (toIndex r c) p) i = getOpponent p := by
    by_cases hidx : i = toIndex r c
    · rw [hidx, hset]
      exact Or.inr (Or.inl rfl)
    · rw [hsame i hi.1 hi.2 hidx]
      have := boardAt_mem_values hlen hcells hi.1 hi.2
      unfold getOpponent
      rcases hp with rfl | rfl
      · simpa using this
      · have hWB : ¬ (WHITE = BLACK) := by decide
        rw [if_neg hWB]
        rcases this with h | h | h
        · exact Or.inl h
        · exact Or.inr (Or.inr h)
        · exact Or.inr (Or.inl h)
  rcases hvals with h | h | h
  · exact absurd (hBi1.trans h) hstone
  · -- a stone of the player who moved
    have hBi' : boardAt (removeCapturedStones (boardSet board (toIndex r c) p) p).1 i = p :=
      hBi1.trans h
    have hplacedLib : ∀ j, Connected (removeCapturedStones (boardSet board (toIndex r c) p)
        p).1 p j (toIndex r c) →
        HasLiberty (removeCapturedStones (boardSet board (toIndex r c) p) p).1 j := by
      intro j hj
      obtain ⟨x', hx', y', hxy', hy'⟩ := hnewLib
      rw [hplaced] at hx'
      refine ⟨x', ?_, y', hxy', hy'⟩
      rw [hj.colour_left]
      exact hj.trans hx'
    by_cases hidx : i = toIndex r c
    · rw [hidx]
      exact hnewLib
    · have hBi : boardAt board i = p := by
        rw [← hsame i hi.1 hi.2 hidx]
        exact h
      obtain ⟨hcidx, hvc⟩ := toIndex_toCoords hi.1 hi.2
      have hold : HasLiberty board i := by
        have := hlib (toCoords i) ((mem_scanOrder _).2 hvc) (by rw [hcidx, hBi]; exact hpne)
        rw [getGroup_liberties_ne_zero_iff_coords hvc (by rw [hcidx, hBi]; exact hpne),
          hcidx] at this
        exact this
      obtain ⟨x, hx, y, hxy, hy⟩ := hold
      rw [hBi] at hx
      have hx' : Connected (removeCapturedStones (boardSet board (toIndex r c) p) p).1 p
          i x := by
        apply Connected.mono _ hx
        intro z hz0 hz1 hzc
        have hzne : z ≠ toIndex r c := by
          intro hz
          rw [hz, he] at hzc
          exact hpne hzc.symm
        apply (hpcell z hz0 hz1).1
        rw [hsame z hz0 hz1 hzne]
        exact hzc
      by_cases hyidx : y = toIndex r c
      · subst hyidx
        exact hplacedLib i (Connected.step hx' hxy hplaced)
      · refine ⟨x, by rw [hBi']; exact hx', y, hxy, ?_⟩
        apply hempty y hxy.right_range.1 hxy.right_range.2
        rw [hsame y hxy.right_range.1 hxy.right_range.2 hyidx]
        exact hy
  · -- a stone of the opponent that was not captured
    have hlib1 : HasLiberty (boardSet board (toIndex r c) p) i := by
      rw [← getGroup_liberties_ne_zero_iff hi.1 hi.2 (by rw [h]; exact hoppne)]
      intro hz
      exact hnd ⟨h, hz⟩
    obtain ⟨x, hx, y, hxy, hy⟩ := hlib1
    rw [h] at hx
    have hkeep : ∀ z, Connected (boardSet board (toIndex r c) p) (getOpponent p) i z →
        Connected (removeCapturedStones (boardSet board (toIndex r c) p) p).1
          (getOpponent p) i z := by
      intro z hz
      induction hz with
      | refl h0 h1 hcol => exact Connected.refl h0 h1 (hBi1.trans hcol)
      | @step b d hprev hadj hcol ih =>
        refine Connected.step ih hadj ?_
        rw [hcells' d hadj.right_range.1 hadj.right_range.2, if_neg, hcol]
        intro hdd
        apply hnd
        refine ⟨h, ?_⟩
        rw [← getGroup_liberties_of_connected hoppne (Connected.step hprev hadj hcol)]
        exact hdd.2
    refine ⟨x, ?_, y, hxy, hempty y hxy.right_range.1 hxy.right_range.2 hy⟩
    rw [hBi1, h]
    exact hkeep x hx

set_option maxRecDepth 100000 in
theorem liberty_invariant_witness :
    sampleAtari.length = 81 ∧ isMoveLegal sampleAtari 0 3 BLACK [] = true ∧
      (getGroup (removeCapturedStones (boardSet sampleAtari (toIndex 0 3) BLACK) BLACK).1
        0 1).2 ≠ 0 :=
  ⟨by decide, by decide,
    liberty_invariant sampleAtari 0 3 BLACK [] (by decide) (by decide) (Or.inl rfl)
      (by decide) (by decide) (by decide) (0, 1) (by decide) (by decide)⟩

/-! ## Claims C20 and C14: the candidates and the legality checker -/

/-- Where a move listed by `generateMoves` comes from: it is the pass, or the
board holds a stone and the move went through `isMoveLegal`, or the board holds
no stone and the move is one of the 81 cells. -/
theorem mem_generateMoves {mapOrder : List Int → List Int} {board : List Int} {p : Int}
    {lastBoardState : List Int} {m : Move}
    (h : m ∈ generateMoves mapOrder board p lastBoardState) :
    m = passMove ∨
      ((∃ rc ∈ scanOrder, boardAt board (toIndex rc.1 rc.2) ≠ EMPTY) ∧
        isMoveLegal board m.Row m.Col p lastBoardState = true) ∨
      ((∀ rc ∈ scanOrder, boardAt board (toIndex rc.1 rc.2) = EMPTY) ∧
        isValid m.Row m.Col = true) := by
  have hinv := candidateInv_final board
  unfold generateMoves at h
  simp only at h
  generalize scanOrder.foldl (candidateCell board)
    { candidateSquares := [], hasStones := false } = s at hinv h
  rw [List.mem_append, List.mem_singleton] at h
  rcases h with h | h
  · cases hs : s.hasStones with
    | false =>
      right; right
      rw [hs] at h
      simp only [Bool.not_false, if_true] at h
      rw [allMoves_foldl, List.nil_append, List.mem_map] at h
      obtain ⟨rc, hrc, rfl⟩ := h
      refine ⟨?_, (mem_scanOrder rc).1 hrc⟩
      intro q hq
      by_contra hne
      have := hinv.stones.2 ⟨q, hq, hne⟩
      rw [hs] at this
      exact Bool.false_ne_true this
    | true =>
      right; left
      rw [hs] at h
      simp only [Bool.not_true, Bool.false_eq_true, if_false] at h
      rw [legalAppend_foldl, List.nil_append, List.mem_map] at h
      obtain ⟨idx, hidx, rfl⟩ := h
      exact ⟨hinv.stones.1 hs, (List.mem_filter.1 hidx).2⟩
  · exact Or.inl h

theorem boardAt_emptyBoard (i : Int) : boardAt emptyBoard i = EMPTY := by
  unfold boardAt emptyBoard
  rw [List.getD_eq_getElem?_getD, List.getElem?_replicate]
  split <;> rfl

/-- A board of 81 cells none of which holds a stone is the empty board. -/
theorem eq_emptyBoard {board : List Int} (hlen : board.length = 81)
    (h : ∀ rc ∈ scanOrder, boardAt board (toIndex rc.1 rc.2) = EMPTY) :
    board = emptyBoard := by
  apply board_ext hlen (by simp [emptyBoard])
  intro i h0 h1
  obtain ⟨hidx, hv⟩ := toIndex_toCoords h0 h1
  have := h (toCoords i) ((mem_scanOrder _).2 hv)
  rw [hidx] at this
  rw [this]
  exact (boardAt_emptyBoard i).symm

/-- On the empty board a first stone of either colour captures nothing and
has a liberty. -/
theorem first_stone (p : Int) (hp : p = BLACK ∨ p = WHITE) {idx : Int} (h0 : 0 ≤ idx)
    (h1 : idx < 81) :
    removeCapturedStones (boardSet emptyBoard idx p) p = (boardSet emptyBoard idx p, 0) ∧
      HasLiberty (boardSet emptyBoard idx p) idx := by
  have hpne : p ≠ EMPTY := by
    rcases hp with rfl | rfl <;> decide
  have hlen : (boardSet emptyBoard idx p).length = 81 := by
    rw [length_boardSet]
    simp [emptyBoard]
  have hset : ∀ i, 0 ≤ i → boardAt (boardSet emptyBoard idx p) i =
      if i = idx then p else EMPTY := by
    intro i hi
    rw [boardAt_boardSet emptyBoard p h0 (by simp [emptyBoard]; exact h1) hi,
      boardAt_emptyBoard]
  constructor
  · apply removeCapturedStones_none p hlen
    intro i hi hd
    rw [mem_allIdx] at hi
    have := hd.1
    rw [hset i hi.1] at this
    split at this
    · exact getOpponent_ne_self p this.symm
    · exact getOpponent_ne_empty p this.symm
  · have hadj : ∃ y, Adjacent idx y ∧ y ≠ idx := by
      by_cases h : idx % 9 < 8
      · refine ⟨idx + 1, ?_, by omega⟩
        unfold Adjacent
        omega
      · refine ⟨idx - 1, ?_, by omega⟩
        unfold Adjacent
        omega
    obtain ⟨y, hy, hne⟩ := hadj
    refine ⟨idx, Connected.refl h0 h1 rfl, y, hy, ?_⟩
    rw [hset y hy.right_range.1, if_neg hne]

/-- Legality of a first stone on the empty board: only the ko comparison can
reject it. -/
theorem isMoveLegal_emptyBoard (p : Int) (hp : p = BLACK ∨ p = WHITE) (r c : Int)
    (hv : isValid r c = true) (lastBoardState : List Int) :
    isMoveLegal emptyBoard r c p lastBoardState = true ↔
      lastBoardState ≠ boardSet emptyBoard (toIndex r c) p := by
  have hpne : p ≠ EMPTY := by
    rcases hp with rfl | rfl <;> decide
  have hr := toIndex_range hv
  have he : boardAt emptyBoard (toIndex r c) = EMPTY := boardAt_emptyBoard _
  obtain ⟨h1, h2⟩ := first_stone p hp hr.1 hr.2
  have hstone : boardAt (boardSet emptyBoard (toIndex r c) p) (toIndex r c) ≠ EMPTY := by
    rw [boardAt_boardSet emptyBoard p hr.1 (by simp [emptyBoard]; exact hr.2) hr.1,
      if_pos rfl]
    exact hpne
  have h3 := (getGroup_liberties_ne_zero_iff_coords hv hstone).2 h2
  rw [isMoveLegal_eq emptyBoard r c p lastBoardState hv he, h1]
  simp only [Bool.and_eq_true, decide_eq_true_eq]
  constructor
  · rintro ⟨_, h⟩
    exact fun h' => h h'.symm
  · intro h
    exact ⟨h3, fun h' => h h'.symm⟩

set_option maxRecDepth 100000 in
/-- C20, as the claim states it, fails: on the empty board with
`lastBoardState` the board whose only stone is black's at (0,0), `generateMoves`
lists the cell (0,0) for black although `isMoveLegal` rejects it. -/
theorem generateMoves_illegal_candidate :
    emptyBoard.length = 81 ∧ (boardSet emptyBoard (toIndex 0 0) BLACK).length = 81 ∧
      ({ Row := 0, Col := 0 } : Move) ∈
        generateMoves id emptyBoard BLACK (boardSet emptyBoard (toIndex 0 0) BLACK) ∧
      isMoveLegal emptyBoard 0 0 BLACK (boardSet emptyBoard (toIndex 0 0) BLACK) = false := by
  decide

/-- C20, amended. On a board of 81 cells that holds a stone, every move
`generateMoves` lists is legal.  On the empty board it lists cells and the pass
without consulting `isMoveLegal`, and a listed move of black or white is legal
exactly when it is the pass or `lastBoardState` is not the board whose only
stone is the one this move places. -/
theorem generateMoves_legal (mapOrder : List Int → List Int) (board : List Int) (p : Int)
    (lastBoardState : List Int) (hlen : board.length = 81) (hp : p = BLACK ∨ p = WHITE) :
    ((∃ i ∈ allIdx, boardAt board i ≠ EMPTY) →
      ∀ m ∈ generateMoves mapOrder board p lastBoardState,
        isMoveLegal board m.Row m.Col p lastBoardState = true) ∧
    (board = emptyBoard →
      ∀ m ∈ generateMoves mapOrder board p lastBoardState,
        (isMoveLegal board m.Row m.Col p lastBoardState = true ↔
          (m = passMove ∨
            lastBoardState ≠ boardSet emptyBoard (toIndex m.Row m.Col) p))) := by
  have _ := hlen
  constructor
  · rintro ⟨i, hi, hs⟩ m hm
    rw [mem_allIdx] at hi
    obtain ⟨hidx, hv⟩ := toIndex_toCoords hi.1 hi.2
    rcases mem_generateMoves hm with h | h | h
    · rw [h]
      simp [isMoveLegal, passMove]
    · exact h.2
    · have := h.1 (toCoords i) ((mem_scanOrder _).2 hv)
      rw [hidx] at this
      exact absurd this hs
  · intro hb m hm
    subst hb
    rcases mem_generateMoves hm with h | h | h
    · rw [h]
      simp [isMoveLegal, passMove]
    · obtain ⟨rc, _, hne⟩ := h.1
      exact absurd (boardAt_emptyBoard _) hne
    · rw [isMoveLegal_emptyBoard p hp m.Row m.Col h.2 lastBoardState]
      constructor
      · exact Or.inr
      · rintro (h' | h')
        · have hv := h.2
          rw [h', isValid_iff] at hv
          unfold passMove at hv
          simp at hv
        · exact h'

set_option maxRecDepth 100000 in
theorem generateMoves_legal_witness :
    sampleAtari.length = 81 ∧ (∃ i ∈ allIdx, boardAt sampleAtari i ≠ EMPTY) ∧
      isMoveLegal sampleAtari 0 3 BLACK [] = true :=
  ⟨by decide, by decide,
    (generateMoves_legal id sampleAtari BLACK [] (by decide) (Or.inl rfl)).1 (by decide)
      { Row := 0, Col := 3 } (by decide)⟩

theorem bestLoop_mem (score : Move → ℚ → ℚ) (ms : List Move) (s : ℚ) (b : Move) :
    bestLoop score ms s b = b ∨ bestLoop score ms s b ∈ ms := by
  induction ms generalizing s b with
  | nil => exact Or.inl rfl
  | cons m rest ih =>
    unfold bestLoop
    simp only
    split
    · rcases ih (score m s) m with h | h
      · rw [h]
        exact Or.inr (List.mem_cons_self _ _)
      · exact Or.inr (List.mem_cons_of_mem _ h)
    · rcases ih s b with h | h
      · exact Or.inl h
      · exact Or.inr (List.mem_cons_of_mem _ h)

/-- The move `findBestMove` returns is the pass or one `generateMoves` listed. -/
theorem findBestMove_mem (orders : List Move → List Int → List Int) (board : List Int)
    (captures : List (String × Int)) (lastBoardState : List Int) :
    findBestMove orders board captures lastBoardState = passMove ∨
      findBestMove orders board captures lastBoardState ∈
        generateMoves (orders []) board WHITE lastBoardState := by
  unfold findBestMove
  exact bestLoop_mem _ _ _ _

/-- With the board itself as `lastBoardState`, the move `findBestMove` returns
on a board of 81 cells is the pass or is legal for white. -/
theorem findBestMove_pass_or_legal (orders : List Move → List Int → List Int)
    (board : List Int) (captures : List (String × Int)) (hlen : board.length = 81) :
    findBestMove orders board captures board = passMove ∨
      isMoveLegal board (findBestMove orders board captures board).Row
        (findBestMove orders board captures board).Col WHITE board = true := by
  rcases findBestMove_mem orders board captures board with h | h
  · exact Or.inl h
  · rcases mem_generateMoves h with h' | h' | h'
    · exact Or.inl h'
    · exact Or.inr h'.2
    · right
      have hb := eq_emptyBoard hlen h'.1
      subst hb
      rw [isMoveLegal_emptyBoard WHITE (Or.inr rfl) _ _ h'.2 emptyBoard]
      intro heq
      have hr := toIndex_range h'.2
      have h1 := congrArg (fun b => boardAt b
        (toIndex (findBestMove orders emptyBoard captures emptyBoard).Row
          (findBestMove orders emptyBoard captures emptyBoard).Col)) heq
      simp only at h1
      rw [boardAt_boardSet emptyBoard WHITE hr.1 (by simp [emptyBoard]; exact hr.2) hr.1,
        if_pos rfl, boardAt_emptyBoard] at h1
      exact absurd h1 (by decide)

/-- C14. On a board of 81 cells the move `m` that `findBestMove` returns for
the board, with the board itself as `lastBoardState`, is the pass or is legal
for white under `isMoveLegal`; so the reply of the handler is the pass response
or the response that plays `m`, never the one of the illegal-move branch. -/
theorem findBestMove_consistent (orders : List Move → List Int → List Int)
    (board : List Int) (captures : List (String × Int)) (hlen : board.length = 81) :
    (findBestMove orders board captures board = passMove ∨
      isMoveLegal board (findBestMove orders board captures board).Row
        (findBestMove orders board captures board).Col WHITE board = true) ∧
    ((aiReply orders board captures).Message = "AI passes. Your turn." ∨
      (aiReply orders board captures).MoveType = "PLAY") := by
  have h := findBestMove_pass_or_legal orders board captures hlen
  refine ⟨h, ?_⟩
  unfold aiReply
  simp only
  by_cases hpass : (findBestMove orders board captures board).Row = -1 ∧
      (findBestMove orders board captures board).Col = -1
  · rw [if_pos hpass]
    exact Or.inl rfl
  · rw [if_neg hpass]
    have hlegal : isMoveLegal board (findBestMove orders board captures board).Row
        (findBestMove orders board captures board).Col WHITE board = true := by
      rcases h with h | h
      · exfalso
        apply hpass
        rw [h]
        exact ⟨rfl, rfl⟩
      · exact h
    simp [hlegal]

/-! ## Alpha-beta pruning: the loops -/

theorem foldl_max_ge (l : List ℚ) (x : ℚ) : x ≤ l.foldl max x := by
  induction l generalizing x with
  | nil => exact le_refl x
  | cons a rest ih => exact le_trans (le_max_left x a) (ih (max x a))

theorem foldl_min_le (l : List ℚ) (x : ℚ) : l.foldl min x ≤ x := by
  induction l generalizing x with
  | nil => exact le_refl x
  | cons a rest ih => exact le_trans (ih (min x a)) (min_le_left x a)

theorem foldl_max_swap (l : List ℚ) (x y : ℚ) :
    l.foldl max (max x y) = max y (l.foldl max x) := by
  induction l generalizing x with
  | nil => exact max_comm x y
  | cons a rest ih =>
    simp only [List.foldl_cons]
    rw [max_assoc, max_comm y a, ← max_assoc, ih]

theorem foldl_min_swap (l : List ℚ) (x y : ℚ) :
    l.foldl min (min x y) = min y (l.foldl min x) := by
  induction l generalizing x with
  | nil => exact min_comm x y
  | cons a rest ih =>
    simp only [List.foldl_cons]
    rw [min_assoc, min_comm y a, ← min_assoc, ih]

theorem foldl_max_perm {l₁ l₂ : List ℚ} (h : l₁.Perm l₂) (x : ℚ) :
    l₁.foldl max x = l₂.foldl max x := by
  induction h generalizing x with
  | nil => rfl
  | cons a _ ih => exact ih (max x a)
  | swap a b l =>
    simp only [List.foldl_cons]
    rw [max_assoc, max_comm b a, ← max_assoc]
  | trans _ _ ih₁ ih₂ => exact (ih₁ x).trans (ih₂ x)

theorem foldl_min_perm {l₁ l₂ : List ℚ} (h : l₁.Perm l₂) (x : ℚ) :
    l₁.foldl min x = l₂.foldl min x := by
  induction h generalizing x with
  | nil => rfl
  | cons a _ ih => exact ih (min x a)
  | swap a b l =>
    simp only [List.foldl_cons]
    rw [min_assoc, min_comm b a, ← min_assoc]
  | trans _ _ ih₁ ih₂ => exact (ih₁ x).trans (ih₂ x)

/-- The maximizing loop of `alphaBeta`, run from `maxEval = M` and
`alpha = a` over children that meet `WindowSpec`, meets it for the largest of
`M` and the unpruned values `tv` of the children. -/
theorem maxLoop_spec (child : Move → ℚ → ℚ → ℚ) (tv : Move → ℚ) (lo beta : ℚ) :
    ∀ (ms : List Move) (M a : ℚ),
      (∀ m ∈ ms, ∀ a', lo ≤ a' → a' < beta →
        WindowSpec (child m a' beta) a' beta (tv m)) →
      M ≤ a → lo ≤ a → a < beta →
      WindowSpec (maxLoop child beta ms M a) a beta ((ms.map tv).foldl max M) ∧
        M ≤ maxLoop child beta ms M a := by
  intro ms
  induction ms with
  | nil =>
    intro M a _ hMa _ hab
    simp only [maxLoop, List.map_nil, List.foldl_nil]
    refine ⟨⟨?_, ?_, ?_⟩, le_refl _⟩
    · intro h
      exact absurd h (not_lt.2 hMa)
    · intro _
      exact hMa
    · intro h
      exact h
  | cons m rest ih =>
    intro M a hchild hMa hlo hab
    obtain ⟨h1, h2, h3⟩ := hchild m (List.mem_cons_self _ _) a hlo hab
    have hS := foldl_max_ge (rest.map tv) M
    have hR : ((m :: rest).map tv).foldl max M =
        max (tv m) ((rest.map tv).foldl max M) := by
      rw [List.map_cons, List.foldl_cons, foldl_max_swap]
    have hR' : ∀ e : ℚ, (rest.map tv).foldl max (max M e) =
        max e ((rest.map tv).foldl max M) := fun e => foldl_max_swap _ _ _
    rw [hR]
    have hih := ih (max M (child m a beta)) (max a (child m a beta))
      (fun m' hm' => hchild m' (List.mem_cons_of_mem _ hm'))
      (max_le_max hMa (le_refl _)) (le_trans hlo (le_max_left _ _))
    rw [hR'] at hih
    unfold maxLoop
    simp only
    generalize (rest.map tv).foldl max M = S at hS hih
    generalize child m a beta = e at h1 h2 h3 hih
    by_cases hbreak : beta ≤ max a e
    · rw [if_pos hbreak]
      have hbe : beta ≤ e := by
        rcases le_max_iff.1 hbreak with h | h
        · exact absurd h (not_le.2 hab)
        · exact h
      have hbt : beta ≤ tv m := by
        by_contra hlt
        rw [not_le] at hlt
        rcases le_or_lt (tv m) a with h | h
        · have := h2 h
          linarith
        · have := h1 h hlt
          linarith
      have hRb : beta ≤ max (tv m) S := le_trans hbt (le_max_left _ _)
      refine ⟨⟨?_, ?_, ?_⟩, le_max_left _ _⟩
      · intro _ h
        exact absurd hRb (not_le.2 h)
      · intro h
        linarith
      · intro _
        exact le_trans hbe (le_max_right _ _)
    · rw [if_neg hbreak]
      rw [not_le] at hbreak
      have htb : tv m < beta := by
        by_contra h
        rw [not_lt] at h
        have := h3 h
        have := le_max_right a e
        linarith
      obtain ⟨⟨i1, i2, i3⟩, i4⟩ := hih hbreak
      generalize maxLoop child beta rest (max M e) (max a e) = v at i1 i2 i3 i4
      have hMv : M ≤ v := le_trans (le_max_left _ _) i4
      have hev : e ≤ v := le_trans (le_max_right _ _) i4
      refine ⟨?_, hMv⟩
      rcases le_or_lt (tv m) a with hta | hta
      · have hea := h2 hta
        rw [max_eq_left hea] at i1 i2
        refine ⟨?_, ?_, ?_⟩
        · intro hR1 hR2
          have hSa : a < S := by
            rcases lt_max_iff.1 hR1 with h | h
            · linarith
            · exact h
          have e1 : max (tv m) S = S := max_eq_right (by linarith)
          have e2 : max e S = S := max_eq_right (by linarith)
          rw [e1] at hR2 ⊢
          rw [e2] at i1
          exact i1 hSa hR2
        · intro hR1
          have hSa : S ≤ a := le_trans (le_max_right _ _) hR1
          exact i2 (max_le hea hSa)
        · intro hR1
          have hSb : beta ≤ S := by
            rcases le_max_iff.1 hR1 with h | h
            · linarith
            · exact h
          exact i3 (le_trans hSb (le_max_right _ _))
      · have hee := h1 hta htb
        subst hee
        rw [max_eq_right (le_of_lt hta)] at i1 i2
        refine ⟨?_, ?_, i3⟩
        · intro _ hR2
          rcases eq_or_lt_of_le (le_max_left (tv m) S) with h | h
          · have hv1 := i2 (le_of_eq h.symm)
            rw [← h]
            exact le_antisymm hv1 hev
          · exact i1 h hR2
        · intro hR1
          have := le_trans (le_max_left _ _) hR1
          linarith

/-- The minimizing loop of `alphaBeta`, run from `minEval = M` and `beta = b`
over children that meet `WindowSpec`, meets it for the smallest of `M` and the
unpruned values `tv` of the children. -/
theorem minLoop_spec (child : Move → ℚ → ℚ → ℚ) (tv : Move → ℚ) (hi alpha : ℚ) :
    ∀ (ms : List Move) (M b : ℚ),
      (∀ m ∈ ms, ∀ b', b' ≤ hi → alpha < b' →
        WindowSpec (child m alpha b') alpha b' (tv m)) →
      b ≤ M → b ≤ hi → alpha < b →
      WindowSpec (minLoop child alpha ms M b) alpha b ((ms.map tv).foldl min M) ∧
        minLoop child alpha ms M b ≤ M := by
  intro ms
  induction ms with
  | nil =>
    intro M b _ hbM _ hab
    simp only [minLoop, List.map_nil, List.foldl_nil]
    refine ⟨⟨?_, ?_, ?_⟩, le_refl _⟩
    · intro _ h
      exact absurd h (not_lt.2 hbM)
    · intro h
      exact h
    · intro _
      exact hbM
  | cons m rest ih =>
    intro M b hchild hbM hhi hab
    obtain ⟨h1, h2, h3⟩ := hchild m (List.mem_cons_self _ _) b hhi hab
    have hS := foldl_min_le (rest.map tv) M
    have hR : ((m :: rest).map tv).foldl min M =
        min (tv m) ((rest.map tv).foldl min M) := by
      rw [List.map_cons, List.foldl_cons, foldl_min_swap]
    have hR' : ∀ e : ℚ, (rest.map tv).foldl min (min M e) =
        min e ((rest.map tv).foldl min M) := fun e => foldl_min_swap _ _ _
    rw [hR]
    have hih := ih (min M (child m alpha b)) (min b (child m alpha b))
      (fun m' hm' => hchild m' (List.mem_cons_of_mem _ hm'))
      (min_le_min hbM (le_refl _)) (le_trans (min_le_left _ _) hhi)
    rw [hR'] at hih
    unfold minLoop
    simp only
    generalize (rest.map tv).foldl min M = S at hS hih
    generalize child m alpha b = e at h1 h2 h3 hih
    by_cases hbreak : min b e ≤ alpha
    · rw [if_pos hbreak]
      have hea : e ≤ alpha := by
        rcases min_le_iff.1 hbreak with h | h
        · exact absurd h (not_le.2 hab)
        · exact h
      have hta : tv m ≤ alpha := by
        by_contra hlt
        rw [not_le] at hlt
        rcases le_or_lt b (tv m) with h | h
        · have := h3 h
          linarith
        · have := h1 hlt h
          linarith
      have hRa : min (tv m) S ≤ alpha := le_trans (min_le_left _ _) hta
      refine ⟨⟨?_, ?_, ?_⟩, min_le_left _ _⟩
      · intro h _
        exact absurd hRa (not_le.2 h)
      · intro _
        exact le_trans (min_le_right _ _) hea
      · intro h
        linarith
    · rw [if_neg hbreak]
      rw [not_le] at hbreak
      have hat : alpha < tv m := by
        by_contra h
        rw [not_lt] at h
        have := h2 h
        have := min_le_right b e
        linarith
      obtain ⟨⟨i1, i2, i3⟩, i4⟩ := hih hbreak
      generalize minLoop child alpha rest (min M e) (min b e) = v at i1 i2 i3 i4
      have hvM : v ≤ M := le_trans i4 (min_le_left _ _)
      have hve : v ≤ e := le_trans i4 (min_le_right _ _)
      refine ⟨?_, hvM⟩
      rcases le_or_lt b (tv m) with hbt | hbt
      · have hbe := h3 hbt
        rw [min_eq_left hbe] at i1 i3
        refine ⟨?_, ?_, ?_⟩
        · intro hR1 hR2
          have hSb : S < b := by
            rcases min_lt_iff.1 hR2 with h | h
            · linarith
            · exact h
          have e1 : min (tv m) S = S := min_eq_right (by linarith)
          have e2 : min e S = S := min_eq_right (by linarith)
          rw [e1] at hR1 ⊢
          rw [e2] at i1
          exact i1 hR1 hSb
        · intro hR1
          have hSa : S ≤ alpha := by
            rcases min_le_iff.1 hR1 with h | h
            · linarith
            · exact h
          exact i2 (le_trans (min_le_right _ _) hSa)
        · intro hR1
          have hSb : b ≤ S := le_trans hR1 (min_le_right _ _)
          exact i3 (le_min hbe hSb)
      · have hee := h1 hat hbt
        subst hee
        rw [min_eq_right (le_of_lt hbt)] at i1 i3
        refine ⟨?_, i2, ?_⟩
        · intro hR1 _
          rcases eq_or_lt_of_le (min_le_left (tv m) S) with h | h
          · have hv1 := i3 (le_of_eq h.symm)
            rw [h]
            exact le_antisymm hve hv1
          · exact i1 hR1 h
        · intro hR1
          have := le_trans hR1 (min_le_left _ _)
          linarith

/-! ## Alpha-beta pruning: bounds on the values -/

theorem capturesAt_int64 {captures : List (String × Int)} (h : CapturesInt64 captures)
    (key : String) :
    -(2 ^ 63) ≤ capturesAt captures key ∧ capturesAt captures key < 2 ^ 63 := by
  unfold capturesAt
  induction captures with
  | nil => simp
  | cons kv rest ih =>
    obtain ⟨k, v⟩ := kv
    rw [List.lookup_cons]
    cases hk : key == k with
    | true =>
      simp only [Option.getD_some]
      exact h (k, v) (List.mem_cons_self _ _)
    | false =>
      simp only
      exact ih (fun q hq => h q (List.mem_cons_of_mem _ hq))

theorem wrap64_range (x : Int) : -(2 ^ 63) ≤ wrap64 x ∧ wrap64 x < 2 ^ 63 := by
  unfold wrap64
  omega

theorem capturesAdd_int64 {captures : List (String × Int)} (h : CapturesInt64 captures)
    (key : String) (n : Int) : CapturesInt64 (capturesAdd captures key n) := by
  unfold capturesAdd
  intro kv hkv
  rcases List.mem_cons.1 hkv with rfl | hkv
  · exact wrap64_range _
  · exact h kv (List.mem_filter.1 hkv).1

theorem simulateMove_int64 {captures : List (String × Int)} (h : CapturesInt64 captures)
    (board : List Int) (player : Int) (move : Move) :
    CapturesInt64 (simulateMove board captures player move).2 := by
  unfold simulateMove
  split
  · exact capturesAdd_int64 h _ _
  · exact h

theorem evaluate_bound {captures : List (String × Int)} (h : CapturesInt64 captures)
    (board : List Int) :
    -(2 ^ 67) ≤ evaluate board captures ∧ evaluate board captures ≤ 2 ^ 67 := by
  obtain ⟨hb, hw⟩ := countTerritory_le board
  obtain ⟨hw1, hw2⟩ := capturesAt_int64 h (itoaColour WHITE)
  obtain ⟨hb1, hb2⟩ := capturesAt_int64 h (itoaColour BLACK)
  have key : ∀ (x : ℚ) (k : ℕ), |x| < 2 ^ k → |roundFloat64 x| ≤ 2 ^ k := by
    intro x k hk
    have := @roundFloat64_abs_le x (k : ℤ) (by rw [zpow_natCast]; exact hk)
    rwa [zpow_natCast] at this
  unfold evaluate float64Add float64Sub float64OfInt KOMI
  simp only [zero_add]
  generalize capturesAt captures (itoaColour BLACK) = cB at hb1 hb2
  generalize capturesAt captures (itoaColour WHITE) = cW at hw1 hw2
  generalize (countTerritory board).1 = bt at hb
  generalize (countTerritory board).2 = wt at hw
  have t1 : |roundFloat64 (((bt : ℤ) : ℚ))| ≤ 2 ^ 7 := key _ 7 (by
    rw [abs_lt]
    have : ((bt : ℤ) : ℚ) ≤ 81 := by exact_mod_cast hb
    have : (0 : ℚ) ≤ ((bt : ℤ) : ℚ) := by positivity
    constructor <;> norm_num <;> linarith)
  have t2 : |roundFloat64 (((wt : ℤ) : ℚ))| ≤ 2 ^ 7 := key _ 7 (by
    rw [abs_lt]
    have : ((wt : ℤ) : ℚ) ≤ 81 := by exact_mod_cast hw
    have : (0 : ℚ) ≤ ((wt : ℤ) : ℚ) := by positivity
    constructor <;> norm_num <;> linarith)
  have t3 : |roundFloat64 (roundFloat64 (((bt : ℤ) : ℚ)))| ≤ 2 ^ 8 := key _ 8 (by
    norm_num at t1 ⊢
    linarith)
  have t4 : |roundFloat64 (roundFloat64 (((wt : ℤ) : ℚ)))| ≤ 2 ^ 8 := key _ 8 (by
    norm_num at t2 ⊢
    linarith)
  have t5 : |roundFloat64 (cW : ℚ)| ≤ 2 ^ 64 := key _ 64 (by
    rw [abs_lt]
    have a : ((-(2 ^ 63) : ℤ) : ℚ) ≤ (cW : ℚ) := by exact_mod_cast hw1
    have b : (cW : ℚ) < ((2 ^ 63 : ℤ) : ℚ) := by exact_mod_cast hw2
    push_cast at a b
    constructor <;> norm_num at a b ⊢ <;> linarith)
  have t6 : |roundFloat64 (cB : ℚ)| ≤ 2 ^ 64 := key _ 64 (by
    rw [abs_lt]
    have a : ((-(2 ^ 63) : ℤ) : ℚ) ≤ (cB : ℚ) := by exact_mod_cast hb1
    have b : (cB : ℚ) < ((2 ^ 63 : ℤ) : ℚ) := by exact_mod_cast hb2
    push_cast at a b
    constructor <;> norm_num at a b ⊢ <;> linarith)
  generalize roundFloat64 (roundFloat64 (((bt : ℤ) : ℚ))) = B2 at t3 ⊢
  generalize roundFloat64 (roundFloat64 (((wt : ℤ) : ℚ))) = W2 at t4 ⊢
  generalize roundFloat64 (cW : ℚ) = C at t5 ⊢
  generalize roundFloat64 (cB : ℚ) = D at t6 ⊢
  have t7 : |roundFloat64 (B2 + C)| ≤ 2 ^ 65 := key _ 65 (by
    have := abs_add B2 C
    norm_num at t3 t5 ⊢
    linarith)
  have t8 : |roundFloat64 (W2 + D)| ≤ 2 ^ 65 := key _ 65 (by
    have := abs_add W2 D
    norm_num at t4 t6 ⊢
    linarith)
  generalize roundFloat64 (B2 + C) = B3 at t7 ⊢
  generalize roundFloat64 (W2 + D) = W3 at t8 ⊢
  have t9 : |roundFloat64 (W3 + 13 / 2)| ≤ 2 ^ 66 := key _ 66 (by
    have := abs_add W3 (13 / 2)
    have e : |(13 / 2 : ℚ)| = 13 / 2 := abs_of_pos (by norm_num)
    rw [e] at this
    norm_num at t8 ⊢
    linarith)
  generalize roundFloat64 (W3 + 13 / 2) = W4 at t9 ⊢
  have t10 : |roundFloat64 (W4 - B3)| ≤ 2 ^ 67 := key _ 67 (by
    have := abs_sub W4 B3
    norm_num at t7 t9 ⊢
    linarith)
  exact abs_le.1 t10

theorem maxFloat64_gt : (2 : ℚ) ^ 67 < MaxFloat64 := by
  unfold MaxFloat64
  norm_num

theorem foldl_max_le (l : List ℚ) (v hi : ℚ) (hv : v ≤ hi) (h : ∀ x ∈ l, x ≤ hi) :
    l.foldl max v ≤ hi := by
  induction l generalizing v with
  | nil => exact hv
  | cons a r ih =>
    rw [List.foldl_cons]
    exact ih (max v a) (max_le hv (h a (List.mem_cons_self _ _)))
      (fun x hx => h x (List.mem_cons_of_mem _ hx))

theorem le_foldl_min (l : List ℚ) (v lo : ℚ) (hv : lo ≤ v) (h : ∀ x ∈ l, lo ≤ x) :
    lo ≤ l.foldl min v := by
  induction l generalizing v with
  | nil => exact hv
  | cons a r ih =>
    rw [List.foldl_cons]
    exact ih (min v a) (le_min hv (h a (List.mem_cons_self _ _)))
      (fun x hx => h x (List.mem_cons_of_mem _ hx))

theorem listMax_bound {vs : List ℚ} {lo hi : ℚ} (hne : vs ≠ [])
    (h : ∀ v ∈ vs, lo ≤ v ∧ v ≤ hi) : lo ≤ listMax vs ∧ listMax vs ≤ hi := by
  cases vs with
  | nil => exact absurd rfl hne
  | cons v rest =>
    have hv := h v (List.mem_cons_self _ _)
    exact ⟨le_trans hv.1 (foldl_max_ge rest v),
      foldl_max_le rest v hi hv.2 (fun x hx => (h x (List.mem_cons_of_mem _ hx)).2)⟩

theorem listMin_bound {vs : List ℚ} {lo hi : ℚ} (hne : vs ≠ [])
    (h : ∀ v ∈ vs, lo ≤ v ∧ v ≤ hi) : lo ≤ listMin vs ∧ listMin vs ≤ hi := by
  cases vs with
  | nil => exact absurd rfl hne
  | cons v rest =>
    have hv := h v (List.mem_cons_self _ _)
    exact ⟨le_foldl_min rest v lo hv.1 (fun x hx => (h x (List.mem_cons_of_mem _ hx)).1),
      le_trans (foldl_min_le rest v) hv.2⟩

/-- The list `generateMoves` returns ends with the pass; before it come
in-bounds cells only. -/
theorem generateMoves_shape {mapOrder : List Int → List Int}
    (hperm : ∀ l, (mapOrder l).Perm l) (board : List Int) (p : Int)
    (lastBoardState : List Int) :
    ∃ ms : List Move, generateMoves mapOrder board p lastBoardState = ms ++ [passMove] ∧
      ∀ m ∈ ms, isValid m.Row m.Col = true := by
  have hinv := candidateInv_final board
  unfold generateMoves
  simp only
  generalize scanOrder.foldl (candidateCell board)
    { candidateSquares := [], hasStones := false } = s at hinv
  cases hs : s.hasStones with
  | false =>
    simp only [Bool.not_false, if_true]
    rw [allMoves_foldl, List.nil_append]
    refine ⟨_, rfl, ?_⟩
    intro m hm
    rw [List.mem_map] at hm
    obtain ⟨rc, hrc, rfl⟩ := hm
    exact (mem_scanOrder rc).1 hrc
  | true =>
    simp only [Bool.not_true, Bool.false_eq_true, if_false]
    rw [legalAppend_foldl, List.nil_append]
    refine ⟨_, rfl, ?_⟩
    intro m hm
    rw [List.mem_map] at hm
    obtain ⟨idx, hidx, rfl⟩ := hm
    have hkey := (hperm _).mem_iff.1 (List.mem_filter.1 hidx).1
    obtain ⟨_, _, _, _, hadj⟩ := (hinv.mem idx).1 hkey
    exact (toIndex_toCoords hadj.right_range.1 hadj.right_range.2).2

theorem generateMoves_perm {mapOrder : List Int → List Int}
    (hperm : ∀ l, (mapOrder l).Perm l) (board : List Int) (p : Int)
    (lastBoardState : List Int) :
    (generateMoves mapOrder board p lastBoardState).Perm
      (generateMoves id board p lastBoardState) := by
  unfold generateMoves
  simp only
  generalize scanOrder.foldl (candidateCell board)
    { candidateSquares := [], hasStones := false } = s
  cases hs : s.hasStones with
  | false => exact List.Perm.refl _
  | true =>
    simp only [Bool.not_true, Bool.false_eq_true, if_false]
    rw [legalAppend_foldl, legalAppend_foldl]
    simp only [List.nil_append, id]
    exact List.Perm.append_right _ (((hperm _).filter _).map _)

/-! ## Claim C11: alpha-beta pruning against unpruned minimax -/

theorem foldl_max_eq_listMax {vs : List ℚ} {M lo : ℚ} (hne : vs ≠ []) (hM : M ≤ lo)
    (h : ∀ v ∈ vs, lo ≤ v) : vs.foldl max M = listMax vs := by
  cases vs with
  | nil => exact absurd rfl hne
  | cons v rest =>
    rw [List.foldl_cons, max_eq_right (le_trans hM (h v (List.mem_cons_self _ _)))]
    rfl

theorem foldl_min_eq_listMin {vs : List ℚ} {M hi : ℚ} (hne : vs ≠ []) (hM : hi ≤ M)
    (h : ∀ v ∈ vs, v ≤ hi) : vs.foldl min M = listMin vs := by
  cases vs with
  | nil => exact absurd rfl hne
  | cons v rest =>
    rw [List.foldl_cons, min_eq_right (le_trans (h v (List.mem_cons_self _ _)) hM)]
    rfl

theorem generateMoves_ne_nil (mapOrder : List Int → List Int) (board : List Int) (p : Int)
    (lastBoardState : List Int) : generateMoves mapOrder board p lastBoardState ≠ [] := by
  unfold generateMoves
  simp

/-- Every value of the reference minimax is that of a leaf, hence within the
bound on `evaluate`. -/
theorem minimax_bound : ∀ (depth : Nat) (board : List Int) (maximizingPlayer : Bool)
    (captures : List (String × Int)) (lastBoardState : List Int),
    CapturesInt64 captures →
    -(2 ^ 67) ≤ minimax depth board maximizingPlayer captures lastBoardState ∧
      minimax depth board maximizingPlayer captures lastBoardState ≤ 2 ^ 67 := by
  intro depth
  induction depth with
  | zero =>
    intro board _ captures _ hcap
    exact evaluate_bound hcap board
  | succ d ih =>
    intro board mx captures lastBoardState hcap
    unfold minimax
    simp only
    have hne : ∀ player : Int, (generateMoves id board player lastBoardState).map (fun move =>
        minimax d (simulateMove board captures player move).1 (!mx)
          (simulateMove board captures player move).2 board) ≠ [] := by
      intro player h
      exact generateMoves_ne_nil _ _ _ _ (List.map_eq_nil_iff.1 h)
    have hall : ∀ player : Int, ∀ v ∈ (generateMoves id board player lastBoardState).map
        (fun move => minimax d (simulateMove board captures player move).1 (!mx)
          (simulateMove board captures player move).2 board),
        -(2 ^ 67) ≤ v ∧ v ≤ 2 ^ 67 := by
      intro player v hv
      rw [List.mem_map] at hv
      obtain ⟨m, _, rfl⟩ := hv
      exact ih _ _ _ _ (simulateMove_int64 hcap board player m)
    split
    · exact listMax_bound (hne _) (hall _)
    · exact listMin_bound (hne _) (hall _)

/-- A call of `alphaBeta` whose window lies within `±MaxFloat64` meets
`WindowSpec` for the reference minimax value of its position, whatever the
orders in which the map ranges yield their keys. -/
theorem alphaBeta_spec : ∀ (depth : Nat) (orders : List Move → List Int → List Int)
    (board : List Int) (alpha beta : ℚ) (maximizingPlayer : Bool)
    (captures : List (String × Int)) (lastBoardState : List Int),
    (∀ path l, (orders path l).Perm l) → CapturesInt64 captures →
    -MaxFloat64 ≤ alpha → alpha < beta → beta ≤ MaxFloat64 →
    WindowSpec (alphaBeta depth orders board alpha beta maximizingPlayer captures
      lastBoardState) alpha beta
      (minimax depth board maximizingPlayer captures lastBoardState) := by
  intro depth
  induction depth with
  | zero =>
    intro orders board alpha beta mx captures lastBoardState _ _ _ _ _
    unfold alphaBeta minimax
    exact ⟨fun _ _ => rfl, fun h => h, fun h => h⟩
  | succ d ih =>
    intro orders board alpha beta mx captures lastBoardState hperm hcap hlo hab hhi
    have hM := maxFloat64_gt
    have hpermc : ∀ move : Move, ∀ path l, (orders (move :: path) l).Perm l :=
      fun move path l => hperm (move :: path) l
    cases mx with
    | true =>
      have hspec := maxLoop_spec
        (fun (move : Move) (a b : ℚ) =>
          alphaBeta d (fun path => orders (move :: path))
            (simulateMove board captures WHITE move).1 a b false
            (simulateMove board captures WHITE move).2 board)
        (fun move => minimax d (simulateMove board captures WHITE move).1 false
          (simulateMove board captures WHITE move).2 board)
        (-MaxFloat64) beta (generateMoves (orders []) board WHITE lastBoardState)
        (-MaxFloat64) alpha
        (fun m _ a' ha' hb' => ih _ _ a' beta false _ board (hpermc m)
          (simulateMove_int64 hcap board WHITE m) ha' hb' hhi)
        hlo hlo hab
      have hval : ((generateMoves (orders []) board WHITE lastBoardState).map
          (fun move => minimax d (simulateMove board captures WHITE move).1 false
            (simulateMove board captures WHITE move).2 board)).foldl max (-MaxFloat64) =
          minimax (d + 1) board true captures lastBoardState := by
        rw [foldl_max_perm ((generateMoves_perm (hperm []) board WHITE lastBoardState).map _)]
        rw [minimax]
        simp only [if_true, Bool.not_true]
        apply @foldl_max_eq_listMax _ _ (-(2 ^ 67))
        · intro h
          exact generateMoves_ne_nil _ _ _ _ (List.map_eq_nil_iff.1 h)
        · linarith
        · intro v hv
          rw [List.mem_map] at hv
          obtain ⟨m, _, rfl⟩ := hv
          exact (minimax_bound d _ _ _ _ (simulateMove_int64 hcap board WHITE m)).1
      rw [hval] at hspec
      have halpha : alphaBeta (d + 1) orders board alpha beta true captures lastBoardState =
          maxLoop
            (fun (move : Move) (a b : ℚ) =>
              alphaBeta d (fun path => orders (move :: path))
                (simulateMove board captures WHITE move).1 a b false
                (simulateMove board captures WHITE move).2 board)
            beta (generateMoves (orders []) board WHITE lastBoardState) (-MaxFloat64)
            alpha := by
        rw [alphaBeta]
        simp only [if_true, Bool.not_true]
      rw [halpha]
      exact hspec.1
    | false =>
      have hspec := minLoop_spec
        (fun (move : Move) (a b : ℚ) =>
          alphaBeta d (fun path => orders (move :: path))
            (simulateMove board captures BLACK move).1 a b true
            (simulateMove board captures BLACK move).2 board)
        (fun move => minimax d (simulateMove board captures BLACK move).1 true
          (simulateMove board captures BLACK move).2 board)
        MaxFloat64 alpha (generateMoves (orders []) board BLACK lastBoardState)
        MaxFloat64 beta
        (fun m _ b' hb' ha' => ih _ _ alpha b' true _ board (hpermc m)
          (simulateMove_int64 hcap board BLACK m) hlo ha' hb')
        hhi hhi hab
      have hval : ((generateMoves (orders []) board BLACK lastBoardState).map
          (fun move => minimax d (simulateMove board captures BLACK move).1 true
            (simulateMove board captures BLACK move).2 board)).foldl min MaxFloat64 =
          minimax (d + 1) board false captures lastBoardState := by
        rw [foldl_min_perm ((generateMoves_perm (hperm []) board BLACK lastBoardState).map _)]
        rw [minimax]
        simp only [Bool.false_eq_true, if_false, Bool.not_false]
        apply @foldl_min_eq_listMin _ _ (2 ^ 67)
        · intro h
          exact generateMoves_ne_nil _ _ _ _ (List.map_eq_nil_iff.1 h)
        · linarith
        · intro v hv
          rw [List.mem_map] at hv
          obtain ⟨m, _, rfl⟩ := hv
          exact (minimax_bound d _ _ _ _ (simulateMove_int64 hcap board BLACK m)).2
      rw [hval] at hspec
      have halpha : alphaBeta (d + 1) orders board alpha beta false captures lastBoardState =
          minLoop
            (fun (move : Move) (a b : ℚ) =>
              alphaBeta d (fun path => orders (move :: path))
                (simulateMove board captures BLACK move).1 a b true
                (simulateMove board captures BLACK move).2 board)
            alpha (generateMoves (orders []) board BLACK lastBoardState) MaxFloat64
            beta := by
        rw [alphaBeta]
        simp only [Bool.false_eq_true, if_false, Bool.not_false]
      rw [halpha]
      exact hspec.1

/-- C11. For a board of 81 cells, captures that are Go `int`s, any side to
move and any depth `d ≥ 0`, `alphaBeta` called with the full window
`(-MaxFloat64, MaxFloat64)` returns (it is a total function) the value of the
unpruned minimax of depth `d`, whatever the orders `orders` in which the calls
of `generateMoves` list their candidates.  The values at the leaves are those
the program computes: `evaluate` rounds every conversion and every addition to
`float64`, and the updates of the captures wrap around as Go `int`s. -/
theorem alphaBeta_eq_minimax (orders : List Move → List Int → List Int)
    (hperm : ∀ path l, (orders path l).Perm l) (depth : Nat) (board : List Int)
    (maximizingPlayer : Bool) (captures : List (String × Int)) (lastBoardState : List Int)
    (hlen : board.length = 81) (hcap : CapturesInt64 captures) :
    alphaBeta depth orders board (-MaxFloat64) MaxFloat64 maximizingPlayer captures
        lastBoardState =
      minimax depth board maximizingPlayer captures lastBoardState := by
  have _ := hlen
  have hM := maxFloat64_gt
  have hb := minimax_bound depth board maximizingPlayer captures lastBoardState hcap
  have hspec := alphaBeta_spec depth orders board (-MaxFloat64) MaxFloat64 maximizingPlayer
    captures lastBoardState hperm hcap (le_refl _) (by linarith) (le_refl _)
  exact hspec.1 (by linarith) (by linarith)

theorem alphaBeta_eq_minimax_witness :
    sampleAtari.length = 81 ∧ CapturesInt64 [] ∧
      alphaBeta 2 (fun _ => id) sampleAtari (-MaxFloat64) MaxFloat64 true [] [] =
        minimax 2 sampleAtari true [] [] :=
  ⟨by decide, fun _ h => absurd h (List.not_mem_nil _),
    alphaBeta_eq_minimax (fun _ => id) (fun _ l => List.Perm.refl l) 2 sampleAtari true [] []
      (by decide) (fun _ h => absurd h (List.not_mem_nil _))⟩

/-! ## Claim C12: the move `findBestMove` selects -/

/-- The loop of `findBestMove`, when each score meets `WindowSpec` for the
window from the running best score to `hi`: either nothing beat the initial
score, or the move returned is the first one of largest value. -/
theorem bestLoop_spec (score : Move → ℚ → ℚ) (tv : Move → ℚ) (lo hi : ℚ) :
    ∀ (ms : List Move) (s : ℚ) (b : Move),
      (∀ m ∈ ms, tv m < hi) →
      (∀ m ∈ ms, ∀ s', lo ≤ s' → s' < hi → WindowSpec (score m s') s' hi (tv m)) →
      lo ≤ s → s < hi →
      (bestLoop score ms s b = b ∧ ∀ x ∈ ms, tv x ≤ s) ∨
        ∃ pre post, ms = pre ++ bestLoop score ms s b :: post ∧
          s < tv (bestLoop score ms s b) ∧
          (∀ x ∈ pre, tv x < tv (bestLoop score ms s b)) ∧
          (∀ x ∈ post, tv x ≤ tv (bestLoop score ms s b)) := by
  intro ms
  induction ms with
  | nil =>
    intro s b _ _ _ _
    exact Or.inl ⟨rfl, by simp⟩
  | cons m rest ih =>
    intro s b hlt hscore hlo hs
    obtain ⟨w1, w2, _⟩ := hscore m (List.mem_cons_self _ _) s hlo hs
    have hmhi := hlt m (List.mem_cons_self _ _)
    have hlt' : ∀ x ∈ rest, tv x < hi := fun x hx => hlt x (List.mem_cons_of_mem _ hx)
    have hscore' : ∀ x ∈ rest, ∀ s', lo ≤ s' → s' < hi →
        WindowSpec (score x s') s' hi (tv x) :=
      fun x hx => hscore x (List.mem_cons_of_mem _ hx)
    unfold bestLoop
    simp only
    by_cases he : score m s > s
    · rw [if_pos he]
      have htv : s < tv m := by
        by_contra h
        rw [not_lt] at h
        have := w2 h
        linarith
      have hee := w1 htv hmhi
      rw [hee]
      right
      rcases ih (tv m) m hlt' hscore' (le_trans hlo (le_of_lt htv)) hmhi with h | h
      · refine ⟨[], rest, ?_, ?_, ?_, ?_⟩
        · rw [h.1]
          rfl
        · rw [h.1]
          exact htv
        · simp
        · rw [h.1]
          exact h.2
      · obtain ⟨pre, post, hdec, hgt, hpre, hpost⟩ := h
        refine ⟨m :: pre, post, ?_, lt_trans htv hgt, ?_, hpost⟩
        · rw [List.cons_append, ← hdec]
        · intro x hx
          rcases List.mem_cons.1 hx with rfl | hx
          · exact hgt
          · exact hpre x hx
    · rw [if_neg he]
      rw [not_lt] at he
      have htv : tv m ≤ s := by
        by_contra h
        rw [not_le] at h
        have := w1 h hmhi
        linarith
      rcases ih s b hlt' hscore' hlo hs with h | h
      · left
        refine ⟨h.1, ?_⟩
        intro x hx
        rcases List.mem_cons.1 hx with rfl | hx
        · exact htv
        · exact h.2 x hx
      · right
        obtain ⟨pre, post, hdec, hgt, hpre, hpost⟩ := h
        refine ⟨m :: pre, post, ?_, hgt, ?_, hpost⟩
        · rw [List.cons_append, ← hdec]
        · intro x hx
          rcases List.mem_cons.1 hx with rfl | hx
          · exact lt_of_le_of_lt htv hgt
          · exact hpre x hx

/-- The move `findBestMove` returns splits the list of `generateMoves` into
the moves before it, all of smaller value, and the moves after it, none of
larger value. -/
theorem findBestMove_spec (orders : List Move → List Int → List Int)
    (hperm : ∀ path l, (orders path l).Perm l) (board : List Int)
    (captures : List (String × Int)) (lastBoardState : List Int)
    (hcap : CapturesInt64 captures) :
    ∃ pre post : List Move,
      generateMoves (orders []) board WHITE lastBoardState =
        pre ++ findBestMove orders board captures lastBoardState :: post ∧
      (∀ x ∈ pre, moveValue board captures x <
        moveValue board captures (findBestMove orders board captures lastBoardState)) ∧
      (∀ x ∈ post, moveValue board captures x ≤
        moveValue board captures (findBestMove orders board captures lastBoardState)) := by
  have hM := maxFloat64_gt
  have hbound : ∀ m : Move, -(2 ^ 67) ≤ moveValue board captures m ∧
      moveValue board captures m ≤ 2 ^ 67 :=
    fun m => minimax_bound _ _ _ _ _ (simulateMove_int64 hcap board WHITE m)
  have hspec := bestLoop_spec
    (fun move bestScore =>
      alphaBeta (MAX_DEPTH - 1) (fun path => orders (move :: path))
        (simulateMove board captures WHITE move).1 bestScore MaxFloat64 false
        (simulateMove board captures WHITE move).2 board)
    (moveValue board captures) (-MaxFloat64) MaxFloat64
    (generateMoves (orders []) board WHITE lastBoardState) (-MaxFloat64) passMove
    (fun m _ => by have := (hbound m).2; linarith)
    (fun m _ s' hs1 hs2 => alphaBeta_spec _ _ _ s' MaxFloat64 false _ board
      (fun path l => hperm (m :: path) l) (simulateMove_int64 hcap board WHITE m) hs1 hs2
      (le_refl _))
    (le_refl _) (by linarith)
  rcases hspec with h | h
  · exfalso
    obtain ⟨ms, hms, _⟩ := generateMoves_shape (hperm []) board WHITE lastBoardState
    have hmem : passMove ∈ generateMoves (orders []) board WHITE lastBoardState := by
      rw [hms]
      simp
    have := h.2 passMove hmem
    have := (hbound passMove).1
    linarith
  · obtain ⟨pre, post, hdec, _, hpre, hpost⟩ := h
    exact ⟨pre, post, hdec, hpre, hpost⟩

/-- C12. For a board of 81 cells and captures that are Go `int`s,
`findBestMove` returns the first move, in the order `generateMoves` lists the
moves of white, whose `moveValue` is largest: the moves listed before it have a
strictly smaller value, the moves listed after it a value that is not larger;
and it returns the pass only if every other move listed has a strictly smaller
value than the pass.  The values are the `float64` values the program computes,
so moves whose leaves round to the same `float64` tie, and the first of them in
the list is the one returned. -/
theorem findBestMove_first_max (orders : List Move → List Int → List Int)
    (hperm : ∀ path l, (orders path l).Perm l) (board : List Int)
    (captures : List (String × Int)) (lastBoardState : List Int)
    (hlen : board.length = 81) (hcap : CapturesInt64 captures) :
    (∃ pre post : List Move,
      generateMoves (orders []) board WHITE lastBoardState =
        pre ++ findBestMove orders board captures lastBoardState :: post ∧
      (∀ x ∈ pre, moveValue board captures x <
        moveValue board captures (findBestMove orders board captures lastBoardState)) ∧
      (∀ x ∈ post, moveValue board captures x ≤
        moveValue board captures (findBestMove orders board captures lastBoardState))) ∧
    (findBestMove orders board captures lastBoardState = passMove →
      ∀ x ∈ generateMoves (orders []) board WHITE lastBoardState, x ≠ passMove →
        moveValue board captures x < moveValue board captures passMove) := by
  have _ := hlen
  have hspec := findBestMove_spec orders hperm board captures lastBoardState hcap
  refine ⟨hspec, ?_⟩
  intro hpass x hx hne
  obtain ⟨pre, post, hdec, hpre, _⟩ := hspec
  rw [hpass] at hdec hpre
  obtain ⟨ms, hms, hvalid⟩ := generateMoves_shape (hperm []) board WHITE lastBoardState
  have hnotin : passMove ∉ ms := by
    intro h
    have := hvalid passMove h
    exact absurd this (by decide)
  have hpreeq : pre = ms := by
    rw [hms] at hdec
    rcases List.append_eq_append_iff.1 hdec with ⟨a', h1, h2⟩ | ⟨c', h1, h2⟩
    · cases a' with
      | nil => simpa using h1
      | cons y rest =>
        exfalso
        have := congrArg List.length h2
        simp at this
    · cases c' with
      | nil => simpa using h1.symm
      | cons y rest =>
        exfalso
        rw [List.cons_append] at h2
        have hy : passMove = y := List.head_eq_of_cons_eq h2
        apply hnotin
        rw [h1, hy]
        simp
  rw [hms] at hx
  rcases List.mem_append.1 hx with h | h
  · rw [← hpreeq] at h
    exact hpre x h
  · rw [List.mem_singleton] at h
    exact absurd h hne

theorem findBestMove_first_max_witness :
    sampleAtari.length = 81 ∧ CapturesInt64 [] ∧
      ∃ pre post : List Move,
        generateMoves id sampleAtari WHITE [] =
          pre ++ findBestMove (fun _ => id) sampleAtari [] [] :: post :=
  ⟨by decide, fun _ h => absurd h (List.not_mem_nil _),
    (findBestMove_first_max (fun _ => id) (fun _ l => List.Perm.refl l) sampleAtari [] []
      (by decide) (fun _ h => absurd h (List.not_mem_nil _))).1.imp
      (fun _ h => h.imp (fun _ h' => h'.1))⟩

/-! ## Claims C15 to C17: the session handler -/

/-- What `moveHandler` answers when black passes. -/
theorem moveHandler_black_pass (orders : List Move → List Int → List Int)
    (req : MoveRequest) (hp : req.Player = BLACK) (hr : req.Row = -1) (hc : req.Col = -1) :
    moveHandler orders req =
      HandlerResult.response
        { Board := req.Board, Captures := req.Captures, Message := "You passed. AI's turn.",
          MoveType := "PASS" } := by
  unfold moveHandler
  rw [if_pos hp, if_pos ⟨hr, hc⟩]

/-- What `moveHandler` answers to a request whose player is not black. -/
theorem moveHandler_not_black (orders : List Move → List Int → List Int)
    (req : MoveRequest) (hp : req.Player ≠ BLACK) :
    moveHandler orders req = HandlerResult.response (aiReply orders req.Board req.Captures) := by
  unfold moveHandler
  rw [if_neg hp]

/-- The only request `moveHandler` rejects. -/
theorem moveHandler_error (orders : List Move → List Int → List Int)
    (req : MoveRequest) (msg : String) (h : moveHandler orders req = HandlerResult.error msg) :
    req.Player = BLACK ∧ ¬ (req.Row = -1 ∧ req.Col = -1) ∧
      isMoveLegal req.Board req.Row req.Col req.Player req.LastBoardState = false := by
  unfold moveHandler at h
  by_cases hp : req.Player = BLACK
  · rw [if_pos hp] at h
    by_cases hpass : req.Row = -1 ∧ req.Col = -1
    · rw [if_pos hpass] at h
      exact absurd h (by simp)
    · rw [if_neg hpass] at h
      cases hl : isMoveLegal req.Board req.Row req.Col req.Player req.LastBoardState with
      | false => exact ⟨hp, hpass, rfl⟩
      | true =>
        rw [hl] at h
        simp at h
  · rw [if_neg hp] at h
    exact absurd h (by simp)

/-- The message of the reply `aiReply` builds is never the one that answers a
pass of black. -/
theorem aiReply_message_ne (orders : List Move → List Int → List Int) (board : List Int)
    (captures : List (String × Int)) :
    (aiReply orders board captures).Message ≠ "You passed. AI's turn." := by
  unfold aiReply
  simp only
  split
  · show "AI passes. Your turn." ≠ "You passed. AI's turn."
    decide
  · split
    · show "AI tried illegal move and passes." ≠ "You passed. AI's turn."
      decide
    · intro h
      have h2 := congrArg String.data h
      simp only [String.data_append] at h2
      have h3 := congrArg List.head? h2
      simp at h3

theorem listMin_le_of_mem {vs : List ℚ} {v : ℚ} (h : v ∈ vs) : listMin vs ≤ v := by
  cases vs with
  | nil => exact absurd h (List.not_mem_nil _)
  | cons a rest =>
    show rest.foldl min a ≤ v
    rcases List.mem_cons.1 h with rfl | h
    · exact foldl_min_le rest v
    · clear * - h
      induction rest generalizing a with
      | nil => exact absurd h (List.not_mem_nil _)
      | cons b r ih =>
        rw [List.foldl_cons]
        rcases List.mem_cons.1 h with rfl | h
        · exact le_trans (foldl_min_le r (min a v)) (min_le_right a v)
        · exact ih (min a b) h

theorem lt_foldl_min (l : List ℚ) (v lo : ℚ) (hv : lo < v) (h : ∀ x ∈ l, lo < x) :
    lo < l.foldl min v := by
  induction l generalizing v with
  | nil => exact hv
  | cons a r ih =>
    rw [List.foldl_cons]
    exact ih (min v a) (lt_min hv (h a (List.mem_cons_self _ _)))
      (fun x hx => h x (List.mem_cons_of_mem _ hx))

theorem lt_listMin {vs : List ℚ} {lo : ℚ} (hne : vs ≠ []) (h : ∀ v ∈ vs, lo < v) :
    lo < listMin vs := by
  cases vs with
  | nil => exact absurd rfl hne
  | cons v rest =>
    exact lt_foldl_min rest v lo (h v (List.mem_cons_self _ _))
      (fun x hx => h x (List.mem_cons_of_mem _ hx))

/-! ### The search in the ko position -/

/-- In `koAfter`, with `koAfter` itself as `lastBoardState`, white has one move
besides the pass: the retake of the ko. -/
theorem koAfter_moves : generateMoves id koAfter WHITE koAfter = [koRetake, passMove] := by
  decide!

/-- The exact score of `koAfter` when white and black both pass. -/
theorem koAfter_leaf_exact : exactScore koAfter [("2", 1)] ≤ 7 / 2 := by
  decide!

/-- The score of `koAfter` when white and black both pass. -/
theorem koAfter_leaf : evaluate koAfter [("2", 1)] ≤ 7 / 2 := by
  rw [evaluate_exact (by decide)]
  exact koAfter_leaf_exact

/-- The retake of the ko gives back `koBefore` and credits white one stone. -/
theorem koAfter_retake :
    simulateMove koAfter [("2", 1)] WHITE koRetake = (koBefore, [("1", 1), ("2", 1)]) := by
  decide!

/-- The positions black can reach from `koBefore`, the retake of the ko being
forbidden to black: the captures stay small and the exact score exceeds 7/2. -/
theorem koBefore_leaves :
    ∀ m ∈ generateMoves id koBefore BLACK koAfter,
      CapturesSmall (simulateMove koBefore [("1", 1), ("2", 1)] BLACK m).2 ∧
        7 / 2 < exactScore (simulateMove koBefore [("1", 1), ("2", 1)] BLACK m).1
          (simulateMove koBefore [("1", 1), ("2", 1)] BLACK m).2 := by
  decide!

/-- The value of the retake: whatever black answers, white keeps the stone
captured. -/
theorem koAfter_retake_value : 7 / 2 < moveValue koAfter [("2", 1)] koRetake := by
  show 7 / 2 < minimax (0 + 1) (simulateMove koAfter [("2", 1)] WHITE koRetake).1 false
    (simulateMove koAfter [("2", 1)] WHITE koRetake).2 koAfter
  rw [koAfter_retake, minimax]
  simp only [Bool.false_eq_true, if_false]
  apply lt_listMin
  · intro h
    exact generateMoves_ne_nil _ _ _ _ (List.map_eq_nil_iff.1 h)
  · intro v hv
    rw [List.mem_map] at hv
    obtain ⟨m, hm, rfl⟩ := hv
    rw [minimax, evaluate_exact (koBefore_leaves m hm).1]
    exact (koBefore_leaves m hm).2

/-- The value of the pass of white in `koAfter` is at most the score reached
when black passes too. -/
theorem koAfter_pass_value : moveValue koAfter [("2", 1)] passMove ≤ 7 / 2 := by
  have hmem : passMove ∈ generateMoves id koAfter BLACK koAfter := by
    obtain ⟨ms, h, _⟩ :=
      @generateMoves_shape id (fun l => List.Perm.refl l) koAfter BLACK koAfter
    rw [h]
    simp
  have hval : moveValue koAfter [("2", 1)] passMove ≤ evaluate koAfter [("2", 1)] := by
    show minimax (0 + 1) koAfter false [("2", 1)] koAfter ≤ _
    rw [minimax]
    simp only [Bool.false_eq_true, if_false]
    apply listMin_le_of_mem
    rw [List.mem_map]
    exact ⟨passMove, hmem, rfl⟩
  exact le_trans hval koAfter_leaf

/-- In `koAfter`, with `koAfter` itself as `lastBoardState`, the search selects
the retake of the ko, whatever the orders of the map ranges. -/
theorem findBestMove_koAfter (orders : List Move → List Int → List Int)
    (hperm : ∀ path l, (orders path l).Perm l) :
    findBestMove orders koAfter [("2", 1)] koAfter = koRetake := by
  have hcap : CapturesInt64 [("2", 1)] := by
    intro kv hkv
    rw [List.mem_singleton] at hkv
    subst hkv
    constructor <;> norm_num
  have hlt : moveValue koAfter [("2", 1)] passMove < moveValue koAfter [("2", 1)] koRetake :=
    lt_of_le_of_lt koAfter_pass_value koAfter_retake_value
  have hL : (generateMoves (orders []) koAfter WHITE koAfter).Perm [koRetake, passMove] := by
    rw [← koAfter_moves]
    exact generateMoves_perm (hperm []) koAfter WHITE koAfter
  obtain ⟨pre, post, hdec, hpre, hpost⟩ :=
    findBestMove_spec orders hperm koAfter [("2", 1)] koAfter hcap
  generalize findBestMove orders koAfter [("2", 1)] koAfter = fb at hdec hpre hpost
  have hfb : fb ∈ [koRetake, passMove] := hL.subset (by rw [hdec]; simp)
  have hK : koRetake ∈ pre ++ fb :: post := by
    rw [← hdec]
    exact hL.symm.subset (by simp)
  rcases List.mem_cons.1 hfb with h | h
  · exact h
  · rw [List.mem_singleton] at h
    subst h
    exfalso
    rcases List.mem_append.1 hK with h1 | h1
    · exact absurd (hpre _ h1) (not_lt.2 (le_of_lt hlt))
    · rcases List.mem_cons.1 h1 with h2 | h2
      · exact absurd h2 (by decide)
      · exact absurd (hpost _ h2) (not_le.2 hlt)

set_option maxRecDepth 100000 in
/-- White's reply in `koAfter`: the retake of the ko, which gives back
`koBefore`, whatever the orders of the map ranges. -/
theorem aiReply_koAfter (orders : List Move → List Int → List Int)
    (hperm : ∀ path l, (orders path l).Perm l) :
    aiReply orders koAfter [("2", 1)] =
      { Board := koBefore, Captures := [("1", 1), ("2", 1)],
        Message := "AI played at (0, 1).", MoveType := "PLAY" } := by
  have h1 : isMoveLegal koAfter 0 1 WHITE koAfter = true := by decide
  have h2 : removeCapturedStones (boardSet koAfter (toIndex 0 1) WHITE) WHITE =
      (koBefore, 1) := by decide
  have h3 : capturesAdd [("2", 1)] (itoaColour BLACK) ((1 : Nat) : Int) =
      [("1", 1), ("2", 1)] := by decide
  unfold aiReply
  simp only [findBestMove_koAfter orders hperm, koRetake]
  rw [h1, h2, h3]
  simp
  decide

/-! ### The claims -/

theorem findBestMove_consistent_witness :
    koAfter.length = 81 ∧
      ((aiReply (fun _ => id) koAfter []).Message = "AI passes. Your turn." ∨
        (aiReply (fun _ => id) koAfter []).MoveType = "PLAY") :=
  ⟨by decide, (findBestMove_consistent (fun _ => id) koAfter [] (by decide)).2⟩

/-- C15, counterexample. Black passes in the position `koAfter`: the answer is
the request's board, unchanged, with the move type PASS, although the search
run on that board selects the move (0,1) for white and the reply built from it
has the move type PLAY and the board `koBefore`. -/
theorem moveHandler_pass_skips_search :
    moveHandler (fun _ => id)
        { Board := koAfter, Player := BLACK, Row := -1, Col := -1, Captures := [("2", 1)],
          LastBoardState := koBefore } =
      HandlerResult.response
        { Board := koAfter, Captures := [("2", 1)], Message := "You passed. AI's turn.",
          MoveType := "PASS" } ∧
    findBestMove (fun _ => id) koAfter [("2", 1)] koAfter = { Row := 0, Col := 1 } ∧
    aiReply (fun _ => id) koAfter [("2", 1)] =
      { Board := koBefore, Captures := [("1", 1), ("2", 1)],
        Message := "AI played at (0, 1).", MoveType := "PLAY" } ∧
    koAfter ≠ koBefore :=
  ⟨moveHandler_black_pass _ _ rfl rfl rfl,
    findBestMove_koAfter _ (fun _ l => List.Perm.refl l),
    aiReply_koAfter _ (fun _ l => List.Perm.refl l), by decide⟩

/-- C15, amended. When black passes, `moveHandler` answers at once, whatever
the orders of the map ranges: the response carries the board and the captures
of the request unchanged, the message "You passed. AI's turn." and the move
type PASS; it is not an error, and it is not the reply `aiReply` builds from
the search, whose message is never that one. On the empty board with no
captures the response therefore has no captures. -/
theorem moveHandler_pass (orders : List Move → List Int → List Int) (req : MoveRequest)
    (hp : req.Player = BLACK) (hr : req.Row = -1) (hc : req.Col = -1) :
    moveHandler orders req =
      HandlerResult.response
        { Board := req.Board, Captures := req.Captures, Message := "You passed. AI's turn.",
          MoveType := "PASS" } ∧
    (∀ orders2 board captures,
      moveHandler orders req ≠ HandlerResult.response (aiReply orders2 board captures)) ∧
    (req.Board = emptyBoard → req.Captures = [] →
      moveHandler orders req =
        HandlerResult.response
          { Board := emptyBoard, Captures := [], Message := "You passed. AI's turn.",
            MoveType := "PASS" }) := by
  have h := moveHandler_black_pass orders req hp hr hc
  refine ⟨h, ?_, ?_⟩
  · intro orders2 board captures heq
    rw [h] at heq
    have hm := congrArg (fun r => match r with
      | HandlerResult.response resp => resp.Message
      | HandlerResult.error msg => msg) heq
    simp only at hm
    exact aiReply_message_ne orders2 board captures hm.symm
  · intro hb hcap
    rw [h, hb, hcap]

theorem moveHandler_pass_witness :
    moveHandler (fun _ => id)
        { Board := emptyBoard, Player := BLACK, Row := -1, Col := -1, Captures := [],
          LastBoardState := emptyBoard } =
      HandlerResult.response
        { Board := emptyBoard, Captures := [], Message := "You passed. AI's turn.",
          MoveType := "PASS" } :=
  (moveHandler_pass (fun _ => id)
    { Board := emptyBoard, Player := BLACK, Row := -1, Col := -1, Captures := [],
      LastBoardState := emptyBoard } rfl rfl rfl).1

/-! ### The handler with its run-time panics -/

theorem captureCell_length (opp : Int) (s : CaptureState) (rc : Int × Int) :
    (captureCell opp s rc).board.length = s.board.length := by
  unfold captureCell
  simp only
  split
  · split
    · exact clearGroup_length _ _ _
    · rfl
  · rfl

/-- The board `removeCapturedStones` leaves has the length of the board it was
given. -/
theorem removeCapturedStones_length (board : List Int) (player : Int) :
    (removeCapturedStones board player).1.length = board.length := by
  have : ∀ (l : List (Int × Int)) (s : CaptureState),
      (l.foldl (captureCell (getOpponent player)) s).board.length = s.board.length := by
    intro l
    induction l with
    | nil => intro s; rfl
    | cons rc rest ih =>
      intro s
      rw [List.foldl_cons, ih, captureCell_length]
  unfold removeCapturedStones
  simp only
  rw [this]

/-- On a board of fewer than 81 cells the search panics at a read of
`generateMoves`. -/
theorem aiReplyChecked_short (orders : List Move → List Int → List Int) {board : List Int}
    (h : board.length < 81) (captures : Option (List (String × Int))) :
    aiReplyChecked orders board captures = HandlerOutcome.panic := by
  have hg : gridReadable board = false := by
    rw [← Bool.not_eq_true, gridReadable_iff]
    omega
  unfold aiReplyChecked
  simp [hg]

/-- On a board of at least 81 cells and with a captures map, the second half
of the handler does not panic and writes the response of `aiReply`. -/
theorem aiReplyChecked_eq (orders : List Move → List Int → List Int) {board : List Int}
    (h : 81 ≤ board.length) (m : List (String × Int)) :
    aiReplyChecked orders board (some m) =
      HandlerOutcome.response (rawResponse (aiReply orders board m)) := by
  have hg : gridReadable board = true := (gridReadable_iff board).2 h
  unfold aiReplyChecked aiReply
  simp only [hg, Option.getD_some, Bool.not_true, Bool.false_eq_true, if_false]
  by_cases hpass : (findBestMove orders board m board).Row = -1 ∧
      (findBestMove orders board m board).Col = -1
  · rw [if_pos hpass, if_pos hpass]
    rfl
  · rw [if_neg hpass, if_neg hpass, isMoveLegalChecked_eq h]
    cases hl : isMoveLegal board (findBestMove orders board m board).Row
        (findBestMove orders board m board).Col WHITE board with
    | false => simp [rawResponse]
    | true => simp [rawResponse]

/-- Without a captures map, on a board of 81 cells, the second half of the
handler writes the pass of white or panics at the update of the map. -/
theorem aiReplyChecked_nil (orders : List Move → List Int → List Int) {board : List Int}
    (h : board.length = 81) :
    aiReplyChecked orders board none =
      if findBestMove orders board [] board = passMove then
        HandlerOutcome.response
          { Board := board, Captures := none, Message := "AI passes. Your turn.",
            MoveType := "PASS" }
      else HandlerOutcome.panic := by
  have hg : gridReadable board = true := (gridReadable_iff board).2 (by omega)
  unfold aiReplyChecked
  simp only [hg, Option.getD_none, Bool.not_true, Bool.false_eq_true, if_false]
  by_cases hpass : (findBestMove orders board [] board).Row = -1 ∧
      (findBestMove orders board [] board).Col = -1
  · have hp : findBestMove orders board [] board = passMove := by
      cases hfb : findBestMove orders board [] board with
      | mk r c =>
        rw [hfb] at hpass
        simp only at hpass
        rw [hpass.1, hpass.2]
        rfl
    rw [if_pos hpass, if_pos hp]
  · have hp : findBestMove orders board [] board ≠ passMove := by
      intro hp
      apply hpass
      rw [hp]
      exact ⟨rfl, rfl⟩
    rw [if_neg hpass, if_neg hp, isMoveLegalChecked_eq (by omega)]
    rcases findBestMove_pass_or_legal orders board [] h with h1 | h1
    · exact absurd h1 hp
    · rw [h1]

/-- The outcome of `moveHandler` lifted to the outcomes with panics. -/
theorem moveHandlerChecked_eq (orders : List Move → List Int → List Int)
    (req : RawMoveRequest) (m : List (String × Int)) (hm : req.Captures = some m)
    (h : 81 ≤ req.Board.length) :
    moveHandlerChecked orders req =
      match moveHandler orders
        { Board := req.Board, Player := req.Player, Row := req.Row, Col := req.Col,
          Captures := m, LastBoardState := req.LastBoardState } with
      | HandlerResult.response resp => HandlerOutcome.response (rawResponse resp)
      | HandlerResult.error msg => HandlerOutcome.error msg := by
  unfold moveHandlerChecked moveHandler
  simp only [hm]
  by_cases hp : req.Player = BLACK
  · rw [if_pos hp, if_pos hp]
    by_cases hpass : req.Row = -1 ∧ req.Col = -1
    · rw [if_pos hpass, if_pos hpass]
      rfl
    · rw [if_neg hpass, if_neg hpass, isMoveLegalChecked_eq h]
      cases hl : isMoveLegal req.Board req.Row req.Col req.Player req.LastBoardState with
      | false => simp
      | true =>
        simp only [Bool.not_true, Bool.false_eq_true, if_false]
        rw [aiReplyChecked_eq]
        rw [removeCapturedStones_length, length_boardSet]
        exact h
  · rw [if_neg hp, if_neg hp]
    exact aiReplyChecked_eq orders h m

/-- C16, counterexample. A request whose player is 3, neither black nor
white, on a board of 81 cells is answered with white's reply played on its
board; a request in which black passes on a board of two cells, without a
captures map, is answered with that board; and a request whose player is 3 on
the board of two cells makes the handler panic at a read out of range in
`generateMoves`, here the read of the cell (1,1).  None of the three is
rejected with an error. -/
theorem moveHandler_accepts_malformed :
    moveHandlerChecked (fun _ => id)
        { Board := koAfter, Player := 3, Row := 0, Col := 0, Captures := some [("2", 1)],
          LastBoardState := [] } =
      HandlerOutcome.response
        { Board := koBefore, Captures := some [("1", 1), ("2", 1)],
          Message := "AI played at (0, 1).", MoveType := "PLAY" } ∧
    moveHandlerChecked (fun _ => id)
        { Board := [0, 1], Player := BLACK, Row := -1, Col := -1, Captures := none,
          LastBoardState := [] } =
      HandlerOutcome.response
        { Board := [0, 1], Captures := none, Message := "You passed. AI's turn.",
          MoveType := "PASS" } ∧
    moveHandlerChecked (fun _ => id)
        { Board := [0, 1], Player := 3, Row := 0, Col := 0, Captures := some [],
          LastBoardState := [] } = HandlerOutcome.panic ∧
    boardRead [0, 1] (toIndex 1 1) = none := by
  refine ⟨?_, ?_, ?_, by decide⟩
  · unfold moveHandlerChecked
    rw [if_neg (by decide)]
    simp only
    rw [aiReplyChecked_eq _ (by decide)]
    exact congrArg (fun resp => HandlerOutcome.response (rawResponse resp))
      (aiReply_koAfter _ (fun _ l => List.Perm.refl l))
  · unfold moveHandlerChecked
    rw [if_pos (by decide), if_pos (by decide)]
  · unfold moveHandlerChecked
    rw [if_neg (by decide)]
    exact aiReplyChecked_short _ (by decide) _

/-- C16, amended. The handler `moveHandlerChecked`, in which `none` for the
captures is the nil map and `panic` the run-time panic of a read out of range
or of a write to the nil map, validates neither the length of the board nor the
colour of the player.  The only error it writes is "Illegal move. (Suicide or
Ko)", exactly when black plays a move other than the pass for which
`isMoveLegal` returns `false` without a panic.  A request in which black passes
is answered with its board and its captures unchanged, whatever the length of
the board.  A move of black other than the pass on a board of fewer than 81
cells ends in that error or in a panic, never in a response, and a move of
black that `isMoveLegal` accepts panics when the captures map is nil.  A
request whose player is not black, be it white or no colour at all, panics on
a board of fewer than 81 cells; on a board of at least 81 cells with a captures
map it is answered with white's reply `aiReply` on the board of the request,
the move of the request being ignored; on a board of 81 cells with the nil map
it is answered with the pass of white when the search selects the pass and
panics otherwise. -/
theorem moveHandler_rejects_only_illegal (orders : List Move → List Int → List Int)
    (req : RawMoveRequest) :
    (∀ msg, moveHandlerChecked orders req = HandlerOutcome.error msg →
      msg = "Illegal move. (Suicide or Ko)") ∧
    (moveHandlerChecked orders req = HandlerOutcome.error "Illegal move. (Suicide or Ko)" ↔
      req.Player = BLACK ∧ ¬ (req.Row = -1 ∧ req.Col = -1) ∧
        isMoveLegalChecked req.Board req.Row req.Col req.Player req.LastBoardState =
          some false) ∧
    (req.Player = BLACK → req.Row = -1 → req.Col = -1 →
      moveHandlerChecked orders req =
        HandlerOutcome.response
          { Board := req.Board, Captures := req.Captures, Message := "You passed. AI's turn.",
            MoveType := "PASS" }) ∧
    (req.Player = BLACK → ¬ (req.Row = -1 ∧ req.Col = -1) → req.Board.length < 81 →
      moveHandlerChecked orders req = HandlerOutcome.error "Illegal move. (Suicide or Ko)" ∨
        moveHandlerChecked orders req = HandlerOutcome.panic) ∧
    (req.Player = BLACK → ¬ (req.Row = -1 ∧ req.Col = -1) →
      isMoveLegalChecked req.Board req.Row req.Col req.Player req.LastBoardState = some true →
      req.Captures = none → moveHandlerChecked orders req = HandlerOutcome.panic) ∧
    (req.Player ≠ BLACK → req.Board.length < 81 →
      moveHandlerChecked orders req = HandlerOutcome.panic) ∧
    (req.Player ≠ BLACK → 81 ≤ req.Board.length → ∀ m, req.Captures = some m →
      moveHandlerChecked orders req =
        HandlerOutcome.response (rawResponse (aiReply orders req.Board m))) ∧
    (req.Player ≠ BLACK → req.Board.length = 81 → req.Captures = none →
      moveHandlerChecked orders req =
        if findBestMove orders req.Board [] req.Board = passMove then
          HandlerOutcome.response
            { Board := req.Board, Captures := none, Message := "AI passes. Your turn.",
              MoveType := "PASS" }
        else HandlerOutcome.panic) := by
  have hblack : req.Player = BLACK → ¬ (req.Row = -1 ∧ req.Col = -1) →
      isMoveLegalChecked req.Board req.Row req.Col req.Player req.LastBoardState = some false →
      moveHandlerChecked orders req = HandlerOutcome.error "Illegal move. (Suicide or Ko)" := by
    intro hp hpass hl
    unfold moveHandlerChecked
    rw [if_pos hp, if_neg hpass, hl]
  have herr : ∀ msg, moveHandlerChecked orders req = HandlerOutcome.error msg →
      msg = "Illegal move. (Suicide or Ko)" ∧ req.Player = BLACK ∧
        ¬ (req.Row = -1 ∧ req.Col = -1) ∧
        isMoveLegalChecked req.Board req.Row req.Col req.Player req.LastBoardState =
          some false := by
    intro msg h
    have hai : ∀ board captures, aiReplyChecked orders board captures ≠
        HandlerOutcome.error msg := by
      intro board captures
      unfold aiReplyChecked
      split
      · simp
      · simp only
        split
        · simp
        · split
          · simp
          · simp
          · split <;> simp
    unfold moveHandlerChecked at h
    by_cases hp : req.Player = BLACK
    · rw [if_pos hp] at h
      by_cases hpass : req.Row = -1 ∧ req.Col = -1
      · rw [if_pos hpass] at h
        exact absurd h (by simp)
      · rw [if_neg hpass] at h
        cases hl : isMoveLegalChecked req.Board req.Row req.Col req.Player
            req.LastBoardState with
        | none =>
          rw [hl] at h
          exact absurd h (by simp)
        | some b =>
          cases b with
          | false =>
            rw [hl] at h
            simp only [HandlerOutcome.error.injEq] at h
            exact ⟨h.symm, hp, hpass, rfl⟩
          | true =>
            rw [hl] at h
            simp only at h
            cases hc : req.Captures with
            | none =>
              rw [hc] at h
              exact absurd h (by simp)
            | some m =>
              rw [hc] at h
              exact absurd h (hai _ _)
    · rw [if_neg hp] at h
      exact absurd h (hai _ _)
  refine ⟨fun msg h => (herr msg h).1, ⟨fun h => (herr _ h).2, fun h =>
    hblack h.1 h.2.1 h.2.2⟩, ?_, ?_, ?_, ?_, ?_, ?_⟩
  · intro hp hr hc
    unfold moveHandlerChecked
    rw [if_pos hp, if_pos ⟨hr, hc⟩]
  · intro hp hpass hlen
    cases hl : isMoveLegalChecked req.Board req.Row req.Col req.Player
        req.LastBoardState with
    | none =>
      right
      unfold moveHandlerChecked
      rw [if_pos hp, if_neg hpass, hl]
    | some b =>
      cases b with
      | false => exact Or.inl (hblack hp hpass hl)
      | true =>
        rcases isMoveLegalChecked_true hl with h1 | h1
        · exact absurd h1 hpass
        · omega
  · intro hp hpass hl hc
    unfold moveHandlerChecked
    rw [if_pos hp, if_neg hpass, hl]
    simp only [hc]
  · intro hp hlen
    unfold moveHandlerChecked
    rw [if_neg hp]
    exact aiReplyChecked_short orders hlen _
  · intro hp hlen m hm
    unfold moveHandlerChecked
    rw [if_neg hp, hm]
    exact aiReplyChecked_eq orders hlen m
  · intro hp hlen hc
    unfold moveHandlerChecked
    rw [if_neg hp, hc]
    exact aiReplyChecked_nil orders hlen

theorem moveHandler_rejects_only_illegal_witness :
    (3 : Int) ≠ BLACK ∧ ([0, 1] : List Int).length < 81 ∧
      moveHandlerChecked (fun _ => id)
          { Board := [0, 1], Player := 3, Row := 0, Col := 0, Captures := none,
            LastBoardState := [] } = HandlerOutcome.panic ∧
      (1 : Int) = BLACK ∧ ¬ ((9 : Int) = -1 ∧ (0 : Int) = -1) ∧
      moveHandlerChecked (fun _ => id)
          { Board := [], Player := 1, Row := 9, Col := 0, Captures := none,
            LastBoardState := [] } = HandlerOutcome.error "Illegal move. (Suicide or Ko)" :=
  ⟨by decide, by decide,
    (moveHandler_rejects_only_illegal (fun _ => id)
      { Board := [0, 1], Player := 3, Row := 0, Col := 0, Captures := none,
        LastBoardState := [] }).2.2.2.2.2.1 (by decide) (by decide),
    by decide, by decide,
    (moveHandler_rejects_only_illegal (fun _ => id)
      { Board := [], Player := 1, Row := 9, Col := 0, Captures := none,
        LastBoardState := [] }).2.1.2 ⟨by decide, by decide, by decide⟩⟩

set_option maxRecDepth 100000 in
/-- C17. Black takes the ko in `koBefore` with a legal move at (0,2), on a
board of 81 cells whose previous position was `koPrevious`.  Whatever the
orders of the map ranges, the board `moveHandler` returns after white's reply
is `koBefore` again, the board as it stood before black's move: white has
retaken the ko at once.  The retake is rejected by `isMoveLegal` when
`lastBoardState` is `koBefore`, and accepted when it is `koAfter`, the board
the handler passes. -/
theorem moveHandler_ko_retake (orders : List Move → List Int → List Int)
    (hperm : ∀ path l, (orders path l).Perm l) :
    koRequest.Board = koBefore ∧ koBefore.length = 81 ∧
    isMoveLegal koBefore 0 2 BLACK koPrevious = true ∧
    (removeCapturedStones (boardSet koBefore (toIndex 0 2) BLACK) BLACK).1 = koAfter ∧
    isMoveLegal koAfter 0 1 WHITE koBefore = false ∧
    isMoveLegal koAfter 0 1 WHITE koAfter = true ∧
    moveHandler orders koRequest =
      HandlerResult.response
        { Board := koBefore, Captures := [("1", 1), ("2", 1)],
          Message := "AI played at (0, 1).", MoveType := "PLAY" } := by
  have h1 : isMoveLegal koBefore 0 2 BLACK koPrevious = true := by decide
  have h2 : removeCapturedStones (boardSet koBefore (toIndex 0 2) BLACK) BLACK =
      (koAfter, 1) := by decide
  have h3 : capturesAdd [] (itoaColour WHITE) ((1 : Nat) : Int) = [("2", 1)] := by decide
  refine ⟨rfl, by decide, h1, by rw [h2], by decide, by decide, ?_⟩
  unfold moveHandler
  simp only [koRequest]
  rw [h1, h2, h3, aiReply_koAfter orders hperm]
  simp

theorem moveHandler_ko_retake_witness :
    (∀ (path : List Move) (l : List Int), ((fun (_ : List Move) => id) path l).Perm l) ∧
    moveHandler (fun _ => id) koRequest =
      HandlerResult.response
        { Board := koBefore, Captures := [("1", 1), ("2", 1)],
          Message := "AI played at (0, 1).", MoveType := "PLAY" } :=
  ⟨fun _ l => List.Perm.refl l,
    (moveHandler_ko_retake (fun _ => id) (fun _ l => List.Perm.refl l)).2.2.2.2.2.2⟩

end GoBackend
